import Mathlib

/-!
# Verification of the Minesweeper board engine and solver

This file gives a shallow embedding, in Lean 4, of the two generations of the
Minesweeper implementation found in the repository:

* `MainGame` embeds `src/main.py` (self-contained game: `Cell` with boolean
  `covered`/`bomb`/`flagged`/`disabled` fields plus cached neighbour counters,
  and `Minesweeper` with `generate_board`, `uncover_neighbors`,
  `flag_neighbors`, `unflag_neighbors`, `end_game`, `alter_counter`,
  `has_won`).  The behaviourally identical refactored cell in `src/cell.py`
  shares this semantics.
* `SolverGame` embeds `src/minesweeper.py` together with `src/solver.py`
  (cells carry a three-valued `state` and an `is_bomb` flag; neighbour counts
  are computed on demand; the solver keeps a 2D array of active cells).  The
  `Cell` class this pair imports (`from cell import Cell`) is not present in
  the repository sources, so its click handlers are modelled from the spec, as
  flagged in the relevant doc comments.

GUI-only behaviour (tkinter widgets, colours, relief, key bindings) is not
modelled; every game-state mutation performed by the Python code is.

Machine integers: all Python ints are modelled as `Int` (or `Nat` for sizes
and indices); Python ints are arbitrary precision, so no wrap-around is
modelled.  The single floating-point computation
`((row-r)**2 + (column-c)**2)**0.5 > 1.5` is translated to the exact integer
test `(row-r)^2 + (column-c)^2 > 2`: the squared distance is a small integer
`d2`, and `sqrt d2 > 1.5 ↔ d2 > 2.25 ↔ d2 > 2`; IEEE double sqrt of integers
up to a few hundred is far more accurate than the gap to 1.5, so the float
comparison agrees with the integer one.

Recursive procedures (the reveal flood fill, the solver loop) are embedded
with an explicit fuel parameter returning `Option`, where `none` means the
fuel was exhausted; termination claims become statements that a concrete
fuel bound always yields `some`.
-/

namespace Minesweeper

/-! ## List utilities

`modNth l i f` applies `f` to the `i`-th element of `l` (and is the identity
when `i` is out of range) — the shape of every cell mutation
`self.cells[r][c].field = ...` once the 2D array of cells is flattened in
row-major order. -/

def modNth {α : Type} (l : List α) (i : Nat) (f : α → α) : List α :=
  match l[i]? with
  | some a => l.set i (f a)
  | none => l

theorem length_modNth {α : Type} (l : List α) (i : Nat) (f : α → α) :
    (modNth l i f).length = l.length := by
  unfold modNth
  cases l[i]? <;> simp

theorem getElem?_modNth_self {α : Type} (l : List α) (i : Nat) (f : α → α) :
    (modNth l i f)[i]? = l[i]?.map f := by
  unfold modNth
  cases h : l[i]? with
  | none => simp [h]
  | some a =>
    have hi : i < l.length := by
      cases Nat.lt_or_ge i l.length with
      | inl h' => exact h'
      | inr h' =>
        rw [List.getElem?_eq_none h'] at h
        cases h
    simp [h, List.getElem?_set_eq_of_lt _ hi]

theorem getElem?_modNth_ne {α : Type} (l : List α) (i j : Nat) (f : α → α)
    (hij : i ≠ j) : (modNth l i f)[j]? = l[j]? := by
  unfold modNth
  cases h : l[i]? with
  | none => simp
  | some a => simp [List.getElem?_set_ne hij]

theorem countP_modNth {α : Type} (l : List α) (i : Nat) (f : α → α)
    (p : α → Bool) (a : α) (h : l[i]? = some a) :
    (modNth l i f).countP p + (if p a then 1 else 0)
      = l.countP p + (if p (f a) then 1 else 0) := by
  induction l generalizing i with
  | nil => simp at h
  | cons b t ih =>
    cases i with
    | zero =>
      simp at h
      subst h
      simp [modNth, List.countP_cons]
      omega
    | succ j =>
      simp at h
      have := ih j h
      have hmod : modNth (b :: t) (j+1) f = b :: modNth t j f := by
        unfold modNth
        simp
        cases t[j]? <;> simp
      rw [hmod]
      simp [List.countP_cons]
      omega

/-- Pointwise monotone predicates give monotone counts (same-length lists). -/
theorem countP_le_of_pointwise {α : Type} (p : α → Bool) :
    ∀ (l₁ l₂ : List α), l₁.length = l₂.length →
    (∀ (i : Nat) (a b : α), l₁[i]? = some a → l₂[i]? = some b → p b = true → p a = true) →
    l₂.countP p ≤ l₁.countP p := by
  intro l₁
  induction l₁ with
  | nil =>
    intro l₂ hl _
    have h2 : l₂ = [] := List.eq_nil_of_length_eq_zero hl.symm
    subst h2
    simp
  | cons a t ih =>
    intro l₂ hl hp
    cases l₂ with
    | nil => simp
    | cons b t₂ =>
      simp at hl
      have h0 := hp 0 a b (by simp) (by simp)
      have ht := ih t₂ hl (fun i x y hx hy => hp (i+1) x y (by simpa using hx) (by simpa using hy))
      simp only [List.countP_cons]
      by_cases hb : p b = true
      · have := h0 hb
        simp [this, hb]
        omega
      · simp at hb
        simp [hb]
        split <;> omega

/-- Strict version: additionally one index flips from satisfying `p` to not. -/
theorem countP_lt_of_pointwise {α : Type} (p : α → Bool)
    (l₁ l₂ : List α) (hl : l₁.length = l₂.length)
    (hp : ∀ (i : Nat) (a b : α), l₁[i]? = some a → l₂[i]? = some b → p b = true → p a = true)
    (j : Nat) (a b : α) (ha : l₁[j]? = some a) (hb : l₂[j]? = some b)
    (hpa : p a = true) (hpb : p b = false) :
    l₂.countP p < l₁.countP p := by
  induction l₁ generalizing l₂ j with
  | nil => simp at ha
  | cons x t ih =>
    cases l₂ with
    | nil => simp at hb
    | cons y t₂ =>
      simp at hl
      have h0 := hp 0 x y (by simp) (by simp)
      have hmono := countP_le_of_pointwise p t t₂ hl
        (fun i u v hu hv => hp (i+1) u v (by simpa using hu) (by simpa using hv))
      cases j with
      | zero =>
        simp at ha hb
        subst ha; subst hb
        simp [List.countP_cons, hpa, hpb]
        omega
      | succ k =>
        simp at ha hb
        have := ih t₂ hl
          (fun i u v hu hv => hp (i+1) u v (by simpa using hu) (by simpa using hv))
          k ha hb
        simp only [List.countP_cons]
        by_cases hy : p y = true
        · simp [hy, h0 hy]; omega
        · simp at hy
          simp [hy]; split <;> omega

/-- A list's `countP` equals its length iff every element satisfies `p`. -/
theorem countP_eq_length_iff {α : Type} (p : α → Bool) (l : List α) :
    l.countP p = l.length ↔ ∀ a ∈ l, p a = true :=
  List.countP_eq_length

end Minesweeper

namespace MainGame

open Minesweeper

/-! ## Embedding of `src/main.py`

`Cfg` holds the class attributes `WIDTH`, `HEIGHT`, `BOMBS` (9, 9, 10 in the
source; the game logic reads them only through `self.`, so the embedding is
parametric in them — the later `minesweeper.py` generation makes the same
quantities per-instance and resizable).  `cells` is the row-major flattening
of the `WIDTH × HEIGHT` 2D array (`cells[row][column] ↦ cells[row*HEIGHT +
column]`); rows are indexed by `range(WIDTH)` and columns by `range(HEIGHT)`
exactly as in `main.py`. -/

structure Cfg where
  WIDTH : Nat
  HEIGHT : Nat
  BOMBS : Nat
deriving DecidableEq

/-- The mutable per-cell attributes of `main.py`'s `Cell` (GUI widgets aside). -/
structure CellA where
  covered : Bool
  bomb : Bool
  flagged : Bool
  disabled : Bool
  neighboring_bombs : Int
  neighboring_flags : Int
deriving DecidableEq

/-- The `bombs_left` StringVar: either the textual number or one of the two
terminal messages "You Win" / "You Lose". -/
inductive MsgA where
  | num (n : Int)
  | winMsg
  | loseMsg
deriving DecidableEq

/-- The game-level mutable state of `main.py`'s `Minesweeper`. -/
structure StateA where
  cells : List CellA
  generated_board : Bool
  game_over : Bool
  bombs_left : MsgA
deriving DecidableEq

/-- A fresh cell, as initialised by `Cell.__init__` / `Cell.reset`. -/
def initCell : CellA :=
  { covered := true, bomb := false, flagged := false, disabled := false
    neighboring_bombs := 0, neighboring_flags := 0 }

/-- The state after `Minesweeper.__init__` (or `reset`). -/
def initState (g : Cfg) : StateA :=
  { cells := List.replicate (g.WIDTH * g.HEIGHT) initCell
    generated_board := false
    game_over := false
    bombs_left := .num g.BOMBS }

/-- In-bounds test for a (possibly negative) coordinate pair.  `main.py`
guards every neighbour access with `row+i >= 0 and column+j >= 0` plus a
caught `IndexError`; Python's tolerated negative index -1 is always followed
by the `>= 0` test failing, so the net behaviour is plain clipping. -/
def inB (g : Cfg) (r c : Int) : Bool :=
  0 ≤ r && r < g.WIDTH && 0 ≤ c && c < g.HEIGHT

def idx (g : Cfg) (r c : Int) : Nat :=
  r.toNat * g.HEIGHT + c.toNat

/-- `self.cells[r][c]`, clipped. -/
def getA (g : Cfg) (s : StateA) (r c : Int) : Option CellA :=
  if inB g r c then s.cells[idx g r c]? else none

/-- Mutate the cell at `(r, c)` (no-op out of bounds). -/
def modA (g : Cfg) (s : StateA) (r c : Int) (f : CellA → CellA) : StateA :=
  if inB g r c then { s with cells := modNth s.cells (idx g r c) f } else s

/-- `itertools.product((-1, 1, 0), (-1, 1, 0))` — the 3×3 neighbourhood
offsets, *including* `(0, 0)`, in the order `generate_board` iterates them. -/
def offs_gen : List (Int × Int) :=
  [(-1,-1),(-1,1),(-1,0),(1,-1),(1,1),(1,0),(0,-1),(0,1),(0,0)]

/-- `itertools.product((-1, 0, 1), (-1, 0, 1))` — the 3×3 neighbourhood
offsets, *including* `(0, 0)`, in the order the uncover/flag loops use. -/
def offs_std : List (Int × Int) :=
  [(-1,-1),(-1,0),(-1,1),(0,-1),(0,0),(0,1),(1,-1),(1,0),(1,1)]

/-- `Minesweeper.alter_counter`: sets the label to `int(label) + increment`.
When the label holds "You Win"/"You Lose" the Python `int()` call would raise
`ValueError` (uncaught in `main.py`); no modelled execution path reaches that
case, and it is embedded as a no-op. -/
def alter_counter (inc : Int) (s : StateA) : StateA :=
  match s.bombs_left with
  | .num n => { s with bombs_left := .num (n + inc) }
  | _ => s

/-- The shared body of `flag_neighbors` / `unflag_neighbors`: add `d` to
`neighboring_flags` of every in-bounds cell of the 3×3 block around
`(row, col)` — including `(row, col)` itself, since the offset product
contains `(0, 0)`. -/
def bump_flags (g : Cfg) (row col d : Int) (s : StateA) : StateA :=
  offs_std.foldl
    (fun s' o => modA g s' (row + o.1) (col + o.2)
      (fun cl => { cl with neighboring_flags := cl.neighboring_flags + d }))
    s

/-- `Minesweeper.flag_neighbors`. -/
def flag_neighbors (g : Cfg) (row col : Int) (s : StateA) : StateA :=
  bump_flags g row col 1 s

/-- `Minesweeper.unflag_neighbors`. -/
def unflag_neighbors (g : Cfg) (row col : Int) (s : StateA) : StateA :=
  bump_flags g row col (-1) s

/-- `Cell.flag`: toggle the flag, update every neighbour's flag cache and the
bomb counter. -/
def flag (g : Cfg) (r c : Int) (s : StateA) : StateA :=
  match getA g s r c with
  | none => s
  | some cell =>
    if cell.flagged then
      alter_counter 1 (unflag_neighbors g r c
        (modA g s r c (fun cl => { cl with flagged := false })))
    else
      alter_counter (-1) (flag_neighbors g r c
        (modA g s r c (fun cl => { cl with flagged := true })))

/-- `Cell.show`: unflag if flagged, then reveal and disable the cell (used
only by `end_game`). -/
def show_cell (g : Cfg) (r c : Int) (s : StateA) : StateA :=
  let s1 :=
    match getA g s r c with
    | some cell => if cell.flagged then flag g r c s else s
    | none => s
  modA g s1 r c (fun cl => { cl with covered := false, disabled := true })

/-- `Minesweeper.end_game`: `show` every cell in row-major order, then set
`game_over` and the "You Lose" message. -/
def end_game (g : Cfg) (s : StateA) : StateA :=
  let s1 := (List.range (g.WIDTH * g.HEIGHT)).foldl
    (fun sa i => show_cell g ((i / g.HEIGHT : Nat) : Int) ((i % g.HEIGHT : Nat) : Int) sa) s
  { s1 with game_over := true, bombs_left := .loseMsg }

/- The recursion `Cell.uncover` / `Minesweeper.uncover_neighbors` (the
cascade flood fill), modelled with explicit fuel and written structurally
recursive on the fuel so that concrete games compute.  `nbrsGo` is the
offset loop of `uncover_neighbors`, abstracted over the recursive `uncover`
call (`rec`); fuel is consumed exactly when the loop passes control back to
`uncover`, and a `none` result means the fuel ran out. -/

/-- The offset loop of `Minesweeper.uncover_neighbors` (`src/main.py`):
recurse, via the supplied `uncover` call `rec`, into every in-bounds
still-covered cell of the 3×3 block around `(r, c)`, in offset order. -/
def nbrsGo (g : Cfg) (rec : Int → Int → StateA → Option StateA) :
    List (Int × Int) → Int → Int → StateA → Option StateA
  | [], _, _, s => some s
  | o :: rest, r, c, s =>
    match getA g s (r + o.1) (c + o.2) with
    | some cell =>
      if cell.covered then
        match rec (r + o.1) (c + o.2) s with
        | none => none
        | some s1 => nbrsGo g rec rest r c s1
      else nbrsGo g rec rest r c s
    | none => nbrsGo g rec rest r c s

/-- `Cell.uncover` (`src/main.py`, also `src/cell.py`): no-op when flagged,
`end_game` on a bomb, otherwise reveal and cascade into the neighbours when
`neighboring_bombs == 0`. -/
def uncoverF (g : Cfg) (fuel : Nat) (r c : Int) (s : StateA) : Option StateA :=
  match getA g s r c with
  | none => some s
  | some cell =>
    if cell.flagged then some s
    else if cell.bomb then some (end_game g s)
    else
      let s1 := modA g s r c (fun cl => { cl with covered := false })
      if cell.neighboring_bombs = 0 then
        match fuel with
        | 0 => none
        | fu + 1 => nbrsGo g (uncoverF g fu) offs_std r c s1
      else some s1

/-- `Minesweeper.uncover_neighbors` (`src/main.py`) packaged with its fuel:
with positive fuel it is exactly the `nbrsGo` loop recursing into `uncoverF`
at one less fuel (which is how `uncoverF` invokes it). -/
def uncover_neighborsF (g : Cfg) (fuel : Nat) (offs : List (Int × Int))
    (r : Int) (c : Int) (s : StateA) : Option StateA :=
  match fuel, offs with
  | _, [] => some s
  | 0, _ :: _ => none
  | fu + 1, o :: rest => nbrsGo g (uncoverF g fu) (o :: rest) r c s

/-- The running total computed by the first loop of `Minesweeper.has_won`:
start from `WIDTH*HEIGHT` and subtract 1 for every cell that is a bomb or
(else) not covered. -/
def has_won_total (g : Cfg) (s : StateA) : Int :=
  s.cells.foldl
    (fun t cl => if cl.bomb then t - 1 else if cl.covered = false then t - 1 else t)
    ((g.WIDTH * g.HEIGHT : Nat) : Int)

/-- One iteration of the win loop of `has_won` at flat index `i`: flag the
cell when it is an unflagged bomb, then disable it. -/
def win_step (g : Cfg) (i : Nat) (s : StateA) : StateA :=
  let r : Int := ((i / g.HEIGHT : Nat) : Int)
  let c : Int := ((i % g.HEIGHT : Nat) : Int)
  let s1 :=
    match getA g s r c with
    | some cl => if cl.bomb = true ∧ cl.flagged = false then flag g r c s else s
    | none => s
  modA g s1 r c (fun cl => { cl with disabled := true })

/-- `Minesweeper.has_won` (`src/main.py` lines 386-408): when the total hits
zero, auto-flag every remaining unflagged bomb, disable every cell (row-major
double loop, flattened here) and display "You Win".  Note that it never
assigns `game_over`. -/
def has_won (g : Cfg) (s : StateA) : StateA :=
  if has_won_total g s = 0 then
    let s1 := (List.range (g.WIDTH * g.HEIGHT)).foldl (fun sa i => win_step g i sa) s
    { s1 with bombs_left := .winMsg }
  else s

/-- The inner neighbour loop of `generate_board`: after a bomb is placed at
`(row, col)`, increment `neighboring_bombs` on every in-bounds cell of the
3×3 block — including `(row, col)` itself, because
`product((-1, 1, 0), (-1, 1, 0))` contains `(0, 0)`. -/
def place_bomb_increments (g : Cfg) (row col : Int) (s : StateA) : StateA :=
  offs_gen.foldl
    (fun s' o => modA g s' (row + o.1) (col + o.2)
      (fun cl => { cl with neighboring_bombs := cl.neighboring_bombs + 1 }))
    s

/-- The body of a successful placement iteration: mark `(row, col)` as a bomb
and run the neighbour-increment loop. -/
def place_bomb (g : Cfg) (row col : Int) (s : StateA) : StateA :=
  place_bomb_increments g row col
    (modA g s row col (fun cl => { cl with bomb := true }))

/-- The `while bombs > 0` loop of `Minesweeper.generate_board`.  Each loop
iteration draws `randint(0, WIDTH-1), randint(0, HEIGHT-1)`; the random
stream is modelled as an explicit list of in-range picks consumed one per
iteration, so a `bombs` component still positive at the end means the run
was cut off mid-loop (the Python loop would keep drawing).  A pick places a
bomb only if the cell is not already a bomb and its squared distance from
the seed exceeds 2 (the integer form of `dist > 1.5`). -/
def generate_loop (g : Cfg) (r c : Int) :
    List (Fin g.WIDTH × Fin g.HEIGHT) → Nat → StateA → StateA × Nat
  | [], bombs, s => (s, bombs)
  | p :: rest, bombs, s =>
    if bombs = 0 then (s, 0)
    else
      let row : Int := ((p.1 : Nat) : Int)
      let col : Int := ((p.2 : Nat) : Int)
      match getA g s row col with
      | some cell =>
        if cell.bomb = false ∧ (row - r) * (row - r) + (col - c) * (col - c) > 2 then
          generate_loop g r c rest (bombs - 1) (place_bomb g row col s)
        else generate_loop g r c rest bombs s
      | none => generate_loop g r c rest bombs s

/-- `Minesweeper.generate_board`: set `generated_board := True`, then run the
placement loop for `BOMBS` bombs with seed `(r, c)`.  Returns the final state
and the number of bombs still to place (0 iff the loop finished). -/
def generate_board (g : Cfg) (picks : List (Fin g.WIDTH × Fin g.HEIGHT))
    (r c : Int) (s : StateA) : StateA × Nat :=
  generate_loop g r c picks g.BOMBS { s with generated_board := true }

/-- `Cell.left_cell_press` (`src/main.py` lines 68-84; `Cell.left_click` in
`src/cell.py` is the same handler with the `covered` test lifted into the
guard, which is behaviourally identical for reachable states). -/
def left_cell_press (g : Cfg) (fuel : Nat) (picks : List (Fin g.WIDTH × Fin g.HEIGHT))
    (r c : Int) (s : StateA) : Option StateA :=
  match getA g s r c with
  | none => some s
  | some cell =>
    if cell.disabled = false ∧ cell.flagged = false then
      if s.generated_board = false then
        uncoverF g fuel r c (generate_board g picks r c s).1
      else if cell.bomb then some (end_game g s)
      else if cell.covered then (uncoverF g fuel r c s).map (has_won g)
      else some s
    else some s

/-- `Cell.right_cell_press`: flag-toggle a covered, enabled cell. -/
def right_cell_press (g : Cfg) (r c : Int) (s : StateA) : StateA :=
  match getA g s r c with
  | none => s
  | some cell =>
    if cell.disabled = false ∧ cell.covered = true then flag g r c s else s

/-- `Cell.double_left_cell_press`: chord when the flag cache matches the bomb
cache, then (unconditionally, unless the game is over) evaluate `has_won`. -/
def double_left_cell_press (g : Cfg) (fuel : Nat) (r c : Int) (s : StateA) :
    Option StateA :=
  match getA g s r c with
  | none => some s
  | some cell =>
    let step1 : Option StateA :=
      if cell.disabled = false ∧ cell.covered = false ∧
          cell.neighboring_flags = cell.neighboring_bombs then
        uncover_neighborsF g fuel offs_std r c s
      else some s
    step1.map (fun s1 => if s1.game_over = false then has_won g s1 else s1)

/-! ### Derived quantities used by the specification claims -/

/-- Number of cells currently `covered`. -/
def coveredCount (s : StateA) : Nat :=
  s.cells.countP (fun cl => cl.covered)

/-- Number of cells currently carrying a bomb (`sum(isBomb)`). -/
def bombTotal (s : StateA) : Nat :=
  s.cells.countP (fun cl => cl.bomb)

/-- The 8 proper Moore offsets (the 3×3 block minus `(0, 0)`). -/
def offs_moore : List (Int × Int) :=
  [(-1,-1),(-1,0),(-1,1),(0,-1),(0,1),(1,-1),(1,0),(1,1)]

/-- The number of bombs in the proper Moore neighbourhood of `(r, c)`. -/
def mooreBombs (g : Cfg) (s : StateA) (r c : Int) : Nat :=
  offs_moore.countP
    (fun o => (((getA g s (r + o.1) (c + o.2)).map (fun cl => cl.bomb)).getD false))

/-- The number of flagged cells in the proper Moore neighbourhood of `(r, c)`. -/
def mooreFlags (g : Cfg) (s : StateA) (r c : Int) : Nat :=
  offs_moore.countP
    (fun o => (((getA g s (r + o.1) (c + o.2)).map (fun cl => cl.flagged)).getD false))

/-- `true` iff every non-bomb cell is uncovered (the winning condition the
spec describes). -/
def allNonBombUncovered (s : StateA) : Bool :=
  s.cells.all (fun cl => cl.bomb || !cl.covered)

/-- `true` iff every bomb cell is flagged. -/
def allBombsFlagged (s : StateA) : Bool :=
  s.cells.all (fun cl => !cl.bomb || cl.flagged)

/-! ### Basic facts about the grid representation -/

theorem inB_iff (g : Cfg) (r c : Int) :
    inB g r c = true ↔ 0 ≤ r ∧ r < g.WIDTH ∧ 0 ≤ c ∧ c < g.HEIGHT := by
  unfold inB
  simp [Bool.and_eq_true, decide_eq_true_eq]
  omega

theorem rowcol_inj {H a b a' b' : Nat} (hb : b < H) (hb' : b' < H)
    (he : a * H + b = a' * H + b') : a = a' ∧ b = b' := by
  have hH : 0 < H := by omega
  have d1 : (a * H + b) / H = a := by
    rw [Nat.mul_comm, Nat.mul_add_div hH, Nat.div_eq_of_lt hb]
    omega
  have d2 : (a' * H + b') / H = a' := by
    rw [Nat.mul_comm, Nat.mul_add_div hH, Nat.div_eq_of_lt hb']
    omega
  have haa : a = a' := by rw [← d1, ← d2, he]
  subst haa
  exact ⟨rfl, by omega⟩

theorem idx_eq_iff (g : Cfg) {r c r' c' : Int}
    (h : inB g r c = true) (h' : inB g r' c' = true) :
    idx g r c = idx g r' c' ↔ (r = r' ∧ c = c') := by
  rw [inB_iff] at h h'
  unfold idx
  constructor
  · intro he
    have hb : c.toNat < g.HEIGHT := by omega
    have hb' : c'.toNat < g.HEIGHT := by omega
    have := rowcol_inj hb hb' he
    omega
  · intro he
    rw [he.1, he.2]

theorem idx_lt {g : Cfg} {r c : Int} (h : inB g r c = true) :
    idx g r c < g.WIDTH * g.HEIGHT := by
  rw [inB_iff] at h
  unfold idx
  have h1 : r.toNat < g.WIDTH := by omega
  have h2 : c.toNat < g.HEIGHT := by omega
  calc r.toNat * g.HEIGHT + c.toNat < r.toNat * g.HEIGHT + g.HEIGHT := by omega
    _ = (r.toNat + 1) * g.HEIGHT := by ring
    _ ≤ g.WIDTH * g.HEIGHT := Nat.mul_le_mul_right _ (by omega)

theorem getA_isSome {g : Cfg} {s : StateA} {r c : Int}
    (h : inB g r c = true) (hlen : s.cells.length = g.WIDTH * g.HEIGHT) :
    ∃ cl, getA g s r c = some cl := by
  unfold getA
  rw [h]
  simp only [if_true]
  have : idx g r c < s.cells.length := by rw [hlen]; exact idx_lt h
  exact ⟨s.cells[idx g r c], List.getElem?_eq_getElem this⟩

theorem cells_length_modA (g : Cfg) (s : StateA) (r c : Int) (f : CellA → CellA) :
    (modA g s r c f).cells.length = s.cells.length := by
  unfold modA
  split
  · simp [length_modNth]
  · rfl

theorem getA_modA_self (g : Cfg) (s : StateA) (r c : Int) (f : CellA → CellA)
    (h : inB g r c = true) :
    getA g (modA g s r c f) r c = (getA g s r c).map f := by
  unfold modA getA
  rw [h]
  simp only [if_true]
  exact getElem?_modNth_self _ _ _

theorem getA_modA_ne (g : Cfg) (s : StateA) (r c r' c' : Int) (f : CellA → CellA)
    (hne : ¬(r = r' ∧ c = c')) :
    getA g (modA g s r c f) r' c' = getA g s r' c' := by
  unfold modA getA
  by_cases h : inB g r c = true
  · rw [h]
    simp only [if_true]
    by_cases h' : inB g r' c' = true
    · rw [h']
      simp only [if_true]
      exact getElem?_modNth_ne _ _ _ _ (fun he => hne ((idx_eq_iff g h h').1 he))
    · simp [h']
  · simp [h]

theorem modA_game_over (g : Cfg) (s : StateA) (r c : Int) (f : CellA → CellA) :
    (modA g s r c f).game_over = s.game_over := by
  unfold modA
  split <;> rfl

theorem modA_generated (g : Cfg) (s : StateA) (r c : Int) (f : CellA → CellA) :
    (modA g s r c f).generated_board = s.generated_board := by
  unfold modA
  split <;> rfl

theorem modA_bombs_left (g : Cfg) (s : StateA) (r c : Int) (f : CellA → CellA) :
    (modA g s r c f).bombs_left = s.bombs_left := by
  unfold modA
  split <;> rfl

/-! ### Field accessors at a coordinate -/

def bombAt (g : Cfg) (s : StateA) (r c : Int) : Bool :=
  ((getA g s r c).map (fun cl => cl.bomb)).getD false

def coveredAt (g : Cfg) (s : StateA) (r c : Int) : Bool :=
  ((getA g s r c).map (fun cl => cl.covered)).getD false

def flaggedAt (g : Cfg) (s : StateA) (r c : Int) : Bool :=
  ((getA g s r c).map (fun cl => cl.flagged)).getD false

def disabledAt (g : Cfg) (s : StateA) (r c : Int) : Bool :=
  ((getA g s r c).map (fun cl => cl.disabled)).getD false

def nbombsAt (g : Cfg) (s : StateA) (r c : Int) : Int :=
  ((getA g s r c).map (fun cl => cl.neighboring_bombs)).getD 0

def nflagsAt (g : Cfg) (s : StateA) (r c : Int) : Int :=
  ((getA g s r c).map (fun cl => cl.neighboring_flags)).getD 0

/-- Flat index `i` corresponds to the coordinate pair `(i / HEIGHT, i % HEIGHT)`. -/
theorem getA_of_flat {g : Cfg} {s : StateA}
    (hlen : s.cells.length = g.WIDTH * g.HEIGHT) (i : Nat)
    (hi : i < g.WIDTH * g.HEIGHT) :
    getA g s ((i / g.HEIGHT : Nat) : Int) ((i % g.HEIGHT : Nat) : Int) = s.cells[i]? := by
  have hH : 0 < g.HEIGHT := by
    rcases Nat.eq_zero_or_pos g.HEIGHT with h0 | h0
    · rw [h0, Nat.mul_zero] at hi; omega
    · exact h0
  have hdiv : i / g.HEIGHT < g.WIDTH := Nat.div_lt_of_lt_mul (by rw [Nat.mul_comm]; exact hi)
  have hmod : i % g.HEIGHT < g.HEIGHT := Nat.mod_lt _ hH
  have hin : inB g ((i / g.HEIGHT : Nat) : Int) ((i % g.HEIGHT : Nat) : Int) = true := by
    rw [inB_iff]
    constructor
    · exact Int.ofNat_nonneg _
    constructor
    · exact_mod_cast hdiv
    constructor
    · exact Int.ofNat_nonneg _
    · exact_mod_cast hmod
  unfold getA idx
  rw [hin]
  simp only [if_true, Int.toNat_ofNat]
  have hdm : i / g.HEIGHT * g.HEIGHT + i % g.HEIGHT = i := Nat.div_add_mod' i g.HEIGHT
  rw [hdm]

/-- Same-length lists with pointwise equal predicate values have equal counts. -/
theorem countP_eq_of_pointwise {α : Type} (p : α → Bool) (l₁ l₂ : List α)
    (hl : l₁.length = l₂.length)
    (hp : ∀ (i : Nat) (a b : α), l₁[i]? = some a → l₂[i]? = some b → p a = p b) :
    l₁.countP p = l₂.countP p :=
  Nat.le_antisymm
    (Minesweeper.countP_le_of_pointwise p l₂ l₁ hl.symm
      (fun i a b ha hb h => by rw [← hp i b a hb ha]; exact h))
    (Minesweeper.countP_le_of_pointwise p l₁ l₂ hl
      (fun i a b ha hb h => by rw [hp i a b ha hb]; exact h))

/-- Effect, at any coordinate, of folding a cell modification over a list of
offsets around `(row, col)` (the shape of `place_bomb_increments`,
`flag_neighbors` and `unflag_neighbors`): the modification is applied once
per offset hitting the coordinate. -/
theorem getA_offs_foldl (g : Cfg) (L : List (Int × Int)) (row col : Int)
    (f : CellA → CellA) (s : StateA) (r c : Int) :
    getA g (L.foldl (fun s' o => modA g s' (row + o.1) (col + o.2) f) s) r c
      = (getA g s r c).map
          (f^[L.countP (fun o => decide (row + o.1 = r ∧ col + o.2 = c))]) := by
  induction L generalizing s with
  | nil => simp
  | cons o rest ih =>
    simp only [List.foldl_cons, List.countP_cons]
    by_cases ho : row + o.1 = r ∧ col + o.2 = c
    · have hdec : decide (row + o.1 = r ∧ col + o.2 = c) = true := by
        simp [ho.1, ho.2]
      rw [hdec]
      simp only [if_true]
      rw [ih]
      obtain ⟨h1, h2⟩ := ho
      rw [h1, h2]
      by_cases hin : inB g r c = true
      · rw [getA_modA_self g s r c f hin]
        rw [Option.map_map]
        congr 1
      · have hnone : getA g s r c = none := by unfold getA; simp [hin]
        have hnone2 : getA g (modA g s r c f) r c = none := by
          unfold getA; simp [hin]
        rw [hnone, hnone2]
        simp
    · have hdec : decide (row + o.1 = r ∧ col + o.2 = c) = false := by
        simpa using ho
      rw [hdec]
      simp only [Bool.false_eq_true, if_false, Nat.add_zero]
      rw [ih, getA_modA_ne g s _ _ r c f ho]

/-- Iterating the bomb-count increment adds `k`. -/
theorem iterate_incB (k : Nat) (cl : CellA) :
    (fun c => { c with neighboring_bombs := c.neighboring_bombs + 1 })^[k] cl
      = { cl with neighboring_bombs := cl.neighboring_bombs + k } := by
  induction k generalizing cl with
  | zero => simp
  | succ n ih =>
    rw [Function.iterate_succ_apply, ih]
    congr 1
    push_cast
    ring

/-- Iterating the flag-count bump by `d` adds `k * d`. -/
theorem iterate_bumpF (d : Int) (k : Nat) (cl : CellA) :
    (fun c => { c with neighboring_flags := c.neighboring_flags + d })^[k] cl
      = { cl with neighboring_flags := cl.neighboring_flags + k * d } := by
  induction k generalizing cl with
  | zero =>
    simp only [Function.iterate_zero_apply, Nat.cast_zero, zero_mul, add_zero]
  | succ n ih =>
    rw [Function.iterate_succ_apply, ih]
    congr 1
    push_cast
    ring

set_option maxHeartbeats 2000000 in
/-- How many offsets of the full 3×3 block (generation order) hit a given
coordinate: one when the coordinate lies in the block, else zero. -/
theorem countP_offs_gen (row col r c : Int) :
    offs_gen.countP (fun o => decide (row + o.1 = r ∧ col + o.2 = c))
      = if r - row ≤ 1 ∧ row - r ≤ 1 ∧ c - col ≤ 1 ∧ col - c ≤ 1 then 1 else 0 := by
  simp only [offs_gen, List.countP_cons, List.countP_nil, decide_eq_true_eq]
  split_ifs <;> omega

set_option maxHeartbeats 2000000 in
/-- Same for the standard-order 3×3 block. -/
theorem countP_offs_std (row col r c : Int) :
    offs_std.countP (fun o => decide (row + o.1 = r ∧ col + o.2 = c))
      = if r - row ≤ 1 ∧ row - r ≤ 1 ∧ c - col ≤ 1 ∧ col - c ≤ 1 then 1 else 0 := by
  simp only [offs_std, List.countP_cons, List.countP_nil, decide_eq_true_eq]
  split_ifs <;> omega

set_option maxHeartbeats 2000000 in
/-- How many proper Moore offsets hit a given coordinate: one when the
coordinate is a proper neighbour, else zero. -/
theorem countP_offs_moore (row col r c : Int) :
    offs_moore.countP (fun o => decide (row + o.1 = r ∧ col + o.2 = c))
      = if r - row ≤ 1 ∧ row - r ≤ 1 ∧ c - col ≤ 1 ∧ col - c ≤ 1 ∧ ¬(row = r ∧ col = c)
        then 1 else 0 := by
  simp only [offs_moore, List.countP_cons, List.countP_nil, decide_eq_true_eq]
  split_ifs <;> omega

/-- Counting a predicate that is the old one plus disjoint extra flips. -/
theorem countP_add_flips {α : Type} (L : List α) (p q flip : α → Bool)
    (h : ∀ a ∈ L, q a = (p a || flip a) ∧ ¬(p a = true ∧ flip a = true)) :
    L.countP q = L.countP p + L.countP flip := by
  induction L with
  | nil => simp
  | cons a t ih =>
    simp only [List.countP_cons]
    have ha := h a (by simp)
    have ht := ih (fun x hx => h x (by simp [hx]))
    rw [ht, ha.1]
    have := ha.2
    cases hp : p a <;> cases hf : flip a <;> simp [hp, hf] at this ⊢ <;> omega

/-! ### Effect of a single bomb placement -/

theorem getA_some_inB {g : Cfg} {s : StateA} {r c : Int} {cl : CellA}
    (h : getA g s r c = some cl) : inB g r c = true := by
  unfold getA at h
  by_cases hin : inB g r c = true
  · exact hin
  · rw [if_neg hin] at h; cases h

theorem inB_of_flat {g : Cfg} (i : Nat) (hi : i < g.WIDTH * g.HEIGHT) :
    inB g ((i / g.HEIGHT : Nat) : Int) ((i % g.HEIGHT : Nat) : Int) = true := by
  have hH : 0 < g.HEIGHT := by
    rcases Nat.eq_zero_or_pos g.HEIGHT with h0 | h0
    · rw [h0, Nat.mul_zero] at hi; omega
    · exact h0
  have hdiv : i / g.HEIGHT < g.WIDTH := Nat.div_lt_of_lt_mul (by rw [Nat.mul_comm]; exact hi)
  have hmod : i % g.HEIGHT < g.HEIGHT := Nat.mod_lt _ hH
  rw [inB_iff]
  refine ⟨Int.ofNat_nonneg _, by exact_mod_cast hdiv, Int.ofNat_nonneg _, by exact_mod_cast hmod⟩

/-- Two states whose cells agree, through any `p`, at every in-bounds
coordinate have the same `p`-count over the flat cell list. -/
theorem countP_cells_eq_of_getA (g : Cfg) (s s' : StateA) (p : CellA → Bool)
    (hlen : s.cells.length = g.WIDTH * g.HEIGHT)
    (hlen' : s'.cells.length = g.WIDTH * g.HEIGHT)
    (hp : ∀ (r c : Int), inB g r c = true →
      ((getA g s r c).map p) = ((getA g s' r c).map p)) :
    s.cells.countP p = s'.cells.countP p := by
  apply countP_eq_of_pointwise p s.cells s'.cells (by rw [hlen, hlen'])
  intro i a b ha hb
  have hi : i < g.WIDTH * g.HEIGHT := by
    rw [← hlen]
    by_contra hc
    rw [List.getElem?_eq_none (by omega)] at ha
    cases ha
  have h1 := getA_of_flat hlen i hi
  have h2 := getA_of_flat hlen' i hi
  have := hp ((i / g.HEIGHT : Nat) : Int) ((i % g.HEIGHT : Nat) : Int) (inB_of_flat i hi)
  rw [h1, h2, ha, hb] at this
  simpa using this

theorem cells_length_offs_foldl (g : Cfg) (L : List (Int × Int)) (row col : Int)
    (f : CellA → CellA) (s : StateA) :
    (L.foldl (fun s' o => modA g s' (row + o.1) (col + o.2) f) s).cells.length
      = s.cells.length := by
  induction L generalizing s with
  | nil => rfl
  | cons o rest ih => simp [List.foldl_cons, ih, cells_length_modA]

theorem cells_length_place_bomb (g : Cfg) (row col : Int) (s : StateA) :
    (place_bomb g row col s).cells.length = s.cells.length := by
  unfold place_bomb place_bomb_increments
  rw [cells_length_offs_foldl, cells_length_modA]

theorem bombAt_place_bomb (g : Cfg) (row col : Int) (s : StateA)
    (hin : inB g row col = true) (hlen : s.cells.length = g.WIDTH * g.HEIGHT)
    (r c : Int) :
    bombAt g (place_bomb g row col s) r c
      = if row = r ∧ col = c then true else bombAt g s r c := by
  unfold place_bomb place_bomb_increments bombAt
  rw [getA_offs_foldl]
  by_cases hrc : row = r ∧ col = c
  · obtain ⟨h1, h2⟩ := hrc
    subst h1; subst h2
    rw [getA_modA_self g s row col _ hin]
    obtain ⟨cl, hcl⟩ := getA_isSome hin hlen
    rw [hcl]
    simp [iterate_incB]
  · rw [if_neg hrc, getA_modA_ne g s row col r c _ hrc]
    cases hx : getA g s r c with
    | none => simp
    | some cl => simp [iterate_incB]

theorem nbombsAt_place_bomb (g : Cfg) (row col : Int) (s : StateA)
    (hin : inB g row col = true) (r c : Int) :
    nbombsAt g (place_bomb g row col s) r c
      = nbombsAt g s r c
        + (if (getA g s r c).isSome ∧ r - row ≤ 1 ∧ row - r ≤ 1 ∧ c - col ≤ 1 ∧ col - c ≤ 1
           then 1 else 0) := by
  unfold place_bomb place_bomb_increments nbombsAt
  rw [getA_offs_foldl, countP_offs_gen]
  by_cases hrc : row = r ∧ col = c
  · obtain ⟨h1, h2⟩ := hrc
    subst h1; subst h2
    rw [getA_modA_self g s row col _ hin]
    cases hx : getA g s row col with
    | none => simp
    | some cl =>
      rw [if_pos (by omega), if_pos (by simp [hx] <;> omega)]
      simp [iterate_incB]
  · rw [getA_modA_ne g s row col r c _ hrc]
    cases hx : getA g s r c with
    | none => simp
    | some cl =>
      by_cases hblock : r - row ≤ 1 ∧ row - r ≤ 1 ∧ c - col ≤ 1 ∧ col - c ≤ 1
      · rw [if_pos hblock, if_pos (by simp [hx] <;> omega)]
        simp [iterate_incB]
      · rw [if_neg hblock, if_neg (by simp [hx] <;> omega)]
        simp [iterate_incB]

theorem mooreBombs_place_bomb (g : Cfg) (row col : Int) (s : StateA)
    (hin : inB g row col = true) (hlen : s.cells.length = g.WIDTH * g.HEIGHT)
    (hnb : bombAt g s row col = false) (r c : Int) :
    mooreBombs g (place_bomb g row col s) r c
      = mooreBombs g s r c
        + (if row - r ≤ 1 ∧ r - row ≤ 1 ∧ col - c ≤ 1 ∧ c - col ≤ 1 ∧ ¬(r = row ∧ c = col)
           then 1 else 0) := by
  unfold mooreBombs
  have hflip : ∀ o ∈ offs_moore,
      (((getA g (place_bomb g row col s) (r + o.1) (c + o.2)).map
          (fun cl => cl.bomb)).getD false)
        = ((((getA g s (r + o.1) (c + o.2)).map (fun cl => cl.bomb)).getD false)
          || decide (r + o.1 = row ∧ c + o.2 = col))
      ∧ ¬((((getA g s (r + o.1) (c + o.2)).map (fun cl => cl.bomb)).getD false) = true
          ∧ decide (r + o.1 = row ∧ c + o.2 = col) = true) := by
    intro o _
    have hb := bombAt_place_bomb g row col s hin hlen (r + o.1) (c + o.2)
    unfold bombAt at hb hnb
    constructor
    · rw [hb]
      by_cases ht : r + o.1 = row ∧ c + o.2 = col
      · rw [if_pos (by omega)]
        have hd : decide (r + o.1 = row ∧ c + o.2 = col) = true := by simp [ht]
        rw [hd, ht.1, ht.2, hnb]
        rfl
      · rw [if_neg (by omega)]
        have hd : decide (r + o.1 = row ∧ c + o.2 = col) = false := by simpa using ht
        rw [hd, Bool.or_false]
    · intro hcontra
      obtain ⟨hbomb, hflip2⟩ := hcontra
      simp only [decide_eq_true_eq] at hflip2
      rw [hflip2.1, hflip2.2, hnb] at hbomb
      cases hbomb
  have hcount := countP_add_flips offs_moore
    (fun o => (((getA g s (r + o.1) (c + o.2)).map (fun cl => cl.bomb)).getD false))
    (fun o => (((getA g (place_bomb g row col s) (r + o.1) (c + o.2)).map
        (fun cl => cl.bomb)).getD false))
    (fun o => decide (r + o.1 = row ∧ c + o.2 = col))
    (fun o ho => hflip o ho)
  rw [hcount, countP_offs_moore]

/-- Placement at a non-bomb cell increases the board bomb count by one. -/
theorem bombTotal_place_bomb (g : Cfg) (row col : Int) (s : StateA) (cell : CellA)
    (hget : getA g s row col = some cell) (hnb : cell.bomb = false)
    (hlen : s.cells.length = g.WIDTH * g.HEIGHT) :
    bombTotal (place_bomb g row col s) = bombTotal s + 1 := by
  have hin := getA_some_inB hget
  unfold bombTotal
  have hmidlen : (modA g s row col (fun cl => { cl with bomb := true })).cells.length
      = g.WIDTH * g.HEIGHT := by rw [cells_length_modA, hlen]
  have hplen : (place_bomb g row col s).cells.length = g.WIDTH * g.HEIGHT := by
    rw [cells_length_place_bomb, hlen]
  -- step 1: the increments do not change the bomb count
  have hstep2 : (place_bomb g row col s).cells.countP (fun cl => cl.bomb)
      = (modA g s row col (fun cl => { cl with bomb := true })).cells.countP
          (fun cl => cl.bomb) := by
    apply countP_cells_eq_of_getA g _ _ _ hplen hmidlen
    intro p q hpq
    unfold place_bomb place_bomb_increments
    rw [getA_offs_foldl]
    cases hx : getA g (modA g s row col (fun cl => { cl with bomb := true })) p q with
    | none => simp
    | some cl => simp [iterate_incB]
  -- step 2: setting the bomb flag adds one
  have hidx : s.cells[idx g row col]? = some cell := by
    unfold getA at hget
    rw [if_pos hin] at hget
    exact hget
  have hstep1 := Minesweeper.countP_modNth s.cells (idx g row col)
    (fun cl => { cl with bomb := true }) (fun cl => cl.bomb) cell hidx
  simp [hnb] at hstep1
  rw [hstep2]
  unfold modA
  rw [if_pos hin]
  dsimp only
  omega

/-! ### The generation loop invariant -/

/-- The cached-count formula that actually holds after generation: the cache
equals the proper-Moore bomb count *plus one for the cell itself when it is a
bomb* (the increment loop includes offset `(0, 0)`). -/
def genC4Inv (g : Cfg) (s : StateA) : Prop :=
  ∀ (p q : Int), inB g p q = true →
    nbombsAt g s p q
      = (mooreBombs g s p q : Int) + (if bombAt g s p q = true then 1 else 0)

/-- No bomb sits within squared distance 2 of the seed `(r, c)`. -/
def exclInv (g : Cfg) (r c : Int) (s : StateA) : Prop :=
  ∀ (p q : Int), inB g p q = true →
    (p - r) * (p - r) + (q - c) * (q - c) ≤ 2 → bombAt g s p q = false

theorem generate_loop_spec (g : Cfg) (r c : Int)
    (picks : List (Fin g.WIDTH × Fin g.HEIGHT)) :
    ∀ (bombs : Nat) (s : StateA),
      s.cells.length = g.WIDTH * g.HEIGHT →
      (generate_loop g r c picks bombs s).1.cells.length = g.WIDTH * g.HEIGHT ∧
      (genC4Inv g s → genC4Inv g (generate_loop g r c picks bombs s).1) ∧
      (exclInv g r c s → exclInv g r c (generate_loop g r c picks bombs s).1) ∧
      bombTotal (generate_loop g r c picks bombs s).1
        + (generate_loop g r c picks bombs s).2 = bombTotal s + bombs := by
  induction picks with
  | nil =>
    intro bombs s hlen
    refine ⟨hlen, fun h => h, fun h => h, ?_⟩
    simp [generate_loop]
  | cons p rest ih =>
    intro bombs s hlen
    by_cases hb : bombs = 0
    · subst hb
      refine ⟨hlen, fun h => h, fun h => h, ?_⟩
      simp [generate_loop]
    · rw [show generate_loop g r c (p :: rest) bombs s
          = (if bombs = 0 then (s, 0) else
              match getA g s ((p.1 : Nat) : Int) ((p.2 : Nat) : Int) with
              | some cell =>
                if cell.bomb = false ∧
                    (((p.1 : Nat) : Int) - r) * (((p.1 : Nat) : Int) - r)
                      + (((p.2 : Nat) : Int) - c) * (((p.2 : Nat) : Int) - c) > 2 then
                  generate_loop g r c rest (bombs - 1)
                    (place_bomb g ((p.1 : Nat) : Int) ((p.2 : Nat) : Int) s)
                else generate_loop g r c rest bombs s
              | none => generate_loop g r c rest bombs s) from rfl]
      rw [if_neg hb]
      cases hget : getA g s ((p.1 : Nat) : Int) ((p.2 : Nat) : Int) with
      | none =>
        dsimp only
        exact ih bombs s hlen
      | some cell =>
        dsimp only
        by_cases hcond : cell.bomb = false ∧
            (((p.1 : Nat) : Int) - r) * (((p.1 : Nat) : Int) - r)
              + (((p.2 : Nat) : Int) - c) * (((p.2 : Nat) : Int) - c) > 2
        · rw [if_pos hcond]
          set row : Int := ((p.1 : Nat) : Int) with hrowdef
          set col : Int := ((p.2 : Nat) : Int) with hcoldef
          clear_value row col
          have hin : inB g row col = true := getA_some_inB hget
          have hnbomb : bombAt g s row col = false := by
            unfold bombAt; rw [hget]; simpa using hcond.1
          have hTlen : (place_bomb g row col s).cells.length = g.WIDTH * g.HEIGHT := by
            rw [cells_length_place_bomb, hlen]
          obtain ⟨ihlen, ih4, ihex, ihcount⟩ :=
            ih (bombs - 1) (place_bomb g row col s) hTlen
          refine ⟨ihlen, ?_, ?_, ?_⟩
          · intro h4
            apply ih4
            intro a b hab
            have hsome : (getA g s a b).isSome = true := by
              obtain ⟨cl, hcl⟩ := getA_isSome hab hlen
              rw [hcl]; rfl
            rw [nbombsAt_place_bomb g row col s hin a b,
              mooreBombs_place_bomb g row col s hin hlen hnbomb a b,
              bombAt_place_bomb g row col s hin hlen a b]
            have h4ab := h4 a b hab
            rw [h4ab]
            simp only [hsome, true_and]
            by_cases hrc : row = a ∧ col = b
            · have hbombf : bombAt g s a b = false := by
                rw [← hrc.1, ← hrc.2]; exact hnbomb
              rw [if_pos hrc, hbombf, if_pos (rfl : (true : Bool) = true),
                if_neg (by simp : ¬(false : Bool) = true)]
              push_cast
              split_ifs <;> omega
            · rw [if_neg hrc]
              push_cast
              split_ifs <;> omega
          · intro hex
            apply ihex
            intro a b hab hd2
            rw [bombAt_place_bomb g row col s hin hlen a b]
            have : ¬(row = a ∧ col = b) := by
              intro ⟨h1, h2⟩
              subst h1; subst h2
              have := hcond.2
              omega
            rw [if_neg this]
            exact hex a b hab hd2
          · rw [ihcount, bombTotal_place_bomb g row col s cell hget hcond.1 hlen]
            omega
        · rw [if_neg hcond]
          exact ih bombs s hlen

/-- From a fresh board, a *completed* generation run places exactly `BOMBS`
bombs and leaves the whole closed Moore neighbourhood of the seed bomb-free. -/
theorem generate_board_spec (g : Cfg) (picks : List (Fin g.WIDTH × Fin g.HEIGHT))
    (r c : Int) (s0 : StateA)
    (hlen : s0.cells.length = g.WIDTH * g.HEIGHT)
    (hfresh : ∀ cl ∈ s0.cells, cl.bomb = false)
    (hdone : (generate_board g picks r c s0).2 = 0) :
    bombTotal (generate_board g picks r c s0).1 = g.BOMBS ∧
    (∀ (p q : Int), inB g p q = true →
      (p - r) * (p - r) + (q - c) * (q - c) ≤ 2 →
      bombAt g (generate_board g picks r c s0).1 p q = false) := by
  have hlen1 : ({ s0 with generated_board := true } : StateA).cells.length
      = g.WIDTH * g.HEIGHT := hlen
  obtain ⟨_, _, hex, hcount⟩ := generate_loop_spec g r c picks g.BOMBS
    { s0 with generated_board := true } hlen1
  have hzero : bombTotal { s0 with generated_board := true } = 0 := by
    unfold bombTotal
    rw [List.countP_eq_zero]
    intro cl hcl
    simp [hfresh cl hcl]
  unfold generate_board at hdone ⊢
  constructor
  · rw [hdone] at hcount
    rw [hzero] at hcount
    omega
  · apply hex
    intro a b hab hd2
    unfold bombAt
    cases hx : getA g { s0 with generated_board := true } a b with
    | none => rfl
    | some cl =>
      have hmem : cl ∈ s0.cells := by
        unfold getA at hx
        by_cases hin2 : inB g a b = true
        · rw [if_pos hin2] at hx
          exact List.getElem?_mem hx
        · rw [if_neg hin2] at hx
          cases hx
      simp [hfresh cl hmem]

/-- From a fresh board, the cached `neighboring_bombs` of every in-bounds
cell after generation equals the proper-Moore bomb count plus one when the
cell itself is a bomb. -/
theorem generate_board_cache_formula (g : Cfg)
    (picks : List (Fin g.WIDTH × Fin g.HEIGHT)) (r c : Int) (s0 : StateA)
    (hlen : s0.cells.length = g.WIDTH * g.HEIGHT)
    (hfresh : ∀ cl ∈ s0.cells, cl.bomb = false ∧ cl.neighboring_bombs = 0) :
    genC4Inv g (generate_board g picks r c s0).1 := by
  have hlen1 : ({ s0 with generated_board := true } : StateA).cells.length
      = g.WIDTH * g.HEIGHT := hlen
  obtain ⟨_, h4, _, _⟩ := generate_loop_spec g r c picks g.BOMBS
    { s0 with generated_board := true } hlen1
  apply h4
  intro a b hab
  have hcell : ∀ (x y : Int) (cl : CellA),
      getA g { s0 with generated_board := true } x y = some cl →
      cl.bomb = false ∧ cl.neighboring_bombs = 0 := by
    intro x y cl hx
    unfold getA at hx
    by_cases hin2 : inB g x y = true
    · rw [if_pos hin2] at hx
      exact hfresh cl (List.getElem?_mem hx)
    · rw [if_neg hin2] at hx
      cases hx
  unfold nbombsAt bombAt mooreBombs
  cases hx : getA g { s0 with generated_board := true } a b with
  | none =>
    obtain ⟨cl0, hcl0⟩ := getA_isSome hab hlen1
    rw [hcl0] at hx
    cases hx
  | some cl =>
    obtain ⟨hb, hn⟩ := hcell a b cl hx
    have hz : offs_moore.countP
        (fun o => (((getA g { s0 with generated_board := true } (a + o.1) (b + o.2)).map
          (fun cl => cl.bomb)).getD false)) = 0 := by
      rw [List.countP_eq_zero]
      intro o _
      cases hy : getA g { s0 with generated_board := true } (a + o.1) (b + o.2) with
      | none => simp
      | some cl2 => simp [(hcell (a + o.1) (b + o.2) cl2 hy).1]
    rw [hz]
    simp [hb, hn]

/-! ### Bomb-count incompatible with the exclusion zone: the loop never ends -/

/-- The 3×3 board with one bomb and centre seed: every cell of the board lies
in the seed's exclusion zone (squared distance ≤ 2), so no pick is ever
accepted and the `while bombs > 0` loop makes no progress, for any random
stream and any starting state. -/
theorem generate_loop_stuck_full_exclusion (picks : List (Fin 3 × Fin 3)) :
    ∀ (s : StateA), generate_loop ⟨3, 3, 1⟩ 1 1 picks 1 s = (s, 1) := by
  have hsq : ∀ x : Int, 0 ≤ x → x < 3 → (x - 1) * (x - 1) ≤ 1 := by
    intro x h1 h2
    interval_cases x <;> norm_num
  induction picks with
  | nil => intro s; rfl
  | cons p rest ih =>
    intro s
    rw [show generate_loop ⟨3, 3, 1⟩ 1 1 (p :: rest) 1 s
        = (if (1 : Nat) = 0 then (s, 0) else
            match getA ⟨3, 3, 1⟩ s ((p.1 : Nat) : Int) ((p.2 : Nat) : Int) with
            | some cell =>
              if cell.bomb = false ∧
                  (((p.1 : Nat) : Int) - 1) * (((p.1 : Nat) : Int) - 1)
                    + (((p.2 : Nat) : Int) - 1) * (((p.2 : Nat) : Int) - 1) > 2 then
                generate_loop ⟨3, 3, 1⟩ 1 1 rest (1 - 1)
                  (place_bomb ⟨3, 3, 1⟩ ((p.1 : Nat) : Int) ((p.2 : Nat) : Int) s)
              else generate_loop ⟨3, 3, 1⟩ 1 1 rest 1 s
            | none => generate_loop ⟨3, 3, 1⟩ 1 1 rest 1 s) from rfl]
    rw [if_neg (by omega)]
    cases hget : getA ⟨3, 3, 1⟩ s ((p.1 : Nat) : Int) ((p.2 : Nat) : Int) with
    | none =>
      dsimp only
      exact ih s
    | some cell =>
      dsimp only
      have hd2 : ¬(cell.bomb = false ∧
          (((p.1 : Nat) : Int) - 1) * (((p.1 : Nat) : Int) - 1)
            + (((p.2 : Nat) : Int) - 1) * (((p.2 : Nat) : Int) - 1) > 2) := by
        intro ⟨_, hgt⟩
        have h1 := hsq ((p.1 : Nat) : Int) (Int.ofNat_nonneg _) (by exact_mod_cast p.1.isLt)
        have h2 := hsq ((p.2 : Nat) : Int) (Int.ofNat_nonneg _) (by exact_mod_cast p.2.isLt)
        omega
      rw [if_neg hd2]
      exact ih s

/-- C6 (code_bug evidence): with `WIDTH = HEIGHT = 3`, `BOMBS = 1` and seed
`(1, 1)`, the whole board is inside the safe-zone exclusion
(`dist ≤ √2 < 1.5`), so `bombCount` exceeds the number of non-excluded cells
(zero).  The spec says `placeBombs` must then terminate and fail with
`InvalidConfiguration`; the code has no such check: for *every* random stream
and every starting state the placement loop accepts no pick, never reports
anything, and still has its bomb left to place — i.e. the real
`while bombs > 0` loop spins forever. -/
theorem C6_generate_board_never_completes (picks : List (Fin 3 × Fin 3))
    (s : StateA) : (generate_board ⟨3, 3, 1⟩ picks 1 1 s).2 = 1 := by
  unfold generate_board
  rw [generate_loop_stuck_full_exclusion picks]

/-! ### The flag-cache invariant (C5) -/

theorem getA_alter (g : Cfg) (i : Int) (s : StateA) (p q : Int) :
    getA g (alter_counter i s) p q = getA g s p q := by
  unfold alter_counter
  cases s.bombs_left <;> rfl

/-- Pointwise effect of `Cell.flag` at `(r, c)`: the flag bit toggles at
`(r, c)`; `neighboring_flags` moves by ±1 on the whole in-bounds 3×3 block
around `(r, c)` — the cell itself included. -/
theorem getA_flag (g : Cfg) (r c : Int) (s : StateA) (cell : CellA)
    (hget : getA g s r c = some cell) (p q : Int) :
    getA g (flag g r c s) p q
      = (getA g s p q).map (fun cl =>
          { cl with
            flagged := if r = p ∧ c = q then !cell.flagged else cl.flagged
            neighboring_flags := cl.neighboring_flags
              + ((offs_std.countP (fun o => decide (r + o.1 = p ∧ c + o.2 = q)) : Nat) : Int)
                * (if cell.flagged = true then -1 else 1) }) := by
  have hin := getA_some_inB hget
  unfold flag
  rw [hget]
  dsimp only
  by_cases hflag : cell.flagged = true
  · rw [if_pos hflag]
    unfold unflag_neighbors bump_flags
    rw [getA_alter, getA_offs_foldl]
    by_cases hpq : r = p ∧ c = q
    · obtain ⟨h1, h2⟩ := hpq
      subst h1; subst h2
      rw [getA_modA_self _ _ _ _ _ hin, hget]
      simp [iterate_bumpF, hflag]
    · rw [getA_modA_ne _ _ _ _ _ _ _ hpq]
      cases hx : getA g s p q with
      | none => simp
      | some cl => simp [iterate_bumpF, hpq, hflag]
  · have hflag2 : cell.flagged = false := by simpa using hflag
    rw [if_neg hflag]
    unfold flag_neighbors bump_flags
    rw [getA_alter, getA_offs_foldl]
    by_cases hpq : r = p ∧ c = q
    · obtain ⟨h1, h2⟩ := hpq
      subst h1; subst h2
      rw [getA_modA_self _ _ _ _ _ hin, hget]
      simp [iterate_bumpF, hflag2]
    · rw [getA_modA_ne _ _ _ _ _ _ _ hpq]
      cases hx : getA g s p q with
      | none => simp
      | some cl => simp [iterate_bumpF, hpq, hflag2]

/-- Single-cell flag flip (false → true) shifts each Moore flag count by the
proper-neighbourhood indicator. -/
theorem mooreFlags_flip (g : Cfg) (sOld sNew : StateA) (r c : Int)
    (hothers : ∀ x y : Int, ¬(r = x ∧ c = y) →
      flaggedAt g sNew x y = flaggedAt g sOld x y)
    (hold : flaggedAt g sOld r c = false) (hnew : flaggedAt g sNew r c = true)
    (p q : Int) :
    mooreFlags g sNew p q
      = mooreFlags g sOld p q
        + (if r - p ≤ 1 ∧ p - r ≤ 1 ∧ c - q ≤ 1 ∧ q - c ≤ 1 ∧ ¬(p = r ∧ q = c)
           then 1 else 0) := by
  unfold mooreFlags
  have hflip : ∀ o ∈ offs_moore,
      (((getA g sNew (p + o.1) (q + o.2)).map (fun cl => cl.flagged)).getD false)
        = ((((getA g sOld (p + o.1) (q + o.2)).map (fun cl => cl.flagged)).getD false)
          || decide (p + o.1 = r ∧ q + o.2 = c))
      ∧ ¬((((getA g sOld (p + o.1) (q + o.2)).map (fun cl => cl.flagged)).getD false) = true
          ∧ decide (p + o.1 = r ∧ q + o.2 = c) = true) := by
    intro o _
    unfold flaggedAt at hothers hold hnew
    by_cases ht : p + o.1 = r ∧ q + o.2 = c
    · constructor
      · rw [ht.1, ht.2, hnew, hold]
        simp [ht]
      · intro hcontra
        rw [ht.1, ht.2, hold] at hcontra
        cases hcontra.1
    · have hd : decide (p + o.1 = r ∧ q + o.2 = c) = false := by simpa using ht
      constructor
      · rw [hd, Bool.or_false]
        exact hothers (p + o.1) (q + o.2) (by omega)
      · intro hcontra
        rw [hd] at hcontra
        cases hcontra.2
  have hcount := countP_add_flips offs_moore
    (fun o => (((getA g sOld (p + o.1) (q + o.2)).map (fun cl => cl.flagged)).getD false))
    (fun o => (((getA g sNew (p + o.1) (q + o.2)).map (fun cl => cl.flagged)).getD false))
    (fun o => decide (p + o.1 = r ∧ q + o.2 = c))
    (fun o ho => hflip o ho)
  rw [hcount, countP_offs_moore]

/-- The (corrected) flag-cache invariant: the cached count equals the
proper-Moore flag count plus one when the cell itself is flagged. -/
def flagInv (g : Cfg) (s : StateA) : Prop :=
  ∀ (p q : Int), inB g p q = true →
    nflagsAt g s p q
      = (mooreFlags g s p q : Int) + (if flaggedAt g s p q = true then 1 else 0)

theorem flagInv_initState (g : Cfg) : flagInv g (initState g) := by
  intro p q hpq
  unfold nflagsAt mooreFlags flaggedAt initState getA
  by_cases hin : inB g p q = true
  · rw [if_pos hin]
    have hz : offs_moore.countP
        (fun o => (((if inB g (p + o.1) (q + o.2) then
            (List.replicate (g.WIDTH * g.HEIGHT) initCell)[idx g (p + o.1) (q + o.2)]?
          else none).map (fun cl => cl.flagged)).getD false)) = 0 := by
      rw [List.countP_eq_zero]
      intro o _
      by_cases hin2 : inB g (p + o.1) (q + o.2) = true
      · rw [if_pos hin2]
        cases hx : (List.replicate (g.WIDTH * g.HEIGHT) initCell)[idx g (p + o.1) (q + o.2)]? with
        | none => simp
        | some cl =>
          have := List.getElem?_mem hx
          rw [List.eq_of_mem_replicate this]
          simp [initCell]
      · rw [if_neg hin2]
        simp
    rw [hz]
    cases hx : (List.replicate (g.WIDTH * g.HEIGHT) initCell)[idx g p q]? with
    | none => simp
    | some cl =>
      have := List.getElem?_mem hx
      rw [List.eq_of_mem_replicate this]
      simp [initCell]
  · cases hin hpq

theorem flagInv_flag (g : Cfg) (s : StateA) (r c : Int)
    (hlen : s.cells.length = g.WIDTH * g.HEIGHT)
    (hinv : flagInv g s) : flagInv g (flag g r c s) := by
  cases hget : getA g s r c with
  | none =>
    have heq : flag g r c s = s := by unfold flag; rw [hget]
    rw [heq]
    exact hinv
  | some cell =>
    have hin := getA_some_inB hget
    have hG := getA_flag g r c s cell hget
    have hflagAt : ∀ x y : Int, flaggedAt g (flag g r c s) x y
        = if r = x ∧ c = y then !cell.flagged else flaggedAt g s x y := by
      intro x y
      unfold flaggedAt
      rw [hG x y]
      cases hx : getA g s x y with
      | none =>
        by_cases hxy : r = x ∧ c = y
        · obtain ⟨h1, h2⟩ := hxy
          subst h1; subst h2
          rw [hget] at hx
          cases hx
        · rw [if_neg hxy]
          simp
      | some cl =>
        by_cases hxy : r = x ∧ c = y
        · simp [hxy]
        · simp [hxy]
    have hself : flaggedAt g s r c = cell.flagged := by
      unfold flaggedAt; rw [hget]; rfl
    have hselfNew : flaggedAt g (flag g r c s) r c = !cell.flagged := by
      rw [hflagAt r c, if_pos (⟨rfl, rfl⟩ : r = r ∧ c = c)]
    intro p q hpq
    obtain ⟨cl, hcl⟩ := getA_isSome hpq hlen
    have hnf : nflagsAt g (flag g r c s) p q
        = nflagsAt g s p q
          + (if p - r ≤ 1 ∧ r - p ≤ 1 ∧ q - c ≤ 1 ∧ c - q ≤ 1 then 1 else 0)
            * (if cell.flagged = true then -1 else 1) := by
      unfold nflagsAt
      rw [hG p q, hcl]
      simp only [Option.map_some', Option.getD_some]
      rw [countP_offs_std]
      push_cast
      ring
    cases hflagv : cell.flagged with
    | false =>
      have hmoore := mooreFlags_flip g s (flag g r c s) r c
        (fun x y hxy => by rw [hflagAt x y, if_neg hxy])
        (by rw [hself, hflagv])
        (by rw [hselfNew, hflagv]; rfl)
        p q
      rw [hnf, hinv p q hpq, hflagAt p q, hmoore, hflagv]
      by_cases hc : r = p ∧ c = q
      · obtain ⟨h1, h2⟩ := hc
        subst h1; subst h2
        rw [if_pos (⟨rfl, rfl⟩ : r = r ∧ c = c), hself, hflagv]
        push_cast
        simp <;> omega
      · rw [if_neg hc]
        push_cast
        by_cases hfl : flaggedAt g s p q = true
        · rw [if_pos hfl]
          split_ifs <;> omega
        · rw [if_neg hfl]
          split_ifs <;> omega
    | true =>
      have hmoore := mooreFlags_flip g (flag g r c s) s r c
        (fun x y hxy => by rw [hflagAt x y, if_neg hxy])
        (by rw [hselfNew, hflagv]; rfl)
        (by rw [hself, hflagv])
        p q
      rw [hnf, hinv p q hpq, hflagAt p q, hmoore, hflagv, if_pos (rfl : (true : Bool) = true)]
      by_cases hc : r = p ∧ c = q
      · obtain ⟨h1, h2⟩ := hc
        subst h1; subst h2
        rw [if_pos (⟨rfl, rfl⟩ : r = r ∧ c = c), hself, hflagv]
        push_cast
        simp <;> omega
      · rw [if_neg hc]
        have hiff : (p - r ≤ 1 ∧ r - p ≤ 1 ∧ q - c ≤ 1 ∧ c - q ≤ 1)
            ↔ (r - p ≤ 1 ∧ p - r ≤ 1 ∧ c - q ≤ 1 ∧ q - c ≤ 1 ∧ ¬(p = r ∧ q = c)) := by
          constructor
          · intro h
            refine ⟨by omega, by omega, by omega, by omega, fun hx => hc ⟨hx.1.symm, hx.2.symm⟩⟩
          · intro h
            obtain ⟨h1, h2, h3, h4, h5⟩ := h
            exact ⟨h2, h1, h4, h3⟩
        by_cases hadj : p - r ≤ 1 ∧ r - p ≤ 1 ∧ q - c ≤ 1 ∧ c - q ≤ 1
        · rw [if_pos hadj, if_pos (hiff.mp hadj)]
          by_cases hfl : flaggedAt g s p q = true
          · rw [if_pos hfl]
            push_cast
            ring
          · rw [if_neg hfl]
            push_cast
            ring
        · rw [if_neg hadj, if_neg (fun hx => hadj (hiff.mpr hx))]
          by_cases hfl : flaggedAt g s p q = true
          · rw [if_pos hfl]
            push_cast
            ring
          · rw [if_neg hfl]
            push_cast
            ring

theorem flagInv_right_cell_press (g : Cfg) (s : StateA) (r c : Int)
    (hlen : s.cells.length = g.WIDTH * g.HEIGHT)
    (hinv : flagInv g s) : flagInv g (right_cell_press g r c s) := by
  unfold right_cell_press
  cases hget : getA g s r c with
  | none => exact hinv
  | some cell =>
    dsimp only
    by_cases hcond : cell.disabled = false ∧ cell.covered = true
    · rw [if_pos hcond]
      exact flagInv_flag g s r c hlen hinv
    · rw [if_neg hcond]
      exact hinv

/-- C5 (corrected): the flag cache actually satisfies
`neighboring_flags(c) = |Moore flags| + (1 if c itself is flagged)`, because
`flag_neighbors`/`unflag_neighbors` iterate the full 3×3 product including
offset `(0, 0)`.  This (corrected) equality holds initially and is preserved
by every flag and unflag operation (`Cell.flag`, and the `right_cell_press`
handler that invokes it). -/
theorem C5_flag_cache_formula (g : Cfg) :
    flagInv g (initState g) ∧
    (∀ (s : StateA) (r c : Int), s.cells.length = g.WIDTH * g.HEIGHT →
      flagInv g s → flagInv g (flag g r c s)) ∧
    (∀ (s : StateA) (r c : Int), s.cells.length = g.WIDTH * g.HEIGHT →
      flagInv g s → flagInv g (right_cell_press g r c s)) :=
  ⟨flagInv_initState g,
   fun s r c hlen hinv => flagInv_flag g s r c hlen hinv,
   fun s r c hlen hinv => flagInv_right_cell_press g s r c hlen hinv⟩

/-- C5 counterexample to the claim as stated: flag the centre of a fresh 3×3
board.  The flagged cell's own `neighboring_flags` cache becomes 1, yet it
has zero flagged Moore neighbours — the spec's equality
`neighborFlagCount(c) = |{n ∈ Moore(c) : flagged}|` fails at the flagged
cell itself. -/
theorem C5_counterexample :
    flaggedAt ⟨3, 3, 1⟩ (right_cell_press ⟨3, 3, 1⟩ 1 1 (initState ⟨3, 3, 1⟩)) 1 1 = true ∧
    nflagsAt ⟨3, 3, 1⟩ (right_cell_press ⟨3, 3, 1⟩ 1 1 (initState ⟨3, 3, 1⟩)) 1 1 = 1 ∧
    mooreFlags ⟨3, 3, 1⟩ (right_cell_press ⟨3, 3, 1⟩ 1 1 (initState ⟨3, 3, 1⟩)) 1 1 = 0 := by
  refine ⟨?_, ?_, ?_⟩ <;> rfl

/-- Witness for C5 at a concrete input: the 3×3 configuration, its fresh
state, and the state after one flag toggle all satisfy the corrected cache
formula. -/
theorem C5_witness :
    ((initState ⟨3, 3, 1⟩).cells.length = 3 * 3 ∧ flagInv ⟨3, 3, 1⟩ (initState ⟨3, 3, 1⟩)) ∧
    flagInv ⟨3, 3, 1⟩ (flag ⟨3, 3, 1⟩ 1 1 (initState ⟨3, 3, 1⟩)) :=
  ⟨⟨rfl, (C5_flag_cache_formula ⟨3, 3, 1⟩).1⟩,
    (C5_flag_cache_formula ⟨3, 3, 1⟩).2.1 (initState ⟨3, 3, 1⟩) 1 1 rfl
      (C5_flag_cache_formula ⟨3, 3, 1⟩).1⟩

/-! ### Mutation steps: what every post-generation operation preserves -/

/-- The `covered` bit of the flat cell at index `i` (false when out of range). -/
def coveredIdx (s : StateA) (i : Nat) : Bool :=
  ((s.cells[i]?).map (fun cl => cl.covered)).getD false

/-- Facts preserved by every mutation that can happen after bomb generation:
the grid size, each cell's `bomb` and `neighboring_bombs` fields, and
covered-monotonicity (no cell is ever re-covered). -/
def StepA (s s' : StateA) : Prop :=
  s'.cells.length = s.cells.length ∧
  (∀ i : Nat, (s'.cells[i]?).map (fun cl => (cl.bomb, cl.neighboring_bombs))
      = (s.cells[i]?).map (fun cl => (cl.bomb, cl.neighboring_bombs))) ∧
  (∀ i : Nat, coveredIdx s' i = true → coveredIdx s i = true)

theorem StepA_refl (s : StateA) : StepA s s :=
  ⟨rfl, fun _ => rfl, fun _ h => h⟩

theorem StepA_trans {s1 s2 s3 : StateA} (h12 : StepA s1 s2) (h23 : StepA s2 s3) :
    StepA s1 s3 :=
  ⟨h23.1.trans h12.1, fun i => (h23.2.1 i).trans (h12.2.1 i),
   fun i h => h12.2.2 i (h23.2.2 i h)⟩

theorem StepA_of_cells_eq {s s' : StateA} (h : s'.cells = s.cells) : StepA s s' :=
  ⟨by rw [h], fun i => by rw [h], fun i hc => by unfold coveredIdx at *; rw [h] at hc; exact hc⟩

theorem StepA_modA (g : Cfg) (s : StateA) (r c : Int) (f : CellA → CellA)
    (hf1 : ∀ cl, (f cl).bomb = cl.bomb ∧ (f cl).neighboring_bombs = cl.neighboring_bombs)
    (hf2 : ∀ cl, (f cl).covered = true → cl.covered = true) :
    StepA s (modA g s r c f) := by
  unfold modA
  split
  · refine ⟨length_modNth _ _ _, ?_, ?_⟩
    · intro i
      show (modNth s.cells (idx g r c) f)[i]?.map _ = _
      by_cases hi : idx g r c = i
      · subst hi
        rw [getElem?_modNth_self]
        cases s.cells[idx g r c]? with
        | none => rfl
        | some cl => simp [(hf1 cl).1, (hf1 cl).2]
      · rw [getElem?_modNth_ne _ _ _ _ hi]
    · intro i hcov
      unfold coveredIdx at hcov ⊢
      replace hcov : ((modNth s.cells (idx g r c) f)[i]?.map (fun cl => cl.covered)).getD false = true := hcov
      by_cases hi : idx g r c = i
      · subst hi
        rw [getElem?_modNth_self] at hcov
        cases hx : s.cells[idx g r c]? with
        | none => rw [hx] at hcov; cases hcov
        | some cl =>
          rw [hx] at hcov
          simp at hcov
          simp [hx, hf2 cl hcov]
      · rw [getElem?_modNth_ne _ _ _ _ hi] at hcov
        exact hcov
  · exact StepA_refl s

theorem StepA_offs_foldl (g : Cfg) (L : List (Int × Int)) (row col : Int)
    (f : CellA → CellA)
    (hf1 : ∀ cl, (f cl).bomb = cl.bomb ∧ (f cl).neighboring_bombs = cl.neighboring_bombs)
    (hf2 : ∀ cl, (f cl).covered = true → cl.covered = true) :
    ∀ s : StateA, StepA s (L.foldl (fun s' o => modA g s' (row + o.1) (col + o.2) f) s) := by
  induction L with
  | nil => intro s; exact StepA_refl s
  | cons o rest ih =>
    intro s
    exact StepA_trans (StepA_modA g s (row + o.1) (col + o.2) f hf1 hf2) (ih _)

theorem StepA_alter (i : Int) (s : StateA) : StepA s (alter_counter i s) := by
  unfold alter_counter
  cases s.bombs_left <;> exact StepA_of_cells_eq rfl

theorem StepA_bump_flags (g : Cfg) (row col d : Int) (s : StateA) :
    StepA s (bump_flags g row col d s) :=
  StepA_offs_foldl g offs_std row col
    (fun cl => { cl with neighboring_flags := cl.neighboring_flags + d })
    (fun cl => ⟨rfl, rfl⟩) (fun cl h => h) s

theorem StepA_flag (g : Cfg) (r c : Int) (s : StateA) : StepA s (flag g r c s) := by
  unfold flag
  cases getA g s r c with
  | none => exact StepA_refl s
  | some cell =>
    dsimp only
    split
    · unfold unflag_neighbors
      have h1 : StepA s (modA g s r c (fun cl => { cl with flagged := false })) :=
        StepA_modA g s r c _ (fun cl => ⟨rfl, rfl⟩) (fun cl h => h)
      have h2 := StepA_bump_flags g r c (-1)
        (modA g s r c (fun cl => { cl with flagged := false }))
      have h3 := StepA_alter 1
        (bump_flags g r c (-1) (modA g s r c (fun cl => { cl with flagged := false })))
      exact StepA_trans (StepA_trans h1 h2) h3
    · unfold flag_neighbors
      have h1 : StepA s (modA g s r c (fun cl => { cl with flagged := true })) :=
        StepA_modA g s r c _ (fun cl => ⟨rfl, rfl⟩) (fun cl h => h)
      have h2 := StepA_bump_flags g r c 1
        (modA g s r c (fun cl => { cl with flagged := true }))
      have h3 := StepA_alter (-1)
        (bump_flags g r c 1 (modA g s r c (fun cl => { cl with flagged := true })))
      exact StepA_trans (StepA_trans h1 h2) h3

theorem StepA_show_cell (g : Cfg) (r c : Int) (s : StateA) :
    StepA s (show_cell g r c s) := by
  unfold show_cell
  refine StepA_trans ?_ (StepA_modA g _ r c _ (fun cl => ⟨rfl, rfl⟩) (fun cl h => by cases h))
  cases getA g s r c with
  | none => exact StepA_refl s
  | some cell =>
    dsimp only
    split
    · exact StepA_flag g r c s
    · exact StepA_refl s

theorem StepA_foldl_steps {step : Nat → StateA → StateA}
    (hstep : ∀ i s, StepA s (step i s)) :
    ∀ (L : List Nat) (s : StateA), StepA s (L.foldl (fun sa i => step i sa) s) := by
  intro L
  induction L with
  | nil => intro s; exact StepA_refl s
  | cons i t ih => intro s; exact StepA_trans (hstep i s) (ih _)

theorem StepA_end_game (g : Cfg) (s : StateA) : StepA s (end_game g s) := by
  unfold end_game
  refine StepA_trans ?_ (StepA_of_cells_eq rfl)
  exact StepA_foldl_steps (fun i s => StepA_show_cell g _ _ s) _ s

theorem StepA_win_step (g : Cfg) (i : Nat) (s : StateA) : StepA s (win_step g i s) := by
  unfold win_step
  refine StepA_trans ?_ (StepA_modA g _ _ _ _ (fun cl => ⟨rfl, rfl⟩) (fun cl h => h))
  cases getA g s ((i / g.HEIGHT : Nat) : Int) ((i % g.HEIGHT : Nat) : Int) with
  | none => exact StepA_refl s
  | some cell =>
    dsimp only
    split
    · exact StepA_flag g _ _ s
    · exact StepA_refl s

theorem StepA_has_won (g : Cfg) (s : StateA) : StepA s (has_won g s) := by
  unfold has_won
  split
  · exact StepA_trans (StepA_foldl_steps (fun i s => StepA_win_step g i s) _ s)
      (StepA_of_cells_eq rfl)
  · exact StepA_refl s

theorem coveredCount_mono {s s' : StateA} (h : StepA s s') :
    coveredCount s' ≤ coveredCount s := by
  unfold coveredCount
  apply Minesweeper.countP_le_of_pointwise _ s.cells s'.cells h.1.symm
  intro i a b ha hb hp
  have := h.2.2 i
  unfold coveredIdx at this
  rw [ha, hb] at this
  simpa using this (by simpa using hp)

/-- The offset loop is a `StepA` whenever its recursive call is. -/
theorem StepA_nbrsGo (g : Cfg) (rec : Int → Int → StateA → Option StateA)
    (hrec : ∀ (r c : Int) (s s' : StateA), rec r c s = some s' → StepA s s') :
    ∀ (offs : List (Int × Int)) (r c : Int) (s s' : StateA),
      nbrsGo g rec offs r c s = some s' → StepA s s' := by
  intro offs
  induction offs with
  | nil =>
    intro r c s s' h
    rw [show nbrsGo g rec [] r c s = some s from rfl] at h
    cases h
    exact StepA_refl s
  | cons o rest ih =>
    intro r c s s' h
    rw [show nbrsGo g rec (o :: rest) r c s
        = (match getA g s (r + o.1) (c + o.2) with
          | some cell =>
            if cell.covered then
              match rec (r + o.1) (c + o.2) s with
              | none => none
              | some s1 => nbrsGo g rec rest r c s1
            else nbrsGo g rec rest r c s
          | none => nbrsGo g rec rest r c s) from rfl] at h
    cases hget : getA g s (r + o.1) (c + o.2) with
    | none =>
      rw [hget] at h
      dsimp only at h
      exact ih _ _ _ _ h
    | some cell =>
      rw [hget] at h
      dsimp only at h
      by_cases hcov : cell.covered = true
      · rw [if_pos hcov] at h
        cases hres : rec (r + o.1) (c + o.2) s with
        | none => rw [hres] at h; cases h
        | some s1 =>
          rw [hres] at h
          dsimp only at h
          exact StepA_trans (hrec _ _ _ _ hres) (ih _ _ _ _ h)
      · rw [if_neg hcov] at h
        exact ih _ _ _ _ h

/-- The cascade `uncover` is a `StepA` whenever it succeeds. -/
theorem StepA_uncoverF (g : Cfg) :
    ∀ (fuel : Nat) (r c : Int) (s s' : StateA),
      uncoverF g fuel r c s = some s' → StepA s s' := by
  intro fuel
  induction fuel with
  | zero =>
    intro r c s s' h
    rw [uncoverF] at h
    cases hget : getA g s r c with
    | none =>
      rw [hget] at h
      dsimp only at h
      cases h
      exact StepA_refl s
    | some cell =>
      rw [hget] at h
      dsimp only at h
      by_cases hfl : cell.flagged = true
      · rw [if_pos hfl] at h; cases h; exact StepA_refl s
      · rw [if_neg hfl] at h
        by_cases hbm : cell.bomb = true
        · rw [if_pos hbm] at h; cases h; exact StepA_end_game g s
        · rw [if_neg hbm] at h
          by_cases hnb : cell.neighboring_bombs = 0
          · rw [if_pos hnb] at h; cases h
          · rw [if_neg hnb] at h
            cases h
            exact StepA_modA g s r c _ (fun cl => ⟨rfl, rfl⟩) (fun cl hc => by cases hc)
  | succ fu ih =>
    intro r c s s' h
    rw [uncoverF] at h
    cases hget : getA g s r c with
    | none =>
      rw [hget] at h
      dsimp only at h
      cases h
      exact StepA_refl s
    | some cell =>
      rw [hget] at h
      dsimp only at h
      by_cases hfl : cell.flagged = true
      · rw [if_pos hfl] at h; cases h; exact StepA_refl s
      · rw [if_neg hfl] at h
        by_cases hbm : cell.bomb = true
        · rw [if_pos hbm] at h; cases h; exact StepA_end_game g s
        · rw [if_neg hbm] at h
          have hmod := StepA_modA g s r c
            (fun cl => { cl with covered := false })
            (fun cl => ⟨rfl, rfl⟩) (fun cl hc => by cases hc)
          by_cases hnb : cell.neighboring_bombs = 0
          · rw [if_pos hnb] at h
            exact StepA_trans hmod (StepA_nbrsGo g (uncoverF g fu) ih offs_std _ _ _ _ h)
          · rw [if_neg hnb] at h
            cases h
            exact hmod

theorem StepA_uncover_neighborsF (g : Cfg) (fuel : Nat) (offs : List (Int × Int))
    (r c : Int) (s s' : StateA) (h : uncover_neighborsF g fuel offs r c s = some s') :
    StepA s s' := by
  cases fuel with
  | zero =>
    cases offs with
    | nil =>
      rw [show uncover_neighborsF g 0 [] r c s = some s from rfl] at h
      cases h
      exact StepA_refl s
    | cons o rest =>
      rw [show uncover_neighborsF g 0 (o :: rest) r c s = none from rfl] at h
      cases h
  | succ fu =>
    cases offs with
    | nil =>
      rw [show uncover_neighborsF g (fu + 1) [] r c s = some s from rfl] at h
      cases h
      exact StepA_refl s
    | cons o rest =>
      rw [show uncover_neighborsF g (fu + 1) (o :: rest) r c s
          = nbrsGo g (uncoverF g fu) (o :: rest) r c s from rfl] at h
      exact StepA_nbrsGo g (uncoverF g fu)
        (fun r' c' s1 s2 hh => StepA_uncoverF g fu r' c' s1 s2 hh) _ _ _ _ _ h

/-- Uncovering a still-covered cell strictly decreases `coveredCount`. -/
theorem coveredCount_uncover_lt (g : Cfg) (s : StateA) (r c : Int) (cl : CellA)
    (hget : getA g s r c = some cl) (hcov : cl.covered = true) :
    coveredCount (modA g s r c (fun x => { x with covered := false })) < coveredCount s := by
  have hin : inB g r c = true := getA_some_inB hget
  have hcell : s.cells[idx g r c]? = some cl := by
    unfold getA at hget
    rw [if_pos hin] at hget
    exact hget
  unfold coveredCount modA
  rw [if_pos hin]
  dsimp only
  have hc := Minesweeper.countP_modNth s.cells (idx g r c)
    (fun x => { x with covered := false }) (fun x => x.covered) cl hcell
  simp [hcov] at hc
  omega

/-- Enough fuel makes the offset loop total: the number of still-covered
cells bounds the recursion, because `uncover` reveals its cell before
recursing and the loop only recurses into covered cells. -/
theorem nbrsGo_total (g : Cfg) (rec : Int → Int → StateA → Option StateA) (n : Nat)
    (hrecStep : ∀ (r c : Int) (s s' : StateA), rec r c s = some s' → StepA s s')
    (hrec : ∀ (r c : Int) (s : StateA) (cl : CellA), getA g s r c = some cl →
      cl.covered = true → coveredCount s ≤ n → (rec r c s).isSome = true) :
    ∀ (offs : List (Int × Int)) (r c : Int) (s : StateA), coveredCount s ≤ n →
      (nbrsGo g rec offs r c s).isSome = true := by
  intro offs
  induction offs with
  | nil => intro r c s hcnt; rfl
  | cons o rest ih =>
    intro r c s hcnt
    rw [show nbrsGo g rec (o :: rest) r c s
        = (match getA g s (r + o.1) (c + o.2) with
          | some cell =>
            if cell.covered then
              match rec (r + o.1) (c + o.2) s with
              | none => none
              | some s1 => nbrsGo g rec rest r c s1
            else nbrsGo g rec rest r c s
          | none => nbrsGo g rec rest r c s) from rfl]
    cases hget : getA g s (r + o.1) (c + o.2) with
    | none =>
      dsimp only
      exact ih r c s hcnt
    | some cell =>
      dsimp only
      by_cases hcov : cell.covered = true
      · rw [if_pos hcov]
        have hu := hrec _ _ s cell hget hcov hcnt
        cases hres : rec (r + o.1) (c + o.2) s with
        | none => rw [hres] at hu; simp at hu
        | some s1 =>
          dsimp only
          have hmono := coveredCount_mono (hrecStep _ _ _ _ hres)
          exact ih r c s1 (by omega)
      · rw [if_neg hcov]
        exact ih r c s hcnt

/-- Enough fuel makes `uncover` total on a covered target cell. -/
theorem uncoverF_total (g : Cfg) :
    ∀ (fuel : Nat) (r c : Int) (s : StateA) (cl : CellA),
      getA g s r c = some cl → cl.covered = true → coveredCount s ≤ fuel →
      (uncoverF g fuel r c s).isSome = true := by
  intro fuel
  induction fuel with
  | zero =>
    intro r c s cl hget hcov hcnt
    exfalso
    have hin : inB g r c = true := getA_some_inB hget
    have hcell : s.cells[idx g r c]? = some cl := by
      unfold getA at hget
      rw [if_pos hin] at hget
      exact hget
    have hpos : 0 < coveredCount s := by
      unfold coveredCount
      rw [List.countP_pos_iff]
      exact ⟨cl, List.getElem?_mem hcell, hcov⟩
    omega
  | succ fu ih =>
    intro r c s cl hget hcov hcnt
    rw [uncoverF, hget]
    dsimp only
    by_cases hfl : cl.flagged = true
    · rw [if_pos hfl]; rfl
    · rw [if_neg hfl]
      by_cases hbm : cl.bomb = true
      · rw [if_pos hbm]; rfl
      · rw [if_neg hbm]
        by_cases hnb : cl.neighboring_bombs = 0
        · rw [if_pos hnb]
          apply nbrsGo_total g (uncoverF g fu) fu
            (fun r' c' s1 s2 hh => StepA_uncoverF g fu r' c' s1 s2 hh)
            (fun r' c' s1 cl' a b c2 => ih r' c' s1 cl' a b c2)
          have hlt := coveredCount_uncover_lt g s r c cl hget hcov
          omega
        · rw [if_neg hnb]; rfl

/-- With strictly more fuel than covered cells, `uncover` is total on any
target cell, covered or not. -/
theorem uncoverF_total_any (g : Cfg) {fuel : Nat} (r c : Int) (s : StateA)
    (hcnt : coveredCount s < fuel) : (uncoverF g fuel r c s).isSome = true := by
  cases fuel with
  | zero => omega
  | succ fu =>
    rw [uncoverF]
    cases hget : getA g s r c with
    | none => rfl
    | some cell =>
      dsimp only
      by_cases hfl : cell.flagged = true
      · rw [if_pos hfl]; rfl
      · rw [if_neg hfl]
        by_cases hbm : cell.bomb = true
        · rw [if_pos hbm]; rfl
        · rw [if_neg hbm]
          by_cases hnb : cell.neighboring_bombs = 0
          · rw [if_pos hnb]
            apply nbrsGo_total g (uncoverF g fu) fu
              (fun r' c' s1 s2 hh => StepA_uncoverF g fu r' c' s1 s2 hh)
              (fun r' c' s1 cl' a b c2 => uncoverF_total g fu r' c' s1 cl' a b c2)
            have hmono := coveredCount_mono
              (StepA_modA g s r c (fun cl => { cl with covered := false })
                (fun cl => ⟨rfl, rfl⟩) (fun cl h => by cases h))
            omega
          · rw [if_neg hnb]; rfl

/-- C7: the reveal cascade always terminates, with recursion depth bounded by
the number of board cells: on any well-sized state, running `uncover` with
`rows * columns + 1` fuel never exhausts it (`some` result), for any target
cell.  Each recursive descent permanently uncovers a fresh covered cell, so at
most `rows * columns` nested `uncover` calls can occur. -/
theorem C7_cascade_terminates (g : Cfg) (s : StateA) (r c : Int)
    (hlen : s.cells.length = g.WIDTH * g.HEIGHT) :
    (uncoverF g (g.WIDTH * g.HEIGHT + 1) r c s).isSome = true := by
  apply uncoverF_total_any
  have hcnt : coveredCount s ≤ g.WIDTH * g.HEIGHT := by
    unfold coveredCount
    rw [← hlen]
    exact List.countP_le_length _
  omega

/-- Witness for C7 at a concrete input: on a fresh 2×2 board, the cascade
from the corner completes within the stated fuel bound. -/
theorem C7_witness :
    (initState ⟨2, 2, 1⟩).cells.length = 2 * 2 ∧
    (uncoverF ⟨2, 2, 1⟩ (2 * 2 + 1) 0 0 (initState ⟨2, 2, 1⟩)).isSome = true :=
  ⟨rfl, C7_cascade_terminates ⟨2, 2, 1⟩ (initState ⟨2, 2, 1⟩) 0 0 rfl⟩

/-! ### The win check `has_won` -/

theorem lt_of_getElem?_some {α : Type} {l : List α} {j : Nat} {a : α}
    (h : l[j]? = some a) : j < l.length := by
  rcases Nat.lt_or_ge j l.length with hlt | hge
  · exact hlt
  · rw [List.getElem?_eq_none hge] at h
    cases h

/-- The descending total of `has_won` counts the cells that are bombs or
uncovered. -/
theorem foldl_total_eq (l : List CellA) : ∀ t : Int,
    l.foldl (fun t cl => if cl.bomb then t - 1 else if cl.covered = false then t - 1 else t) t
      = t - (l.countP (fun cl => cl.bomb || !cl.covered) : Int) := by
  induction l with
  | nil => intro t; simp
  | cons a l ih =>
    intro t
    rw [List.foldl_cons, ih, List.countP_cons]
    cases hb : a.bomb <;> cases hc : a.covered <;>
      simp [hb, hc] <;> push_cast <;> ring

theorem has_won_total_eq (g : Cfg) (s : StateA) :
    has_won_total g s = ((g.WIDTH * g.HEIGHT : Nat) : Int)
      - (s.cells.countP (fun cl => cl.bomb || !cl.covered) : Int) :=
  foldl_total_eq s.cells _

theorem alter_cells (i : Int) (s : StateA) : (alter_counter i s).cells = s.cells := by
  unfold alter_counter
  cases s.bombs_left <;> rfl

theorem alter_game_over (i : Int) (s : StateA) :
    (alter_counter i s).game_over = s.game_over := by
  unfold alter_counter
  cases s.bombs_left <;> rfl

theorem game_over_offs_foldl (g : Cfg) (L : List (Int × Int)) (row col : Int)
    (f : CellA → CellA) (s : StateA) :
    (L.foldl (fun s' o => modA g s' (row + o.1) (col + o.2) f) s).game_over
      = s.game_over := by
  induction L generalizing s with
  | nil => rfl
  | cons o rest ih => rw [List.foldl_cons, ih, modA_game_over]

theorem cells_length_flag (g : Cfg) (r c : Int) (s : StateA) :
    (flag g r c s).cells.length = s.cells.length := by
  unfold flag
  cases getA g s r c with
  | none => rfl
  | some cell =>
    dsimp only
    split
    · unfold unflag_neighbors bump_flags
      rw [alter_cells, cells_length_offs_foldl, cells_length_modA]
    · unfold flag_neighbors bump_flags
      rw [alter_cells, cells_length_offs_foldl, cells_length_modA]

theorem flag_game_over (g : Cfg) (r c : Int) (s : StateA) :
    (flag g r c s).game_over = s.game_over := by
  unfold flag
  cases getA g s r c with
  | none => rfl
  | some cell =>
    dsimp only
    split
    · unfold unflag_neighbors bump_flags
      rw [alter_game_over, game_over_offs_foldl, modA_game_over]
    · unfold flag_neighbors bump_flags
      rw [alter_game_over, game_over_offs_foldl, modA_game_over]

theorem cells_length_win_step (g : Cfg) (i : Nat) (s : StateA) :
    (win_step g i s).cells.length = s.cells.length := by
  unfold win_step
  dsimp only
  rw [cells_length_modA]
  cases getA g s ((i / g.HEIGHT : Nat) : Int) ((i % g.HEIGHT : Nat) : Int) with
  | none => rfl
  | some cl =>
    dsimp only
    split
    · exact cells_length_flag g _ _ s
    · rfl

theorem game_over_win_step (g : Cfg) (i : Nat) (s : StateA) :
    (win_step g i s).game_over = s.game_over := by
  unfold win_step
  dsimp only
  rw [modA_game_over]
  cases getA g s ((i / g.HEIGHT : Nat) : Int) ((i % g.HEIGHT : Nat) : Int) with
  | none => rfl
  | some cl =>
    dsimp only
    split
    · exact flag_game_over g _ _ s
    · rfl

theorem cells_length_win_fold (g : Cfg) : ∀ (L : List Nat) (s : StateA),
    (L.foldl (fun sa i => win_step g i sa) s).cells.length = s.cells.length := by
  intro L
  induction L with
  | nil => intro s; rfl
  | cons i t ih => intro s; rw [List.foldl_cons, ih, cells_length_win_step]

theorem game_over_win_fold (g : Cfg) : ∀ (L : List Nat) (s : StateA),
    (L.foldl (fun sa i => win_step g i sa) s).game_over = s.game_over := by
  intro L
  induction L with
  | nil => intro s; rfl
  | cons i t ih => intro s; rw [List.foldl_cons, ih, game_over_win_step]

/-- Per-cell property established by the win loop of `has_won`: once the loop
has processed flat index `j`, the cell there is disabled and flagged if it is
a bomb. -/
def winQ (g : Cfg) (j : Nat) (s : StateA) : Prop :=
  s.cells.length = g.WIDTH * g.HEIGHT →
  ∀ cl, s.cells[j]? = some cl → (cl.bomb = true → cl.flagged = true) ∧ cl.disabled = true

theorem foldl_preserve {Q : Nat → StateA → Prop} {step : Nat → StateA → StateA}
    (hpres : ∀ (i j : Nat) (s : StateA), Q j s → Q j (step i s)) :
    ∀ (L : List Nat) (s : StateA) (j : Nat), Q j s →
      Q j (L.foldl (fun sa i => step i sa) s) := by
  intro L
  induction L with
  | nil => intro s j h; exact h
  | cons i t ih => intro s j h; exact ih _ j (hpres i j s h)

theorem foldl_establish {Q : Nat → StateA → Prop} {step : Nat → StateA → StateA}
    (hstep : ∀ (i : Nat) (s : StateA), Q i (step i s))
    (hpres : ∀ (i j : Nat) (s : StateA), Q j s → Q j (step i s)) :
    ∀ (L : List Nat) (s : StateA) (j : Nat), j ∈ L →
      Q j (L.foldl (fun sa i => step i sa) s) := by
  intro L
  induction L with
  | nil => intro s j hj; cases hj
  | cons i t ih =>
    intro s j hj
    rw [List.foldl_cons]
    rcases List.mem_cons.mp hj with he | ht
    · subst he
      exact foldl_preserve hpres t (step j s) j (hstep j s)
    · exact ih _ j ht

theorem winQ_win_step_self (g : Cfg) (j : Nat) (s : StateA) : winQ g j (win_step g j s) := by
  intro hlen2 cl hget
  have hlen : s.cells.length = g.WIDTH * g.HEIGHT := by
    rw [← cells_length_win_step g j s]
    exact hlen2
  have hj : j < g.WIDTH * g.HEIGHT := by
    have := lt_of_getElem?_some hget
    omega
  have hinj := inB_of_flat j hj
  rw [← getA_of_flat hlen2 j hj] at hget
  unfold win_step at hget
  dsimp only at hget
  obtain ⟨cl0, hcl0⟩ := getA_isSome hinj hlen
  rw [getA_modA_self _ _ _ _ _ hinj] at hget
  rw [hcl0] at hget
  dsimp only at hget
  by_cases hbf : cl0.bomb = true ∧ cl0.flagged = false
  · rw [if_pos hbf] at hget
    rw [getA_flag g _ _ s cl0 hcl0] at hget
    rw [hcl0] at hget
    simp only [Option.map_some'] at hget
    rw [if_pos (And.intro trivial trivial)] at hget
    injection hget with hcl
    subst hcl
    refine ⟨fun _ => ?_, rfl⟩
    simp [hbf.2]
  · rw [if_neg hbf] at hget
    rw [hcl0] at hget
    simp only [Option.map_some'] at hget
    injection hget with hcl
    subst hcl
    refine ⟨fun hb => ?_, rfl⟩
    by_cases hfl : cl0.flagged = true
    · exact hfl
    · exact absurd ⟨hb, by simpa using hfl⟩ hbf

theorem winQ_win_step_pres (g : Cfg) (i j : Nat) (s : StateA) (hq : winQ g j s) :
    winQ g j (win_step g i s) := by
  intro hlen2 cl hget
  have hlen : s.cells.length = g.WIDTH * g.HEIGHT := by
    rw [← cells_length_win_step g i s]
    exact hlen2
  have hj : j < g.WIDTH * g.HEIGHT := by
    have := lt_of_getElem?_some hget
    omega
  have hinj := inB_of_flat j hj
  obtain ⟨cl0, hcl0⟩ := getA_isSome hinj hlen
  have hq0 := hq hlen cl0 (by rw [← getA_of_flat hlen j hj]; exact hcl0)
  rw [← getA_of_flat hlen2 j hj] at hget
  unfold win_step at hget
  dsimp only at hget
  by_cases hco : ((i / g.HEIGHT : Nat) : Int) = ((j / g.HEIGHT : Nat) : Int)
      ∧ ((i % g.HEIGHT : Nat) : Int) = ((j % g.HEIGHT : Nat) : Int)
  · rw [hco.1, hco.2] at hget
    rw [getA_modA_self _ _ _ _ _ hinj] at hget
    rw [hcl0] at hget
    dsimp only at hget
    have hbf : ¬(cl0.bomb = true ∧ cl0.flagged = false) := by
      rintro ⟨hb, hf⟩
      rw [hq0.1 hb] at hf
      cases hf
    rw [if_neg hbf] at hget
    rw [hcl0] at hget
    simp only [Option.map_some'] at hget
    injection hget with hcl
    subst hcl
    exact ⟨fun hb => hq0.1 hb, rfl⟩
  · rw [getA_modA_ne _ _ _ _ _ _ _ hco] at hget
    cases hci : getA g s ((i / g.HEIGHT : Nat) : Int) ((i % g.HEIGHT : Nat) : Int) with
    | none =>
      rw [hci] at hget
      dsimp only at hget
      rw [hcl0] at hget
      injection hget with hcl
      subst hcl
      exact hq0
    | some cx =>
      rw [hci] at hget
      dsimp only at hget
      by_cases hbf : cx.bomb = true ∧ cx.flagged = false
      · rw [if_pos hbf] at hget
        rw [getA_flag g _ _ s cx hci] at hget
        rw [hcl0] at hget
        simp only [Option.map_some'] at hget
        rw [if_neg hco] at hget
        injection hget with hcl
        subst hcl
        exact ⟨fun hb => hq0.1 hb, hq0.2⟩
      · rw [if_neg hbf] at hget
        rw [hcl0] at hget
        injection hget with hcl
        subst hcl
        exact hq0

/-- The `main.py` half of C1: `has_won` "returns true" (its running total
hits 0) iff every non-bomb cell is uncovered; in that case it flags every
remaining unflagged bomb, disables every cell and displays "You Win" — but
it does *not* set `game_over`, which keeps whatever value it had. -/
theorem has_won_main_spec (g : Cfg) (s : StateA) (hlen : s.cells.length = g.WIDTH * g.HEIGHT) :
    (has_won_total g s = 0 ↔ allNonBombUncovered s = true) ∧
    (has_won_total g s = 0 →
      allBombsFlagged (has_won g s) = true ∧
      (has_won g s).cells.all (fun cl => cl.disabled) = true ∧
      (has_won g s).bombs_left = MsgA.winMsg ∧
      (has_won g s).game_over = s.game_over) := by
  have hcle : s.cells.countP (fun cl => cl.bomb || !cl.covered) ≤ s.cells.length :=
    List.countP_le_length _
  constructor
  · rw [has_won_total_eq]
    unfold allNonBombUncovered
    rw [List.all_eq_true]
    constructor
    · intro h0
      have hcount : s.cells.countP (fun cl => cl.bomb || !cl.covered) = s.cells.length := by
        omega
      intro a ha
      exact List.countP_eq_length.1 hcount a ha
    · intro hall
      have hcount : s.cells.countP (fun cl => cl.bomb || !cl.covered) = s.cells.length :=
        List.countP_eq_length.2 hall
      rw [hcount, hlen]
      omega
  · intro h0
    unfold has_won
    rw [if_pos h0]
    dsimp only
    have hlenf : ((List.range (g.WIDTH * g.HEIGHT)).foldl
        (fun sa i => win_step g i sa) s).cells.length = g.WIDTH * g.HEIGHT := by
      rw [cells_length_win_fold]
      exact hlen
    have hfacts : ∀ (j : Nat) (cl : CellA),
        ((List.range (g.WIDTH * g.HEIGHT)).foldl
          (fun sa i => win_step g i sa) s).cells[j]? = some cl →
        (cl.bomb = true → cl.flagged = true) ∧ cl.disabled = true := by
      intro j cl hget
      have hj : j < g.WIDTH * g.HEIGHT := by
        have := lt_of_getElem?_some hget
        omega
      exact foldl_establish (winQ_win_step_self g) (winQ_win_step_pres g)
        (List.range (g.WIDTH * g.HEIGHT)) s j (List.mem_range.2 hj) hlenf cl hget
    refine ⟨?_, ?_, rfl, ?_⟩
    · unfold allBombsFlagged
      rw [List.all_eq_true]
      intro a ha
      obtain ⟨j, hj⟩ := List.getElem?_of_mem ha
      have := hfacts j a hj
      cases hb : a.bomb with
      | false => simp
      | true => simp [this.1 hb]
    · rw [List.all_eq_true]
      intro a ha
      obtain ⟨j, hj⟩ := List.getElem?_of_mem ha
      exact (hfacts j a hj).2
    · exact game_over_win_fold g _ s

/-- The ten bomb sites used by the C1 counterexample game. -/
def picks9 : List (Fin 9 × Fin 9) :=
  [(8, 0), (8, 1), (8, 2), (8, 3), (8, 4), (8, 5), (8, 6), (8, 7), (8, 8), (7, 0)]

set_option maxRecDepth 100000 in
set_option maxHeartbeats 4000000 in
/-- A complete 9×9 `main.py` game (first left press at the corner cascades
the whole safe region; a double press then runs the win check).  The final
state is a win — every non-bomb cell uncovered, every bomb auto-flagged,
message "You Win" — yet `game_over` is still `false`, because `has_won`
assigns `self.game_over` nowhere. -/
theorem mainA_win_trace :
    (((left_cell_press ⟨9, 9, 10⟩ 100 picks9 0 0 (initState ⟨9, 9, 10⟩)).bind
        (double_left_cell_press ⟨9, 9, 10⟩ 100 0 0)).map
      (fun sf => (allNonBombUncovered sf, allBombsFlagged sf, sf.bombs_left, sf.game_over)))
      = some (true, true, MsgA.winMsg, false) := by
  rfl

/-! ### C4: the bomb cache after generation, and its invariance -/

theorem StepA_right_cell_press (g : Cfg) (r c : Int) (s : StateA) :
    StepA s (right_cell_press g r c s) := by
  unfold right_cell_press
  cases getA g s r c with
  | none => exact StepA_refl s
  | some cell =>
    dsimp only
    split
    · exact StepA_flag g r c s
    · exact StepA_refl s

theorem StepA_left_cell_press_generated (g : Cfg) (fuel : Nat)
    (picks : List (Fin g.WIDTH × Fin g.HEIGHT)) (r c : Int) (s s' : StateA)
    (hgen : s.generated_board = true)
    (h : left_cell_press g fuel picks r c s = some s') : StepA s s' := by
  unfold left_cell_press at h
  cases hget : getA g s r c with
  | none =>
    rw [hget] at h
    dsimp only at h
    cases h
    exact StepA_refl s
  | some cell =>
    rw [hget] at h
    dsimp only at h
    by_cases hcond : cell.disabled = false ∧ cell.flagged = false
    · rw [if_pos hcond] at h
      rw [if_neg (by simp [hgen])] at h
      by_cases hbm : cell.bomb = true
      · rw [if_pos hbm] at h
        cases h
        exact StepA_end_game g s
      · rw [if_neg hbm] at h
        by_cases hcov : cell.covered = true
        · rw [if_pos hcov] at h
          rw [Option.map_eq_some'] at h
          obtain ⟨s1, h1, h2⟩ := h
          subst h2
          exact StepA_trans (StepA_uncoverF g fuel r c s s1 h1) (StepA_has_won g s1)
        · rw [if_neg hcov] at h
          cases h
          exact StepA_refl s
    · rw [if_neg hcond] at h
      cases h
      exact StepA_refl s

theorem StepA_double_left_cell_press (g : Cfg) (fuel : Nat) (r c : Int) (s s' : StateA)
    (h : double_left_cell_press g fuel r c s = some s') : StepA s s' := by
  unfold double_left_cell_press at h
  cases hget : getA g s r c with
  | none =>
    rw [hget] at h
    dsimp only at h
    cases h
    exact StepA_refl s
  | some cell =>
    rw [hget] at h
    dsimp only at h
    rw [Option.map_eq_some'] at h
    obtain ⟨s1, h1, h2⟩ := h
    have hstep1 : StepA s s1 := by
      by_cases hcond : cell.disabled = false ∧ cell.covered = false ∧
          cell.neighboring_flags = cell.neighboring_bombs
      · rw [if_pos hcond] at h1
        exact StepA_uncover_neighborsF g fuel offs_std r c s s1 h1
      · rw [if_neg hcond] at h1
        cases h1
        exact StepA_refl s
    subst h2
    by_cases hgo : s1.game_over = false
    · rw [if_pos hgo]
      exact StepA_trans hstep1 (StepA_has_won g s1)
    · rw [if_neg hgo]
      exact hstep1

/-- C4 (corrected): after bomb placement the cached `neighboring_bombs` of
every in-bounds cell equals its proper Moore bomb count *plus one if the cell
itself is a bomb* (the generation loop iterates `product((-1, 1, 0), (-1, 1, 0))`,
which contains `(0, 0)`); and each cell's `(isBomb, neighboring_bombs)` pair
never changes under any subsequent game operation — left, right or double
press on the generated board. -/
theorem C4_neighbor_bomb_cache (g : Cfg) :
    (∀ (picks : List (Fin g.WIDTH × Fin g.HEIGHT)) (r c : Int) (s0 : StateA),
      s0.cells.length = g.WIDTH * g.HEIGHT →
      (∀ cl ∈ s0.cells, cl.bomb = false ∧ cl.neighboring_bombs = 0) →
      genC4Inv g (generate_board g picks r c s0).1) ∧
    (∀ (fuel : Nat) (picks : List (Fin g.WIDTH × Fin g.HEIGHT)) (r c : Int)
      (s s' : StateA), s.generated_board = true →
      left_cell_press g fuel picks r c s = some s' →
      ∀ i : Nat, (s'.cells[i]?).map (fun cl => (cl.bomb, cl.neighboring_bombs))
        = (s.cells[i]?).map (fun cl => (cl.bomb, cl.neighboring_bombs))) ∧
    (∀ (r c : Int) (s : StateA) (i : Nat),
      ((right_cell_press g r c s).cells[i]?).map
          (fun cl => (cl.bomb, cl.neighboring_bombs))
        = (s.cells[i]?).map (fun cl => (cl.bomb, cl.neighboring_bombs))) ∧
    (∀ (fuel : Nat) (r c : Int) (s s' : StateA),
      double_left_cell_press g fuel r c s = some s' →
      ∀ i : Nat, (s'.cells[i]?).map (fun cl => (cl.bomb, cl.neighboring_bombs))
        = (s.cells[i]?).map (fun cl => (cl.bomb, cl.neighboring_bombs))) :=
  ⟨fun picks r c s0 hlen hfresh =>
      generate_board_cache_formula g picks r c s0 hlen hfresh,
   fun fuel picks r c s s' hgen h =>
      (StepA_left_cell_press_generated g fuel picks r c s s' hgen h).2.1,
   fun r c s => (StepA_right_cell_press g r c s).2.1,
   fun fuel r c s s' h => (StepA_double_left_cell_press g fuel r c s s' h).2.1⟩

/-- C4 counterexample to the claim as stated: generate a 3×3 board with one
bomb at `(2, 2)` (seed press at `(0, 0)`).  The bomb cell's own cache reads 1
although it has no bomb among its proper Moore neighbours — `generate_board`
increments the bomb's own counter via the `(0, 0)` offset. -/
theorem C4_counterexample :
    bombAt ⟨3, 3, 1⟩
        (generate_board ⟨3, 3, 1⟩ [((2 : Fin 3), (2 : Fin 3))] 0 0 (initState ⟨3, 3, 1⟩)).1
        2 2 = true ∧
    nbombsAt ⟨3, 3, 1⟩
        (generate_board ⟨3, 3, 1⟩ [((2 : Fin 3), (2 : Fin 3))] 0 0 (initState ⟨3, 3, 1⟩)).1
        2 2 = 1 ∧
    mooreBombs ⟨3, 3, 1⟩
        (generate_board ⟨3, 3, 1⟩ [((2 : Fin 3), (2 : Fin 3))] 0 0 (initState ⟨3, 3, 1⟩)).1
        2 2 = 0 := by
  refine ⟨?_, ?_, ?_⟩ <;> rfl

/-- Witness for C4 at a concrete input: the corrected cache formula holds on
the generated 3×3 board, and a right press leaves every `(bomb, cache)` pair
unchanged. -/
theorem C4_witness :
    ((∀ cl ∈ (initState ⟨3, 3, 1⟩).cells, cl.bomb = false ∧ cl.neighboring_bombs = 0) ∧
      genC4Inv ⟨3, 3, 1⟩
        (generate_board ⟨3, 3, 1⟩ [((2 : Fin 3), (2 : Fin 3))] 0 0 (initState ⟨3, 3, 1⟩)).1) ∧
    (∀ i : Nat,
      (((right_cell_press ⟨3, 3, 1⟩ 1 1 (initState ⟨3, 3, 1⟩)).cells[i]?).map
          (fun cl => (cl.bomb, cl.neighboring_bombs)))
        = ((initState ⟨3, 3, 1⟩).cells[i]?).map (fun cl => (cl.bomb, cl.neighboring_bombs))) :=
  ⟨⟨by decide,
    (C4_neighbor_bomb_cache ⟨3, 3, 1⟩).1 [((2 : Fin 3), (2 : Fin 3))] 0 0
      (initState ⟨3, 3, 1⟩) rfl (by decide)⟩,
   fun i => (C4_neighbor_bomb_cache ⟨3, 3, 1⟩).2.2.1 1 1 (initState ⟨3, 3, 1⟩) i⟩

end MainGame

/-! ## Model B: `src/minesweeper.py` + `src/solver.py` (the solver game)

`minesweeper.py` imports `from cell import Cell`, but the `Cell` class this
game generation expects — one whose cells carry a three-valued `state`
attribute (`"covered"` / `"uncovered"` / `"flagged"`) and expose
`left_click` / `right_click` / `double_left_click` / `flag` handlers without
per-cell count caches — is not present under `src/` (the shipped `cell.py`
is the boolean-field variant used by `main.py`).  The cell-level handlers
below are therefore *modelled from the specification* (its reveal / flag /
chord command descriptions), mirroring the shipped `cell.py` logic
translated to the three-valued state; everything else is translated
directly from `minesweeper.py` and `solver.py`.

Conventions are as in Model A: Python ints are `Int`, the 2D `cells` array
is a flat row-major list (`index = row * columns + column`), and the
negative-index guards plus caught `IndexError`s of the Python neighbour
loops amount to clipped bounds checks.  `Solver.are_adjacent` computes
`sqrt(dr² + dc²) < 1.5`, which for integer coordinates is exactly
`dr² + dc² ≤ 2`.  The reveal cascade
(`Cell.left_click` / `Solver.uncover_neighbors`) is given explicit fuel,
consumed when the neighbour loop recurses into `left_click`; the `solve`
while-loop is given its own fuel.  A `none` result means some fuel ran
out. -/

namespace SolverGame

open Minesweeper

/-- The three cell states of this game generation. -/
inductive CState where
  | covered
  | uncovered
  | flagged
deriving DecidableEq

/-- A cell: `state` plus `is_bomb`.  (No per-cell count caches — this
generation recomputes neighbour counts on demand.) -/
structure CellB where
  state : CState
  is_bomb : Bool
deriving DecidableEq

/-- The bottom label: a number, or one of the two game-over strings. -/
inductive MsgB where
  | num (n : Int)
  | winMsg
  | loseMsg
deriving DecidableEq

/-- Board size configuration (`rows`, `columns`, `bombs`). -/
structure CfgB where
  rows : Nat
  columns : Nat
  bombs : Nat
deriving DecidableEq

/-- The `Solver` object state: the flat cell grid, the `active_cells` mask
(the 2D array of `Cell`-or-`None` becomes a Bool mask over the same
coordinates), `generated_bombs`, `game_over`, the label `message`, the
solver counter `bombs_left` and the `updated` flag. -/
structure StateB where
  cells : List CellB
  active : List Bool
  generated_bombs : Bool
  game_over : Bool
  message : MsgB
  bombs_left : Int
  updated : Bool
deriving DecidableEq

/-- Flat index of `(r, c)`. -/
def idxB (g : CfgB) (r c : Int) : Nat :=
  r.toNat * g.columns + c.toNat

/-- Clipped bounds check (models the `>= 0` guards plus caught
`IndexError`s). -/
def inBB (g : CfgB) (r c : Int) : Bool :=
  decide (0 ≤ r) && decide (r < g.rows) && decide (0 ≤ c) && decide (c < g.columns)

/-- `self.cells[r][c]`, clipped. -/
def getB (g : CfgB) (s : StateB) (r c : Int) : Option CellB :=
  if inBB g r c then s.cells[idxB g r c]? else none

/-- Mutate the cell at `(r, c)` (no-op out of bounds). -/
def modB (g : CfgB) (s : StateB) (r c : Int) (f : CellB → CellB) : StateB :=
  if inBB g r c then { s with cells := modNth s.cells (idxB g r c) f } else s

/-- Set the `state` of the cell at `(r, c)`. -/
def setStateB (g : CfgB) (s : StateB) (r c : Int) (st : CState) : StateB :=
  modB g s r c (fun cl => { cl with state := st })

/-- Is the `active_cells` entry at `(r, c)` occupied? -/
def activeAt (g : CfgB) (s : StateB) (r c : Int) : Bool :=
  if inBB g r c then (s.active[idxB g r c]?).getD false else false

/-- `Solver.insert_active_cell` at coordinates `p`. -/
def insertActiveB (g : CfgB) (p : Nat × Nat) (s : StateB) : StateB :=
  { s with active := modNth s.active (p.1 * g.columns + p.2) (fun _ => true) }

/-- `Solver.remove_active_cell` at coordinates `p`. -/
def removeActiveB (g : CfgB) (p : Nat × Nat) (s : StateB) : StateB :=
  { s with active := modNth s.active (p.1 * g.columns + p.2) (fun _ => false) }

/-- The 8 proper-Moore offsets in the order of
`product((0, -1, 1), (0, -1, 1))` with the `(0, 0)` pair skipped (every
counting loop of this generation guards `not (row_offset == 0 and
column_offset == 0)`). -/
def offsP : List (Int × Int) :=
  [(0, -1), (0, 1), (-1, 0), (-1, -1), (-1, 1), (1, 0), (1, -1), (1, 1)]

/-- The full 3×3 offsets, order of `product((-1, 0, 1), (-1, 0, 1))` —
`uncover_neighbors` iterates these with no `(0, 0)` skip. -/
def offsAll : List (Int × Int) :=
  [(-1, -1), (-1, 0), (-1, 1), (0, -1), (0, 0), (0, 1), (1, -1), (1, 0), (1, 1)]

/-- `Minesweeper.neighboring_bombs` (the `assert state == "uncovered"` holds
at every call site reached by the solver; the count itself is modelled). -/
def nbombsB (g : CfgB) (s : StateB) (r c : Int) : Nat :=
  offsP.countP
    (fun o => ((getB g s (r + o.1) (c + o.2)).map (fun cl => cl.is_bomb)).getD false)

/-- `Minesweeper.neighboring_flags`. -/
def nflagsB (g : CfgB) (s : StateB) (r c : Int) : Nat :=
  offsP.countP
    (fun o => ((getB g s (r + o.1) (c + o.2)).map
      (fun cl => decide (cl.state = CState.flagged))).getD false)

/-- `Solver.neighboring_uncovered` — despite its name it counts the
*covered* neighbours. -/
def nuncovB (g : CfgB) (s : StateB) (r c : Int) : Nat :=
  offsP.countP
    (fun o => ((getB g s (r + o.1) (c + o.2)).map
      (fun cl => decide (cl.state = CState.covered))).getD false)

/-- `Solver.alter_counter`: the superclass updates the numeric label (the
`int()` call raises `ValueError` on the two end strings, caught and
ignored), then the override *always* adds the increment to `bombs_left`. -/
def alter_counterB (inc : Int) (s : StateB) : StateB :=
  let s1 :=
    match s.message with
    | MsgB.num n => { s with message := MsgB.num (n + inc) }
    | _ => s
  { s1 with bombs_left := s1.bombs_left + inc }

/-- Modelled from the spec: `Cell.flag` of this generation — toggle the
state between covered and flagged, moving the counter by ∓1. -/
def flagB (g : CfgB) (r c : Int) (s : StateB) : StateB :=
  match getB g s r c with
  | none => s
  | some cell =>
    if cell.state = CState.flagged then alter_counterB 1 (setStateB g s r c CState.covered)
    else alter_counterB (-1) (setStateB g s r c CState.flagged)

/-- Modelled from the spec: `Cell.right_click` — flag-toggle a cell that is
covered or flagged (never an uncovered one). -/
def right_clickB (g : CfgB) (r c : Int) (s : StateB) : StateB :=
  match getB g s r c with
  | none => s
  | some cell =>
    if cell.state = CState.covered ∨ cell.state = CState.flagged then flagB g r c s
    else s

/-- `Minesweeper.has_won`: the running total over the row-major grid,
compared with 0. -/
def has_wonB (g : CfgB) (s : StateB) : Bool :=
  decide
    (s.cells.foldl
      (fun t cl =>
        if cl.is_bomb then t - 1
        else if ¬cl.state = CState.covered then t - 1
        else t)
      ((g.rows * g.columns : Nat) : Int) = 0)

/-- One iteration of the `win_game` flag loop at flat index `i`. -/
def win_stepB (g : CfgB) (i : Nat) (s : StateB) : StateB :=
  match getB g s ((i / g.columns : Nat) : Int) ((i % g.columns : Nat) : Int) with
  | some cl =>
    if cl.is_bomb = true ∧ ¬cl.state = CState.flagged then
      flagB g ((i / g.columns : Nat) : Int) ((i % g.columns : Nat) : Int) s
    else s
  | none => s

/-- `Minesweeper.win_game`: flag the remaining bombs, set `game_over`,
display "You Win". -/
def win_gameB (g : CfgB) (s : StateB) : StateB :=
  let s1 := (List.range (g.rows * g.columns)).foldl (fun sa i => win_stepB g i sa) s
  { s1 with game_over := true, message := MsgB.winMsg }

/-- `Minesweeper.lose_game`: set every cell's state to `"uncovered"`, set
`game_over`, display "You Lose" (`show_text` / `remove_flag` are display
calls). -/
def lose_gameB (g : CfgB) (s : StateB) : StateB :=
  { s with cells := s.cells.map (fun cl => { cl with state := CState.uncovered }),
           game_over := true, message := MsgB.loseMsg }

/-- `Minesweeper.generate_bombs`: the shipped code has the random loop
commented out and instead hard-codes ten bomb sites for the 9×9 test board
(out-of-range sites are clipped here; Python would raise on a smaller
board, and no modelled run reaches this on one). -/
def generate_bombsB (g : CfgB) (s : StateB) : StateB :=
  ([(2, 4), (3, 0), (4, 1), (5, 2), (5, 4), (5, 8), (6, 0), (7, 0), (7, 1), (7, 7)] :
      List (Int × Int)).foldl
    (fun s' p => modB g s' p.1 p.2 (fun cl => { cl with is_bomb := true }))
    { s with generated_bombs := true }

/-- The `super().uncover_neighbors` offset loop, abstracted over the
recursive `left_click` call `rec`: recurse into every in-bounds
still-covered cell of the 3×3 block (offset `(0, 0)` included). -/
def nbrsGoB (g : CfgB) (rec : Int → Int → StateB → Option StateB) :
    List (Int × Int) → Int → Int → StateB → Option StateB
  | [], _, _, s => some s
  | o :: rest, r, c, s =>
    match getB g s (r + o.1) (c + o.2) with
    | some cell =>
      if cell.state = CState.covered then
        match rec (r + o.1) (c + o.2) s with
        | none => none
        | some s1 => nbrsGoB g rec rest r c s1
      else nbrsGoB g rec rest r c s
    | none => nbrsGoB g rec rest r c s

/-- The second loop of `Solver.uncover_neighbors`: insert into
`active_cells` every in-bounds uncovered cell of the 3×3 block that has
`neighboring_bombs - neighboring_flags ≥ 0`, at least one covered
neighbour, and is not already active. -/
def insertGoB (g : CfgB) : List (Int × Int) → Int → Int → StateB → StateB
  | [], _, _, s => s
  | o :: rest, r, c, s =>
    let p := r + o.1
    let q := c + o.2
    let s1 :=
      match getB g s p q with
      | some cell =>
        if cell.state = CState.uncovered ∧
            (nbombsB g s p q : Int) - (nflagsB g s p q : Int) ≥ 0 ∧
            nuncovB g s p q > 0 ∧
            activeAt g s p q = false then
          insertActiveB g (p.toNat, q.toNat) s
        else s
      | none => s
    insertGoB g rest r c s1

/-- Modelled from the spec: the body of `Cell.uncover` for this generation —
set the state to `"uncovered"` and, when `neighboring_bombs` reads 0, hand
control to `Solver.uncover_neighbors` (the `recFu`-supplied loop; `none`
fuel means the cascade budget is exhausted). -/
def uncoverWith (g : CfgB) (recFu : Option (Int → Int → StateB → Option StateB))
    (r c : Int) (s : StateB) : Option StateB :=
  let s1 := setStateB g s r c CState.uncovered
  if nbombsB g s1 r c = 0 then
    match recFu with
    | none => none
    | some rec => (nbrsGoB g rec offsAll r c s1).map (fun s2 => insertGoB g offsAll r c s2)
  else some s1

/-- Modelled from the spec: `Cell.left_click` for this generation — on a
covered cell: generate bombs first if needed, lose on a bomb, otherwise
uncover (with cascade) and evaluate `has_won`, winning if it returns true.
Anything not covered is a no-op. -/
def left_clickB (g : CfgB) (fuel : Nat) (r c : Int) (s : StateB) : Option StateB :=
  match getB g s r c with
  | none => some s
  | some cell =>
    if cell.state = CState.covered then
      if s.generated_bombs = false then
        uncoverWith g
          (match fuel with
           | 0 => none
           | fu + 1 => some (left_clickB g fu)) r c (generate_bombsB g s)
      else if cell.is_bomb then some (lose_gameB g s)
      else
        (uncoverWith g
          (match fuel with
           | 0 => none
           | fu + 1 => some (left_clickB g fu)) r c s).map
          (fun s2 => if has_wonB g s2 then win_gameB g s2 else s2)
    else some s

/-- `Solver.uncover_neighbors` packaged with its fuel: the `nbrsGoB` loop
recursing into `left_clickB` at one less fuel, then the active-cell
insertion loop. -/
def uncover_neighborsB (g : CfgB) (fuel : Nat) (r c : Int) (s : StateB) : Option StateB :=
  match fuel with
  | 0 => none
  | fu + 1 =>
    (nbrsGoB g (left_clickB g fu) offsAll r c s).map (fun s2 => insertGoB g offsAll r c s2)

/-- Modelled from the spec: `Cell.double_left_click` — chord when the live
flag count matches the live bomb count on an uncovered cell, then evaluate
`has_won` unless the game is over. -/
def double_left_clickB (g : CfgB) (fuel : Nat) (r c : Int) (s : StateB) : Option StateB :=
  match getB g s r c with
  | none => some s
  | some cell =>
    let step1 : Option StateB :=
      if cell.state = CState.uncovered ∧ nflagsB g s r c = nbombsB g s r c then
        uncover_neighborsB g fuel r c s
      else some s
    step1.map (fun s1 =>
      if s1.game_over = false then (if has_wonB g s1 then win_gameB g s1 else s1) else s1)

/-- Row-major coordinates of the whole grid. -/
def gridCoords (g : CfgB) : List (Nat × Nat) :=
  (List.range (g.rows * g.columns)).map (fun i => (i / g.columns, i % g.columns))

/-- `Solver.list_active_cells`: the active cells in row-major order. -/
def list_active_cellsB (g : CfgB) (s : StateB) : List (Nat × Nat) :=
  (gridCoords g).filter (fun p => activeAt g s p.1 p.2)

/-- One iteration of the `flag_obvious_cells` loop for the active cell at
`p`: when `neighboring_bombs = neighboring_flags + neighboring_uncovered`,
right-click every covered in-bounds proper-Moore neighbour, drop `p` from
the active set and record progress. -/
def flag_stepB (g : CfgB) (p : Nat × Nat) (s : StateB) : StateB :=
  if nbombsB g s p.1 p.2 = nflagsB g s p.1 p.2 + nuncovB g s p.1 p.2 then
    let s1 := offsP.foldl
      (fun s' o =>
        match getB g s' (p.1 + o.1) (p.2 + o.2) with
        | some cell =>
          if cell.state = CState.covered then right_clickB g (p.1 + o.1) (p.2 + o.2) s'
          else s'
        | none => s') s
    { removeActiveB g p s1 with updated := true }
  else s

/-- `Solver.flag_obvious_cells`: no-op when the game is over; otherwise run
`flag_stepB` over the active list computed up front. -/
def flag_obviousB (g : CfgB) (s : StateB) : StateB :=
  if s.game_over then s
  else (list_active_cellsB g s).foldl (fun s' p => flag_stepB g p s') s

/-- One iteration of the `double_left_click_obvious_cells` loop. -/
def click_stepB (g : CfgB) (fuel : Nat) (p : Nat × Nat) (s : StateB) : Option StateB :=
  if nflagsB g s p.1 p.2 = nbombsB g s p.1 p.2 then
    (double_left_clickB g fuel p.1 p.2 s).map
      (fun s1 => { removeActiveB g p s1 with updated := true })
  else some s

/-- The fold of `click_stepB` over a list of coordinates. -/
def clickPassGoB (g : CfgB) (fuel : Nat) : List (Nat × Nat) → StateB → Option StateB
  | [], s => some s
  | p :: rest, s =>
    match click_stepB g fuel p s with
    | none => none
    | some s1 => clickPassGoB g fuel rest s1

/-- `Solver.double_left_click_obvious_cells` (note: unlike
`flag_obvious_cells` it has no game-over guard). -/
def double_left_click_obviousB (g : CfgB) (fuel : Nat) (s : StateB) : Option StateB :=
  clickPassGoB g fuel (list_active_cellsB g s) s

/-- One iteration of the `solve` while-loop body: clear `updated`, flag the
obvious cells, then chord the obvious cells. -/
def solve_passB (g : CfgB) (fuel : Nat) (s : StateB) : Option StateB :=
  double_left_click_obviousB g fuel (flag_obviousB g { s with updated := false })

/-- The `solve` while-loop, with its own fuel (`loopFuel`) on top of the
cascade fuel. -/
def solveLoopB (g : CfgB) (loopFuel cascadeFuel : Nat) (s : StateB) : Option StateB :=
  if s.updated = true ∧ s.game_over = false then
    match loopFuel with
    | 0 => none
    | lf + 1 => (solve_passB g cascadeFuel s).bind (fun s' => solveLoopB g lf cascadeFuel s')
  else some s

/-- What `solve` does after its loop: print the win/lose message, print the
remaining-bomb count when positive, or raise `Exception("Impossible Game
State")`. -/
inductive SolveOutcome where
  | printedWin
  | printedLose
  | printedBombsLeft (n : Int)
  | raisedImpossible
deriving DecidableEq

/-- The final message dispatch of `Solver.solve`. -/
def solve_reportB (s : StateB) : SolveOutcome :=
  if s.message = MsgB.winMsg then SolveOutcome.printedWin
  else if s.message = MsgB.loseMsg then SolveOutcome.printedLose
  else if s.bombs_left > 0 then SolveOutcome.printedBombsLeft s.bombs_left
  else SolveOutcome.raisedImpossible

/-- `Solver.solve`: set `updated`, loop to the fixpoint, then dispatch on
the message. -/
def solveB (g : CfgB) (loopFuel cascadeFuel : Nat) (s : StateB) :
    Option (StateB × SolveOutcome) :=
  (solveLoopB g loopFuel cascadeFuel { s with updated := true }).map
    (fun s' => (s', solve_reportB s'))

/-- `Solver.are_adjacent`: `sqrt(dr² + dc²) < 1.5` — for integer
coordinates exactly `dr² + dc² ≤ 2`. -/
def are_adjacentB (p q : Nat × Nat) : Bool :=
  decide (((p.1 : Int) - q.1) * ((p.1 : Int) - q.1)
    + ((p.2 : Int) - q.2) * ((p.2 : Int) - q.2) ≤ 2)

/-- The `covered_cells` list of `find_last_bomb` (row-major). -/
def coveredCellsB (g : CfgB) (s : StateB) : List (Nat × Nat) :=
  (gridCoords g).filter
    (fun p => decide ((getB g s p.1 p.2).map (fun cl => cl.state) = some CState.covered))

/-- The covered cells adjacent to *every* active cell — exactly the cells
whose indicator configuration enters `valid_configuration`.  A covered
cell's column in the configuration matrix is all-false iff the cell is not
in this list (each configuration is the indicator vector of one member). -/
def hypothesesB (g : CfgB) (s : StateB) : List (Nat × Nat) :=
  (coveredCellsB g s).filter
    (fun p => (list_active_cellsB g s).all (fun q => are_adjacentB p q))

/-- The final loop of `find_last_bomb`: left-click (then mark active and
record progress) every covered cell whose configuration column is
all-false, i.e. every covered cell not in `H`. -/
def clickLoopB (g : CfgB) (fuel : Nat) (H : List (Nat × Nat)) :
    List (Nat × Nat) → StateB → Option StateB
  | [], s => some s
  | p :: rest, s =>
    if p ∈ H then clickLoopB g fuel H rest s
    else
      match left_clickB g fuel p.1 p.2 s with
      | none => none
      | some s1 => clickLoopB g fuel H rest { insertActiveB g p s1 with updated := true }

/-- `Solver.find_last_bomb`: guard on the counter `bombs_left ≠ 1`, build
the hypothesis set, click the always-not-a-bomb cells, then `solve`.  The
second component is the `solve` outcome (`none` when the guard returned
early and `solve` never ran). -/
def find_last_bombB (g : CfgB) (loopFuel cascadeFuel : Nat) (s : StateB) :
    Option (StateB × Option SolveOutcome) :=
  if s.bombs_left = 1 then
    (clickLoopB g cascadeFuel (hypothesesB g s) (coveredCellsB g s) s).bind
      (fun s1 => (solveB g loopFuel cascadeFuel s1).map (fun r => (r.1, some r.2)))
  else some (s, none)


/-! ### Basic facts about the Model B grid -/

theorem inBB_iff (g : CfgB) (r c : Int) :
    inBB g r c = true ↔ 0 ≤ r ∧ r < g.rows ∧ 0 ≤ c ∧ c < g.columns := by
  unfold inBB
  simp [Bool.and_eq_true, decide_eq_true_eq]
  omega

theorem idxB_lt {g : CfgB} {r c : Int} (h : inBB g r c = true) :
    idxB g r c < g.rows * g.columns := by
  rw [inBB_iff] at h
  unfold idxB
  have h1 : r.toNat < g.rows := by omega
  have h2 : c.toNat < g.columns := by omega
  calc r.toNat * g.columns + c.toNat < r.toNat * g.columns + g.columns := by omega
    _ = (r.toNat + 1) * g.columns := by ring
    _ ≤ g.rows * g.columns := Nat.mul_le_mul_right _ (by omega)

theorem idxB_eq_iff (g : CfgB) {r c r' c' : Int}
    (h : inBB g r c = true) (h' : inBB g r' c' = true) :
    idxB g r c = idxB g r' c' ↔ (r = r' ∧ c = c') := by
  rw [inBB_iff] at h h'
  unfold idxB
  constructor
  · intro he
    have hb : c.toNat < g.columns := by omega
    have hb' : c'.toNat < g.columns := by omega
    have := MainGame.rowcol_inj hb hb' he
    omega
  · intro he
    rw [he.1, he.2]

theorem getB_isSome {g : CfgB} {s : StateB} {r c : Int}
    (h : inBB g r c = true) (hlen : s.cells.length = g.rows * g.columns) :
    ∃ cl, getB g s r c = some cl := by
  unfold getB
  rw [h]
  simp only [if_true]
  have : idxB g r c < s.cells.length := by rw [hlen]; exact idxB_lt h
  exact ⟨s.cells[idxB g r c], List.getElem?_eq_getElem this⟩

theorem getB_some_inB {g : CfgB} {s : StateB} {r c : Int} {cl : CellB}
    (h : getB g s r c = some cl) : inBB g r c = true := by
  unfold getB at h
  by_cases hin : inBB g r c = true
  · exact hin
  · rw [if_neg hin] at h; cases h

theorem cells_length_modB (g : CfgB) (s : StateB) (r c : Int) (f : CellB → CellB) :
    (modB g s r c f).cells.length = s.cells.length := by
  unfold modB
  split
  · simp [length_modNth]
  · rfl

theorem getB_modB_self (g : CfgB) (s : StateB) (r c : Int) (f : CellB → CellB)
    (h : inBB g r c = true) :
    getB g (modB g s r c f) r c = (getB g s r c).map f := by
  unfold modB getB
  rw [h]
  simp only [if_true]
  exact getElem?_modNth_self _ _ _

theorem getB_modB_ne (g : CfgB) (s : StateB) (r c r' c' : Int) (f : CellB → CellB)
    (hne : ¬(r = r' ∧ c = c')) :
    getB g (modB g s r c f) r' c' = getB g s r' c' := by
  unfold modB getB
  by_cases h : inBB g r c = true
  · rw [h]
    simp only [if_true]
    by_cases h' : inBB g r' c' = true
    · rw [h']
      simp only [if_true]
      exact getElem?_modNth_ne _ _ _ _ (fun he => hne ((idxB_eq_iff g h h').1 he))
    · simp [h']
  · simp [h]

/-! ### Covered-monotone mutation steps for Model B -/

/-- The "is covered" bit at flat index `i`. -/
def covIdxB (s : StateB) (i : Nat) : Bool :=
  ((s.cells[i]?).map (fun cl => decide (cl.state = CState.covered))).getD false

/-- The "is covered" bit at `(r, c)` (false when out of range). -/
def covAtB (g : CfgB) (s : StateB) (r c : Int) : Bool :=
  ((getB g s r c).map (fun cl => decide (cl.state = CState.covered))).getD false

/-- The number of covered cells. -/
def coveredCountB (s : StateB) : Nat :=
  s.cells.countP (fun cl => decide (cl.state = CState.covered))

/-- What every solver-reachable mutation preserves: the grid size, and the
fact that no cell ever returns to the `"covered"` state. -/
def StepB (s s' : StateB) : Prop :=
  s'.cells.length = s.cells.length ∧
  (∀ i : Nat, covIdxB s' i = true → covIdxB s i = true)

theorem StepB_refl (s : StateB) : StepB s s :=
  ⟨rfl, fun _ h => h⟩

theorem StepB_trans {s1 s2 s3 : StateB} (h12 : StepB s1 s2) (h23 : StepB s2 s3) :
    StepB s1 s3 :=
  ⟨h23.1.trans h12.1, fun i h => h12.2 i (h23.2 i h)⟩

theorem StepB_of_cells_eq {s s' : StateB} (h : s'.cells = s.cells) : StepB s s' :=
  ⟨by rw [h], fun i hc => by unfold covIdxB at *; rw [h] at hc; exact hc⟩

theorem StepB_modB (g : CfgB) (s : StateB) (r c : Int) (f : CellB → CellB)
    (hf : ∀ cl, (f cl).state = CState.covered → cl.state = CState.covered) :
    StepB s (modB g s r c f) := by
  unfold modB
  split
  · refine ⟨length_modNth _ _ _, ?_⟩
    intro i hcov
    unfold covIdxB at hcov ⊢
    replace hcov : ((modNth s.cells (idxB g r c) f)[i]?.map
        (fun cl => decide (cl.state = CState.covered))).getD false = true := hcov
    by_cases hi : idxB g r c = i
    · subst hi
      rw [getElem?_modNth_self] at hcov
      cases hx : s.cells[idxB g r c]? with
      | none => rw [hx] at hcov; cases hcov
      | some cl =>
        rw [hx] at hcov
        simp at hcov
        simp [hx, hf cl hcov]
    · rw [getElem?_modNth_ne _ _ _ _ hi] at hcov
      exact hcov
  · exact StepB_refl s

theorem StepB_setState_uncovered (g : CfgB) (s : StateB) (r c : Int) :
    StepB s (setStateB g s r c CState.uncovered) :=
  StepB_modB g s r c _ (fun cl h => by cases h)

theorem StepB_setState_flagged (g : CfgB) (s : StateB) (r c : Int) :
    StepB s (setStateB g s r c CState.flagged) :=
  StepB_modB g s r c _ (fun cl h => by cases h)

theorem alterB_cells (inc : Int) (s : StateB) : (alter_counterB inc s).cells = s.cells := by
  unfold alter_counterB
  cases s.message <;> rfl

theorem StepB_alter (inc : Int) (s : StateB) : StepB s (alter_counterB inc s) :=
  StepB_of_cells_eq (alterB_cells inc s)

/-- `Cell.flag` on a cell that is not currently flagged is a `StepB` (it
moves the cell *out of* covered, or flags an uncovered cell). -/
theorem StepB_flagB_not_flagged (g : CfgB) (r c : Int) (s : StateB) (cl : CellB)
    (hget : getB g s r c = some cl) (hfl : ¬cl.state = CState.flagged) :
    StepB s (flagB g r c s) := by
  unfold flagB
  rw [hget]
  dsimp only
  rw [if_neg hfl]
  exact StepB_trans (StepB_setState_flagged g s r c) (StepB_alter _ _)

theorem StepB_right_clickB (g : CfgB) (r c : Int) (s : StateB)
    (hcov : ∀ cl, getB g s r c = some cl → cl.state ≠ CState.flagged) :
    StepB s (right_clickB g r c s) := by
  unfold right_clickB
  cases hget : getB g s r c with
  | none => exact StepB_refl s
  | some cell =>
    dsimp only
    split
    · exact StepB_flagB_not_flagged g r c s cell hget (hcov cell hget)
    · exact StepB_refl s

theorem insertGoB_cells (g : CfgB) :
    ∀ (L : List (Int × Int)) (r c : Int) (s : StateB),
      (insertGoB g L r c s).cells = s.cells := by
  intro L
  induction L with
  | nil => intro r c s; rfl
  | cons o rest ih =>
    intro r c s
    rw [show insertGoB g (o :: rest) r c s
        = insertGoB g rest r c
          (match getB g s (r + o.1) (c + o.2) with
          | some cell =>
            if cell.state = CState.uncovered ∧
                (nbombsB g s (r + o.1) (c + o.2) : Int) - (nflagsB g s (r + o.1) (c + o.2) : Int) ≥ 0 ∧
                nuncovB g s (r + o.1) (c + o.2) > 0 ∧
                activeAt g s (r + o.1) (c + o.2) = false then
              insertActiveB g ((r + o.1).toNat, (c + o.2).toNat) s
            else s
          | none => s) from rfl]
    rw [ih]
    cases getB g s (r + o.1) (c + o.2) with
    | none => rfl
    | some cell =>
      dsimp only
      split <;> rfl

theorem StepB_insertGo (g : CfgB) (L : List (Int × Int)) (r c : Int) (s : StateB) :
    StepB s (insertGoB g L r c s) :=
  StepB_of_cells_eq (insertGoB_cells g L r c s)

theorem lose_game_cells (g : CfgB) (s : StateB) (i : Nat) :
    covIdxB (lose_gameB g s) i = false := by
  unfold lose_gameB covIdxB
  dsimp only
  rw [List.getElem?_map]
  cases s.cells[i]? <;> simp

theorem StepB_lose_game (g : CfgB) (s : StateB) : StepB s (lose_gameB g s) := by
  refine ⟨by unfold lose_gameB; simp, ?_⟩
  intro i h
  rw [lose_game_cells g s i] at h
  cases h

theorem StepB_win_step (g : CfgB) (i : Nat) (s : StateB) : StepB s (win_stepB g i s) := by
  unfold win_stepB
  cases hget : getB g s ((i / g.columns : Nat) : Int) ((i % g.columns : Nat) : Int) with
  | none => exact StepB_refl s
  | some cl =>
    dsimp only
    split
    case isTrue h => exact StepB_flagB_not_flagged g _ _ s cl hget h.2
    case isFalse _ => exact StepB_refl s

theorem StepB_foldl_steps {step : Nat → StateB → StateB}
    (hstep : ∀ i s, StepB s (step i s)) :
    ∀ (L : List Nat) (s : StateB), StepB s (L.foldl (fun sa i => step i sa) s) := by
  intro L
  induction L with
  | nil => intro s; exact StepB_refl s
  | cons i t ih => intro s; exact StepB_trans (hstep i s) (ih _)

theorem StepB_win_game (g : CfgB) (s : StateB) : StepB s (win_gameB g s) := by
  unfold win_gameB
  exact StepB_trans (StepB_foldl_steps (fun i s => StepB_win_step g i s) _ s)
    (StepB_of_cells_eq rfl)

theorem StepB_has_won_wrap (g : CfgB) (s : StateB) :
    StepB s (if has_wonB g s then win_gameB g s else s) := by
  split
  · exact StepB_win_game g s
  · exact StepB_refl s

theorem StepB_generate (g : CfgB) (s : StateB) : StepB s (generate_bombsB g s) := by
  unfold generate_bombsB
  refine StepB_trans (StepB_of_cells_eq rfl)
    (?_ : StepB { s with generated_bombs := true } _)
  generalize { s with generated_bombs := true } = s0
  generalize ([(2, 4), (3, 0), (4, 1), (5, 2), (5, 4), (5, 8), (6, 0), (7, 0), (7, 1), (7, 7)] :
    List (Int × Int)) = L
  induction L generalizing s0 with
  | nil => exact StepB_refl s0
  | cons p rest ih =>
    rw [List.foldl_cons]
    exact StepB_trans
      (StepB_modB g s0 p.1 p.2 (fun cl => { cl with is_bomb := true }) (fun cl h => h)) (ih _)

theorem StepB_nbrsGoB (g : CfgB) (rec : Int → Int → StateB → Option StateB)
    (hrec : ∀ (r c : Int) (s s' : StateB), rec r c s = some s' → StepB s s') :
    ∀ (offs : List (Int × Int)) (r c : Int) (s s' : StateB),
      nbrsGoB g rec offs r c s = some s' → StepB s s' := by
  intro offs
  induction offs with
  | nil =>
    intro r c s s' h
    rw [show nbrsGoB g rec [] r c s = some s from rfl] at h
    cases h
    exact StepB_refl s
  | cons o rest ih =>
    intro r c s s' h
    rw [show nbrsGoB g rec (o :: rest) r c s
        = (match getB g s (r + o.1) (c + o.2) with
          | some cell =>
            if cell.state = CState.covered then
              match rec (r + o.1) (c + o.2) s with
              | none => none
              | some s1 => nbrsGoB g rec rest r c s1
            else nbrsGoB g rec rest r c s
          | none => nbrsGoB g rec rest r c s) from rfl] at h
    cases hget : getB g s (r + o.1) (c + o.2) with
    | none =>
      rw [hget] at h
      dsimp only at h
      exact ih _ _ _ _ h
    | some cell =>
      rw [hget] at h
      dsimp only at h
      by_cases hcov : cell.state = CState.covered
      · rw [if_pos hcov] at h
        cases hres : rec (r + o.1) (c + o.2) s with
        | none => rw [hres] at h; cases h
        | some s1 =>
          rw [hres] at h
          dsimp only at h
          exact StepB_trans (hrec _ _ _ _ hres) (ih _ _ _ _ h)
      · rw [if_neg hcov] at h
        exact ih _ _ _ _ h

theorem StepB_uncoverWith (g : CfgB) (recFu : Option (Int → Int → StateB → Option StateB))
    (hrec : ∀ rec, recFu = some rec →
      ∀ (r c : Int) (s s' : StateB), rec r c s = some s' → StepB s s')
    (r c : Int) (s s' : StateB) (h : uncoverWith g recFu r c s = some s') :
    StepB s s' := by
  unfold uncoverWith at h
  dsimp only at h
  by_cases hnb : nbombsB g (setStateB g s r c CState.uncovered) r c = 0
  · rw [if_pos hnb] at h
    cases hrf : recFu with
    | none => rw [hrf] at h; cases h
    | some rec =>
      rw [hrf] at h
      dsimp only at h
      rw [Option.map_eq_some'] at h
      obtain ⟨s2, h2, h3⟩ := h
      subst h3
      exact StepB_trans
        (StepB_trans (StepB_setState_uncovered g s r c)
          (StepB_nbrsGoB g rec (hrec rec hrf) offsAll r c _ s2 h2))
        (StepB_insertGo g offsAll r c s2)
  · rw [if_neg hnb] at h
    cases h
    exact StepB_setState_uncovered g s r c

/-- `Cell.left_click` is a `StepB` whenever it succeeds. -/
theorem StepB_left_clickB (g : CfgB) :
    ∀ (fuel : Nat) (r c : Int) (s s' : StateB),
      left_clickB g fuel r c s = some s' → StepB s s' := by
  intro fuel
  induction fuel with
  | zero =>
    intro r c s s' h
    rw [left_clickB] at h
    cases hget : getB g s r c with
    | none => rw [hget] at h; dsimp only at h; cases h; exact StepB_refl s
    | some cell =>
      rw [hget] at h
      dsimp only at h
      by_cases hcov : cell.state = CState.covered
      · rw [if_pos hcov] at h
        by_cases hgen : s.generated_bombs = false
        · rw [if_pos hgen] at h
          exact StepB_trans (StepB_generate g s)
            (StepB_uncoverWith g none (fun rec hrec => by cases hrec) r c _ s' h)
        · rw [if_neg hgen] at h
          by_cases hbm : cell.is_bomb = true
          · rw [if_pos hbm] at h
            cases h
            exact StepB_lose_game g s
          · rw [if_neg hbm] at h
            rw [Option.map_eq_some'] at h
            obtain ⟨s2, h2, h3⟩ := h
            subst h3
            exact StepB_trans
              (StepB_uncoverWith g none (fun rec hrec => by cases hrec) r c s s2 h2)
              (StepB_has_won_wrap g s2)
      · rw [if_neg hcov] at h
        cases h
        exact StepB_refl s
  | succ fu ih =>
    intro r c s s' h
    rw [left_clickB] at h
    cases hget : getB g s r c with
    | none => rw [hget] at h; dsimp only at h; cases h; exact StepB_refl s
    | some cell =>
      rw [hget] at h
      dsimp only at h
      by_cases hcov : cell.state = CState.covered
      · rw [if_pos hcov] at h
        by_cases hgen : s.generated_bombs = false
        · rw [if_pos hgen] at h
          exact StepB_trans (StepB_generate g s)
            (StepB_uncoverWith g (some (left_clickB g fu))
              (fun rec hrec => by cases hrec; exact ih) r c _ s' h)
        · rw [if_neg hgen] at h
          by_cases hbm : cell.is_bomb = true
          · rw [if_pos hbm] at h
            cases h
            exact StepB_lose_game g s
          · rw [if_neg hbm] at h
            rw [Option.map_eq_some'] at h
            obtain ⟨s2, h2, h3⟩ := h
            subst h3
            exact StepB_trans
              (StepB_uncoverWith g (some (left_clickB g fu))
                (fun rec hrec => by cases hrec; exact ih) r c s s2 h2)
              (StepB_has_won_wrap g s2)
      · rw [if_neg hcov] at h
        cases h
        exact StepB_refl s

theorem StepB_uncover_neighborsB (g : CfgB) (fuel : Nat) (r c : Int) (s s' : StateB)
    (h : uncover_neighborsB g fuel r c s = some s') : StepB s s' := by
  cases fuel with
  | zero => rw [show uncover_neighborsB g 0 r c s = none from rfl] at h; cases h
  | succ fu =>
    rw [show uncover_neighborsB g (fu + 1) r c s
        = (nbrsGoB g (left_clickB g fu) offsAll r c s).map
            (fun s2 => insertGoB g offsAll r c s2) from rfl] at h
    rw [Option.map_eq_some'] at h
    obtain ⟨s2, h2, h3⟩ := h
    subst h3
    exact StepB_trans
      (StepB_nbrsGoB g (left_clickB g fu)
        (fun r' c' s1 s2' hh => StepB_left_clickB g fu r' c' s1 s2' hh) offsAll r c s s2 h2)
      (StepB_insertGo g offsAll r c s2)

theorem StepB_double_left_clickB (g : CfgB) (fuel : Nat) (r c : Int) (s s' : StateB)
    (h : double_left_clickB g fuel r c s = some s') : StepB s s' := by
  unfold double_left_clickB at h
  cases hget : getB g s r c with
  | none => rw [hget] at h; dsimp only at h; cases h; exact StepB_refl s
  | some cell =>
    rw [hget] at h
    dsimp only at h
    rw [Option.map_eq_some'] at h
    obtain ⟨s1, h1, h2⟩ := h
    have hstep1 : StepB s s1 := by
      by_cases hcond : cell.state = CState.uncovered ∧ nflagsB g s r c = nbombsB g s r c
      · rw [if_pos hcond] at h1
        exact StepB_uncover_neighborsB g fuel r c s s1 h1
      · rw [if_neg hcond] at h1
        cases h1
        exact StepB_refl s
    subst h2
    by_cases hgo : s1.game_over = false
    · rw [if_pos hgo]
      exact StepB_trans hstep1 (StepB_has_won_wrap g s1)
    · rw [if_neg hgo]
      exact hstep1


/-! ### The click target always ends up non-covered -/

theorem getB_cells_congr (g : CfgB) {s s' : StateB} (h : s'.cells = s.cells) (r c : Int) :
    getB g s' r c = getB g s r c := by
  unfold getB
  rw [h]

theorem covAtB_cells_congr (g : CfgB) {s s' : StateB} (h : s'.cells = s.cells) (r c : Int) :
    covAtB g s' r c = covAtB g s r c := by
  unfold covAtB
  rw [getB_cells_congr g h]

theorem covAtB_mono (g : CfgB) {s s' : StateB} (hs : StepB s s') (r c : Int)
    (h : covAtB g s r c = false) : covAtB g s' r c = false := by
  unfold covAtB getB at h ⊢
  by_cases hin : inBB g r c = true
  · rw [if_pos hin] at h ⊢
    have h2 := hs.2 (idxB g r c)
    unfold covIdxB at h2
    cases hx : s'.cells[idxB g r c]? with
    | none => simp [hx]
    | some cl =>
      by_cases hcl : cl.state = CState.covered
      · exfalso
        have h3 := h2 (by simp [hx, hcl])
        rw [h] at h3
        exact Bool.noConfusion h3
      · simp [hcl]
  · rw [if_neg hin]
    rfl

theorem covAtB_setState_self (g : CfgB) (s : StateB) (r c : Int)
    (hin : inBB g r c = true) :
    covAtB g (setStateB g s r c CState.uncovered) r c = false := by
  unfold covAtB setStateB
  rw [getB_modB_self _ _ _ _ _ hin]
  cases getB g s r c <;> simp

theorem covAtB_lose_game (g : CfgB) (s : StateB) (r c : Int) :
    covAtB g (lose_gameB g s) r c = false := by
  unfold covAtB getB lose_gameB
  dsimp only
  by_cases hin : inBB g r c = true
  · rw [if_pos hin, List.getElem?_map]
    cases s.cells[idxB g r c]? <;> simp
  · rw [if_neg hin]
    rfl

theorem uncoverWith_target (g : CfgB) (recFu : Option (Int → Int → StateB → Option StateB))
    (hrec : ∀ rec, recFu = some rec →
      ∀ (r c : Int) (s s' : StateB), rec r c s = some s' → StepB s s')
    (r c : Int) (s s' : StateB) (hin : inBB g r c = true)
    (h : uncoverWith g recFu r c s = some s') :
    covAtB g s' r c = false := by
  unfold uncoverWith at h
  dsimp only at h
  have hbase := covAtB_setState_self g s r c hin
  by_cases hnb : nbombsB g (setStateB g s r c CState.uncovered) r c = 0
  · rw [if_pos hnb] at h
    cases hrf : recFu with
    | none => rw [hrf] at h; cases h
    | some rec =>
      rw [hrf] at h
      dsimp only at h
      rw [Option.map_eq_some'] at h
      obtain ⟨s2, h2, h3⟩ := h
      subst h3
      rw [covAtB_cells_congr g (insertGoB_cells g offsAll r c s2)]
      exact covAtB_mono g (StepB_nbrsGoB g rec (hrec rec hrf) offsAll r c _ s2 h2) r c hbase
  · rw [if_neg hnb] at h
    cases h
    exact hbase

/-- Whenever `left_click` succeeds, its target cell is not covered in the
result (it was revealed, the game was lost revealing everything, or it was
not covered to begin with). -/
theorem left_clickB_target (g : CfgB) (fuel : Nat) (r c : Int) (s s' : StateB)
    (h : left_clickB g fuel r c s = some s') :
    covAtB g s' r c = false := by
  have main : ∀ (recFu : Option (Int → Int → StateB → Option StateB)),
      (∀ rec, recFu = some rec → ∀ (r' c' : Int) (t t' : StateB),
        rec r' c' t = some t' → StepB t t') →
      (match getB g s r c with
        | none => some s
        | some cell =>
          if cell.state = CState.covered then
            if s.generated_bombs = false then
              uncoverWith g recFu r c (generate_bombsB g s)
            else if cell.is_bomb then some (lose_gameB g s)
            else (uncoverWith g recFu r c s).map
              (fun s2 => if has_wonB g s2 then win_gameB g s2 else s2)
          else some s) = some s' →
      covAtB g s' r c = false := by
    intro recFu hrec h0
    cases hget : getB g s r c with
    | none =>
      rw [hget] at h0
      dsimp only at h0
      cases h0
      unfold covAtB
      rw [hget]
      rfl
    | some cell =>
      have hin : inBB g r c = true := getB_some_inB hget
      rw [hget] at h0
      dsimp only at h0
      by_cases hcov : cell.state = CState.covered
      · rw [if_pos hcov] at h0
        by_cases hgen : s.generated_bombs = false
        · rw [if_pos hgen] at h0
          exact uncoverWith_target g recFu hrec r c _ s' hin h0
        · rw [if_neg hgen] at h0
          by_cases hbm : cell.is_bomb = true
          · rw [if_pos hbm] at h0
            cases h0
            exact covAtB_lose_game g s r c
          · rw [if_neg hbm] at h0
            rw [Option.map_eq_some'] at h0
            obtain ⟨s2, h2, h3⟩ := h0
            subst h3
            exact covAtB_mono g (StepB_has_won_wrap g s2) r c
              (uncoverWith_target g recFu hrec r c s s2 hin h2)
      · rw [if_neg hcov] at h0
        cases h0
        unfold covAtB
        rw [hget]
        simp [hcov]
  cases fuel with
  | zero =>
    rw [left_clickB] at h
    exact main none (fun rec hr => by cases hr) h
  | succ fu =>
    rw [left_clickB] at h
    exact main (some (left_clickB g fu))
      (fun rec hr => by cases hr; exact StepB_left_clickB g fu) h

/-! ### The `find_last_bomb` click loop -/

theorem StepB_clickLoopB (g : CfgB) (cf : Nat) (H : List (Nat × Nat)) :
    ∀ (L : List (Nat × Nat)) (s s1 : StateB),
      clickLoopB g cf H L s = some s1 → StepB s s1 := by
  intro L
  induction L with
  | nil =>
    intro s s1 h
    rw [show clickLoopB g cf H [] s = some s from rfl] at h
    cases h
    exact StepB_refl s
  | cons p rest ih =>
    intro s s1 h
    rw [show clickLoopB g cf H (p :: rest) s
        = (if p ∈ H then clickLoopB g cf H rest s
           else
             match left_clickB g cf p.1 p.2 s with
             | none => none
             | some s2 => clickLoopB g cf H rest { insertActiveB g p s2 with updated := true })
        from rfl] at h
    by_cases hp : p ∈ H
    · rw [if_pos hp] at h
      exact ih s s1 h
    · rw [if_neg hp] at h
      cases hres : left_clickB g cf p.1 p.2 s with
      | none => rw [hres] at h; cases h
      | some s2 =>
        rw [hres] at h
        dsimp only at h
        have hstep : StepB s ({ insertActiveB g p s2 with updated := true } : StateB) :=
          StepB_trans (StepB_left_clickB g cf _ _ s s2 hres) (StepB_of_cells_eq rfl)
        exact StepB_trans hstep (ih _ s1 h)

/-- With an empty hypothesis list, the click loop left-clicks *every* listed
cell, so none of them remains covered in the result. -/
theorem clickLoopB_nil_covers (g : CfgB) (cf : Nat) :
    ∀ (L : List (Nat × Nat)) (s s1 : StateB),
      clickLoopB g cf [] L s = some s1 →
      ∀ p ∈ L, covAtB g s1 p.1 p.2 = false := by
  intro L
  induction L with
  | nil => intro s s1 h p hp; cases hp
  | cons p rest ih =>
    intro s s1 h q hq
    rw [show clickLoopB g cf [] (p :: rest) s
        = (match left_clickB g cf p.1 p.2 s with
           | none => none
           | some s2 => clickLoopB g cf [] rest { insertActiveB g p s2 with updated := true })
        from rfl] at h
    cases hres : left_clickB g cf p.1 p.2 s with
    | none => rw [hres] at h; cases h
    | some s2 =>
      rw [hres] at h
      dsimp only at h
      rcases List.mem_cons.mp hq with he | ht
      · subst he
        have h1 : covAtB g s2 q.1 q.2 = false := left_clickB_target g cf _ _ s s2 hres
        have h2 : covAtB g ({ insertActiveB g q s2 with updated := true } : StateB) q.1 q.2
            = false := by
          rw [covAtB_cells_congr g (show ({ insertActiveB g q s2 with updated := true } :
            StateB).cells = s2.cells from rfl)]
          exact h1
        exact covAtB_mono g (StepB_clickLoopB g cf [] rest _ s1 h) _ _ h2
      · exact ih _ s1 h q ht

/-! ### Claims C2, C9, C10 -/

/-- C2 (corrected): when `find_last_bomb` runs with the counter at 1 and the
hypothesis set `H` is empty, the `not any(column)` test is vacuously true
for **every** covered cell, so the loop left-clicks every covered cell on
the board (none of them is still covered afterwards), marks them all
active, and then calls `solve` — nothing is reported and the board is very
much changed. -/
theorem C2_find_last_bomb_empty_H (g : CfgB) (lf cf : Nat) (s : StateB)
    (hbl : s.bombs_left = 1) (hH : hypothesesB g s = []) :
    (∀ s1, clickLoopB g cf (hypothesesB g s) (coveredCellsB g s) s = some s1 →
      ∀ p ∈ coveredCellsB g s, covAtB g s1 p.1 p.2 = false) ∧
    find_last_bombB g lf cf s
      = (clickLoopB g cf (hypothesesB g s) (coveredCellsB g s) s).bind
          (fun s1 => (solveB g lf cf s1).map (fun r => (r.1, some r.2))) := by
  constructor
  · intro s1 hclick p hp
    rw [hH] at hclick
    exact clickLoopB_nil_covers g cf (coveredCellsB g s) s s1 hclick p hp
  · unfold find_last_bombB
    rw [if_pos hbl]

/-- The C2 counterexample board: one row of five cells, a covered bomb on
the left, a covered safe cell on the right, two active uncovered cells in
between that no covered cell borders simultaneously. -/
def c2state : StateB :=
  { cells := [⟨CState.covered, true⟩, ⟨CState.uncovered, false⟩, ⟨CState.uncovered, false⟩,
              ⟨CState.uncovered, false⟩, ⟨CState.covered, false⟩],
    active := [false, true, false, true, false],
    generated_bombs := true, game_over := false,
    message := MsgB.num 1, bombs_left := 1, updated := false }

/-- C2 counterexample to "reported as a diagnostic and the board state is
left unchanged": on `c2state` the hypothesis set is empty, yet
`find_last_bomb` clicks the covered bomb, loses the game (board fully
revealed) and ends by printing "You Lose" — no contradiction diagnostic
exists, and the state is heavily mutated. -/
theorem C2_counterexample :
    hypothesesB ⟨1, 5, 1⟩ c2state = [] ∧ c2state.bombs_left = 1 ∧
    covAtB ⟨1, 5, 1⟩ c2state 0 0 = true ∧
    (find_last_bombB ⟨1, 5, 1⟩ 10 10 c2state).map
      (fun r => (r.1.game_over, covAtB ⟨1, 5, 1⟩ r.1 0 0, r.2))
      = some (true, false, some SolveOutcome.printedLose) := by
  refine ⟨rfl, rfl, rfl, ?_⟩
  rfl

/-- Witness for C2 at a concrete input: on `c2state` the hypotheses hold,
every covered cell is clicked (none remains covered in the click-phase
result), and `find_last_bomb` is the click phase followed by `solve`. -/
theorem C2_witness :
    (c2state.bombs_left = 1 ∧ hypothesesB ⟨1, 5, 1⟩ c2state = []) ∧
    covAtB ⟨1, 5, 1⟩
      ({ cells := [⟨CState.uncovered, true⟩, ⟨CState.uncovered, false⟩,
                   ⟨CState.uncovered, false⟩, ⟨CState.uncovered, false⟩,
                   ⟨CState.uncovered, false⟩],
         active := [true, true, false, true, true],
         generated_bombs := true, game_over := true,
         message := MsgB.loseMsg, bombs_left := 1, updated := true } : StateB)
      0 0 = false ∧
    find_last_bombB ⟨1, 5, 1⟩ 10 10 c2state
      = (clickLoopB ⟨1, 5, 1⟩ 10 (hypothesesB ⟨1, 5, 1⟩ c2state)
          (coveredCellsB ⟨1, 5, 1⟩ c2state) c2state).bind
          (fun s1 => (solveB ⟨1, 5, 1⟩ 10 10 s1).map (fun r => (r.1, some r.2))) :=
  ⟨⟨rfl, rfl⟩,
   (C2_find_last_bomb_empty_H ⟨1, 5, 1⟩ 10 10 c2state rfl rfl).1
     ({ cells := [⟨CState.uncovered, true⟩, ⟨CState.uncovered, false⟩,
                  ⟨CState.uncovered, false⟩, ⟨CState.uncovered, false⟩,
                  ⟨CState.uncovered, false⟩],
        active := [true, true, false, true, true],
        generated_bombs := true, game_over := true,
        message := MsgB.loseMsg, bombs_left := 1, updated := true } : StateB)
     rfl (0, 0) (by decide),
   (C2_find_last_bomb_empty_H ⟨1, 5, 1⟩ 10 10 c2state rfl rfl).2⟩

/-- The number of bomb cells not currently flagged. -/
def unflaggedBombsB (s : StateB) : Nat :=
  s.cells.countP (fun cl => cl.is_bomb && !(decide (cl.state = CState.flagged)))

/-- C9 (corrected): the `find_last_bomb` guard compares the solver's running
counter `bombs_left` with 1 — not the actual number of unflagged bomb
cells.  When the counter differs from 1 it indeed returns with the state
fully unchanged; but a board whose counter reads 1 while two actual bombs
remain unflagged passes the guard and is mutated. -/
theorem C9_find_last_bomb_guard (g : CfgB) (lf cf : Nat) (s : StateB)
    (h : s.bombs_left ≠ 1) :
    find_last_bombB g lf cf s = some (s, none) := by
  unfold find_last_bombB
  rw [if_neg h]

/-- The C9 counterexample board: 2×4, two covered bombs, one active
frontier cell, and a (miscounting) `bombs_left` of 1. -/
def c9state : StateB :=
  { cells := [⟨CState.uncovered, false⟩, ⟨CState.uncovered, false⟩, ⟨CState.uncovered, false⟩,
              ⟨CState.uncovered, false⟩,
              ⟨CState.covered, true⟩, ⟨CState.covered, false⟩, ⟨CState.covered, true⟩,
              ⟨CState.covered, false⟩],
    active := [false, true, false, false, false, false, false, false],
    generated_bombs := true, game_over := false,
    message := MsgB.num 1, bombs_left := 1, updated := false }

/-- C9 counterexample to "acts only when exactly one bomb remains
unflagged": `c9state` has **two** unflagged bombs, but its counter reads 1,
so `find_last_bomb` proceeds — it uncovers `(1, 3)`, the ensuing solve pass
flags `(1, 2)`, and the run ends in the "Impossible Game State" raise. -/
theorem C9_counterexample :
    unflaggedBombsB c9state = 2 ∧ c9state.bombs_left = 1 ∧
    covAtB ⟨2, 4, 2⟩ c9state 1 3 = true ∧
    (find_last_bombB ⟨2, 4, 2⟩ 10 10 c9state).map
      (fun r => (covAtB ⟨2, 4, 2⟩ r.1 1 3,
                 (getB ⟨2, 4, 2⟩ r.1 1 2).map (fun cl => cl.state),
                 r.1.bombs_left, r.2))
      = some (false, some CState.flagged, 0, some SolveOutcome.raisedImpossible) := by
  refine ⟨rfl, rfl, rfl, ?_⟩
  rfl

/-- A board whose counter is not 1, for the C9 witness. -/
def c9wstate : StateB :=
  { cells := [⟨CState.covered, false⟩],
    active := [false],
    generated_bombs := true, game_over := false,
    message := MsgB.num 0, bombs_left := 0, updated := false }

/-- Witness for C9 at a concrete input: with the counter at 0 the call
returns the state unchanged and never reaches `solve`. -/
theorem C9_witness :
    c9wstate.bombs_left ≠ 1 ∧
    find_last_bombB ⟨1, 1, 0⟩ 2 2 c9wstate = some (c9wstate, none) :=
  ⟨by decide, C9_find_last_bomb_guard ⟨1, 1, 0⟩ 2 2 c9wstate (by decide)⟩

/-- C10: when the `solve` loop reaches its fixpoint with the message
reading neither "You Win" nor "You Lose" and the solver's remaining-bomb
counter at zero or below, the final dispatch takes the `else` branch and
raises `Exception("Impossible Game State")` instead of returning a normal
report. -/
theorem C10_solve_raises (g : CfgB) (lf cf : Nat) (s s' : StateB)
    (h : solveLoopB g lf cf { s with updated := true } = some s')
    (hwin : s'.message ≠ MsgB.winMsg) (hlose : s'.message ≠ MsgB.loseMsg)
    (hbl : s'.bombs_left ≤ 0) :
    solveB g lf cf s = some (s', SolveOutcome.raisedImpossible) := by
  unfold solveB
  rw [h]
  rw [Option.map_some']
  unfold solve_reportB
  rw [if_neg hwin, if_neg hlose, if_neg (by omega)]

/-- The C10 witness board: nothing to do, numeric message, counter at 0. -/
def c10state : StateB :=
  { cells := [⟨CState.uncovered, false⟩],
    active := [false],
    generated_bombs := true, game_over := false,
    message := MsgB.num 0, bombs_left := 0, updated := false }

/-- Witness for C10 at a concrete input: the loop fixes immediately and the
dispatch raises. -/
theorem C10_witness :
    (c10state.message ≠ MsgB.winMsg ∧ c10state.message ≠ MsgB.loseMsg ∧
      c10state.bombs_left ≤ 0) ∧
    solveB ⟨1, 1, 0⟩ 3 3 c10state = some (c10state, SolveOutcome.raisedImpossible) :=
  ⟨⟨by decide, by decide, by decide⟩,
   C10_solve_raises ⟨1, 1, 0⟩ 3 3 c10state c10state rfl (by decide) (by decide) (by decide)⟩


/-! ### C8: what the solver rules actually do to the covered count -/

theorem coveredCountB_cells_congr {s s' : StateB} (h : s'.cells = s.cells) :
    coveredCountB s' = coveredCountB s := by
  unfold coveredCountB
  rw [h]

theorem coveredCountB_mono {s s' : StateB} (h : StepB s s') :
    coveredCountB s' ≤ coveredCountB s := by
  unfold coveredCountB
  apply Minesweeper.countP_le_of_pointwise _ s.cells s'.cells h.1.symm
  intro i a b ha hb hp
  have h2 := h.2 i
  unfold covIdxB at h2
  rw [ha, hb] at h2
  simpa using h2 (by simpa using hp)

theorem covAtB_true_getB {g : CfgB} {s : StateB} {r c : Int}
    (h : covAtB g s r c = true) :
    ∃ cl, getB g s r c = some cl ∧ cl.state = CState.covered := by
  unfold covAtB at h
  cases hx : getB g s r c with
  | none => rw [hx] at h; cases h
  | some cl =>
    rw [hx] at h
    simp at h
    exact ⟨cl, rfl, h⟩

theorem coveredCountB_pos {g : CfgB} {s : StateB} {r c : Int} {cl : CellB}
    (hget : getB g s r c = some cl) (hcov : cl.state = CState.covered) :
    0 < coveredCountB s := by
  have hin := getB_some_inB hget
  have hcell : s.cells[idxB g r c]? = some cl := by
    unfold getB at hget
    rw [if_pos hin] at hget
    exact hget
  unfold coveredCountB
  rw [List.countP_pos_iff]
  exact ⟨cl, List.getElem?_mem hcell, by simp [hcov]⟩

theorem coveredCountB_set_lt (g : CfgB) (s : StateB) (r c : Int) (cl : CellB) (st : CState)
    (hget : getB g s r c = some cl) (hcov : cl.state = CState.covered)
    (hst : ¬st = CState.covered) :
    coveredCountB (setStateB g s r c st) < coveredCountB s := by
  have hin := getB_some_inB hget
  have hcell : s.cells[idxB g r c]? = some cl := by
    unfold getB at hget
    rw [if_pos hin] at hget
    exact hget
  unfold coveredCountB setStateB modB
  rw [if_pos hin]
  dsimp only
  have hc := Minesweeper.countP_modNth s.cells (idxB g r c)
    (fun x => { x with state := st }) (fun x => decide (x.state = CState.covered)) cl hcell
  simp [hcov, hst] at hc
  omega

theorem coveredCountB_lose (g : CfgB) (s : StateB) :
    coveredCountB (lose_gameB g s) = 0 := by
  unfold coveredCountB lose_gameB
  dsimp only
  rw [List.countP_eq_zero]
  intro a ha
  obtain ⟨b, _, hba⟩ := List.mem_map.mp ha
  rw [← hba]
  simp

theorem state_modB_pres (g : CfgB) (s : StateB) (a b : Int) (f : CellB → CellB)
    (hf : ∀ cl, (f cl).state = cl.state) (r c : Int) :
    (getB g (modB g s a b f) r c).map (fun cl => cl.state)
      = (getB g s r c).map (fun cl => cl.state) := by
  by_cases hab : a = r ∧ b = c
  · obtain ⟨h1, h2⟩ := hab
    subst h1
    subst h2
    by_cases hin : inBB g a b = true
    · rw [getB_modB_self _ _ _ _ _ hin]
      cases getB g s a b <;> simp [hf]
    · simp only [modB, if_neg hin]
  · rw [getB_modB_ne _ _ _ _ _ _ _ hab]

theorem coveredCountB_modB_pres (g : CfgB) (s : StateB) (a b : Int) (f : CellB → CellB)
    (hf : ∀ cl, (f cl).state = cl.state) :
    coveredCountB (modB g s a b f) = coveredCountB s := by
  unfold coveredCountB modB
  split
  · dsimp only
    cases hx : s.cells[idxB g a b]? with
    | none =>
      unfold Minesweeper.modNth
      rw [hx]
    | some cl =>
      have hc := Minesweeper.countP_modNth s.cells (idxB g a b) f
        (fun x => decide (x.state = CState.covered)) cl hx
      simp only [hf] at hc
      omega
  · rfl

theorem state_generate (g : CfgB) (s : StateB) (r c : Int) :
    (getB g (generate_bombsB g s) r c).map (fun cl => cl.state)
      = (getB g s r c).map (fun cl => cl.state) := by
  have h : ∀ (L : List (Int × Int)) (t : StateB),
      (getB g (L.foldl (fun s' p => modB g s' p.1 p.2
          (fun cl => { cl with is_bomb := true })) t) r c).map (fun cl => cl.state)
        = (getB g t r c).map (fun cl => cl.state) := by
    intro L
    induction L with
    | nil => intro t; rfl
    | cons p rest ih =>
      intro t
      rw [List.foldl_cons, ih,
        state_modB_pres g t p.1 p.2 (fun cl => { cl with is_bomb := true }) (fun cl => rfl)]
  unfold generate_bombsB
  rw [h]
  exact congrArg (Option.map _) (getB_cells_congr g rfl r c)

theorem coveredCountB_generate (g : CfgB) (s : StateB) :
    coveredCountB (generate_bombsB g s) = coveredCountB s := by
  have h : ∀ (L : List (Int × Int)) (t : StateB),
      coveredCountB (L.foldl (fun s' p => modB g s' p.1 p.2
          (fun cl => { cl with is_bomb := true })) t) = coveredCountB t := by
    intro L
    induction L with
    | nil => intro t; rfl
    | cons p rest ih =>
      intro t
      rw [List.foldl_cons, ih,
        coveredCountB_modB_pres g t p.1 p.2 (fun cl => { cl with is_bomb := true }) (fun cl => rfl)]
  unfold generate_bombsB
  rw [h]
  exact coveredCountB_cells_congr rfl

theorem right_clickB_covered_strict (g : CfgB) (r c : Int) (s : StateB) (cl : CellB)
    (hget : getB g s r c = some cl) (hcov : cl.state = CState.covered) :
    coveredCountB (right_clickB g r c s) < coveredCountB s := by
  unfold right_clickB
  rw [hget]
  dsimp only
  rw [if_pos (Or.inl hcov)]
  unfold flagB
  rw [hget]
  dsimp only
  rw [if_neg (by rw [hcov]; intro hh; cases hh)]
  rw [coveredCountB_cells_congr (alterB_cells (-1) _)]
  exact coveredCountB_set_lt g s r c cl CState.flagged hget hcov (by intro hh; cases hh)

theorem StepB_flag_fold (g : CfgB) (r c : Int) :
    ∀ (offs : List (Int × Int)) (s : StateB),
      StepB s (offs.foldl (fun s' o =>
        match getB g s' (r + o.1) (c + o.2) with
        | some cell =>
          if cell.state = CState.covered then right_clickB g (r + o.1) (c + o.2) s'
          else s'
        | none => s') s) := by
  intro offs
  induction offs with
  | nil => intro s; exact StepB_refl s
  | cons o rest ih =>
    intro s
    rw [List.foldl_cons]
    refine StepB_trans ?_ (ih _)
    cases hget : getB g s (r + o.1) (c + o.2) with
    | none => exact StepB_refl s
    | some cell =>
      dsimp only
      by_cases hcov : cell.state = CState.covered
      · rw [if_pos hcov]
        exact StepB_right_clickB g _ _ s (fun cl' hg' => by
          rw [hget] at hg'
          cases hg'
          rw [hcov]
          intro hh
          cases hh)
      · rw [if_neg hcov]
        exact StepB_refl s

theorem flag_fold_nocov (g : CfgB) (r c : Int) :
    ∀ (offs : List (Int × Int)) (s : StateB),
      (∀ o ∈ offs, covAtB g s (r + o.1) (c + o.2) = false) →
      (offs.foldl (fun s' o =>
        match getB g s' (r + o.1) (c + o.2) with
        | some cell =>
          if cell.state = CState.covered then right_clickB g (r + o.1) (c + o.2) s'
          else s'
        | none => s') s) = s := by
  intro offs
  induction offs with
  | nil => intro s _; rfl
  | cons o rest ih =>
    intro s hall
    rw [List.foldl_cons]
    have hhead : (match getB g s (r + o.1) (c + o.2) with
        | some cell =>
          if cell.state = CState.covered then right_clickB g (r + o.1) (c + o.2) s
          else s
        | none => s) = s := by
      cases hget : getB g s (r + o.1) (c + o.2) with
      | none => rfl
      | some cell =>
        dsimp only
        have h0 := hall o (List.mem_cons_self o rest)
        unfold covAtB at h0
        rw [hget] at h0
        simp at h0
        rw [if_neg h0]
    rw [hhead]
    exact ih s (fun o' ho' => hall o' (List.mem_cons_of_mem o ho'))

theorem flag_fold_strict (g : CfgB) (r c : Int) :
    ∀ (offs : List (Int × Int)) (s : StateB),
      (∃ o ∈ offs, covAtB g s (r + o.1) (c + o.2) = true) →
      coveredCountB (offs.foldl (fun s' o =>
        match getB g s' (r + o.1) (c + o.2) with
        | some cell =>
          if cell.state = CState.covered then right_clickB g (r + o.1) (c + o.2) s'
          else s'
        | none => s') s) < coveredCountB s := by
  intro offs
  induction offs with
  | nil =>
    rintro s ⟨o, ho, _⟩
    cases ho
  | cons o rest ih =>
    rintro s ⟨o', ho', hcov'⟩
    rw [List.foldl_cons]
    by_cases hhead : covAtB g s (r + o.1) (c + o.2) = true
    · obtain ⟨cl, hget, hclcov⟩ := covAtB_true_getB hhead
      rw [hget]
      dsimp only
      rw [if_pos hclcov]
      exact lt_of_le_of_lt (coveredCountB_mono (StepB_flag_fold g r c rest _))
        (right_clickB_covered_strict g _ _ s cl hget hclcov)
    · have hstep : (match getB g s (r + o.1) (c + o.2) with
          | some cell =>
            if cell.state = CState.covered then right_clickB g (r + o.1) (c + o.2) s
            else s
          | none => s) = s := by
        cases hget : getB g s (r + o.1) (c + o.2) with
        | none => rfl
        | some cell =>
          dsimp only
          have h0 : ¬cell.state = CState.covered := by
            intro hc
            apply hhead
            unfold covAtB
            rw [hget]
            simp [hc]
          rw [if_neg h0]
      rw [hstep]
      apply ih s
      rcases List.mem_cons.mp ho' with he | ht
      · subst he
        exact absurd hcov' hhead
      · exact ⟨o', ht, hcov'⟩

theorem nuncov_pos_iff (g : CfgB) (s : StateB) (r c : Int) :
    0 < nuncovB g s r c ↔ ∃ o ∈ offsP, covAtB g s (r + o.1) (c + o.2) = true := by
  unfold nuncovB
  rw [List.countP_pos_iff]
  exact Iff.rfl

theorem nuncov_zero_all (g : CfgB) (s : StateB) (r c : Int)
    (h : nuncovB g s r c = 0) :
    ∀ o ∈ offsP, covAtB g s (r + o.1) (c + o.2) = false := by
  intro o ho
  unfold nuncovB at h
  rw [List.countP_eq_zero] at h
  have h2 := h o ho
  cases hx : covAtB g s (r + o.1) (c + o.2) with
  | false => rfl
  | true => exact absurd hx h2

theorem offsP_subset_offsAll : ∀ o ∈ offsP, o ∈ offsAll := by decide

theorem uncoverWith_strict (g : CfgB) (recFu : Option (Int → Int → StateB → Option StateB))
    (hrec : ∀ rec, recFu = some rec →
      ∀ (r' c' : Int) (t t' : StateB), rec r' c' t = some t' → StepB t t')
    (r c : Int) (s s' : StateB) (cl : CellB)
    (hget : getB g s r c = some cl) (hcov : cl.state = CState.covered)
    (h : uncoverWith g recFu r c s = some s') :
    coveredCountB s' < coveredCountB s := by
  have hlt : coveredCountB (setStateB g s r c CState.uncovered) < coveredCountB s :=
    coveredCountB_set_lt g s r c cl CState.uncovered hget hcov (by intro hh; cases hh)
  unfold uncoverWith at h
  dsimp only at h
  by_cases hnb : nbombsB g (setStateB g s r c CState.uncovered) r c = 0
  · rw [if_pos hnb] at h
    cases hrf : recFu with
    | none => rw [hrf] at h; cases h
    | some rec =>
      rw [hrf] at h
      dsimp only at h
      rw [Option.map_eq_some'] at h
      obtain ⟨s2, h2, h3⟩ := h
      subst h3
      calc coveredCountB (insertGoB g offsAll r c s2) = coveredCountB s2 :=
            coveredCountB_cells_congr (insertGoB_cells g offsAll r c s2)
        _ ≤ coveredCountB (setStateB g s r c CState.uncovered) :=
            coveredCountB_mono (StepB_nbrsGoB g rec (hrec rec hrf) offsAll r c _ s2 h2)
        _ < coveredCountB s := hlt
  · rw [if_neg hnb] at h
    cases h
    exact hlt

theorem left_clickB_covered_strict (g : CfgB) (fuel : Nat) (r c : Int) (s s' : StateB)
    (cl : CellB) (hget : getB g s r c = some cl) (hcov : cl.state = CState.covered)
    (h : left_clickB g fuel r c s = some s') :
    coveredCountB s' < coveredCountB s := by
  have main : ∀ (recFu : Option (Int → Int → StateB → Option StateB)),
      (∀ rec, recFu = some rec → ∀ (r' c' : Int) (t t' : StateB),
        rec r' c' t = some t' → StepB t t') →
      (match getB g s r c with
        | none => some s
        | some cell =>
          if cell.state = CState.covered then
            if s.generated_bombs = false then
              uncoverWith g recFu r c (generate_bombsB g s)
            else if cell.is_bomb then some (lose_gameB g s)
            else (uncoverWith g recFu r c s).map
              (fun s2 => if has_wonB g s2 then win_gameB g s2 else s2)
          else some s) = some s' →
      coveredCountB s' < coveredCountB s := by
    intro recFu hrec h0
    rw [hget] at h0
    dsimp only at h0
    rw [if_pos hcov] at h0
    by_cases hgen : s.generated_bombs = false
    · rw [if_pos hgen] at h0
      have hg2 : ∃ cl2, getB g (generate_bombsB g s) r c = some cl2 ∧
          cl2.state = CState.covered := by
        have hst := state_generate g s r c
        rw [hget] at hst
        cases hx : getB g (generate_bombsB g s) r c with
        | none => rw [hx] at hst; cases hst
        | some cl2 =>
          rw [hx] at hst
          simp at hst
          exact ⟨cl2, rfl, by rw [hst, hcov]⟩
      obtain ⟨cl2, hget2, hcov2⟩ := hg2
      calc coveredCountB s' < coveredCountB (generate_bombsB g s) :=
            uncoverWith_strict g recFu hrec r c _ s' cl2 hget2 hcov2 h0
        _ = coveredCountB s := coveredCountB_generate g s
    · rw [if_neg hgen] at h0
      by_cases hbm : cl.is_bomb = true
      · rw [if_pos hbm] at h0
        cases h0
        rw [coveredCountB_lose g s]
        exact coveredCountB_pos hget hcov
      · rw [if_neg hbm] at h0
        rw [Option.map_eq_some'] at h0
        obtain ⟨s2, h2, h3⟩ := h0
        subst h3
        calc coveredCountB (if has_wonB g s2 then win_gameB g s2 else s2)
            ≤ coveredCountB s2 := coveredCountB_mono (StepB_has_won_wrap g s2)
          _ < coveredCountB s := uncoverWith_strict g recFu hrec r c s s2 cl hget hcov h2
  cases fuel with
  | zero =>
    rw [left_clickB] at h
    exact main none (fun rec hr => by cases hr) h
  | succ fu =>
    rw [left_clickB] at h
    exact main (some (left_clickB g fu))
      (fun rec hr => by cases hr; exact StepB_left_clickB g fu) h

theorem nbrsGoB_strict (g : CfgB) (fu : Nat) :
    ∀ (offs : List (Int × Int)) (r c : Int) (s s' : StateB),
      (∃ o ∈ offs, covAtB g s (r + o.1) (c + o.2) = true) →
      nbrsGoB g (left_clickB g fu) offs r c s = some s' →
      coveredCountB s' < coveredCountB s := by
  intro offs
  induction offs with
  | nil =>
    rintro r c s s' ⟨o, ho, _⟩ h
    cases ho
  | cons o rest ih =>
    rintro r c s s' ⟨o', ho', hcov'⟩ h
    rw [show nbrsGoB g (left_clickB g fu) (o :: rest) r c s
        = (match getB g s (r + o.1) (c + o.2) with
          | some cell =>
            if cell.state = CState.covered then
              match left_clickB g fu (r + o.1) (c + o.2) s with
              | none => none
              | some s1 => nbrsGoB g (left_clickB g fu) rest r c s1
            else nbrsGoB g (left_clickB g fu) rest r c s
          | none => nbrsGoB g (left_clickB g fu) rest r c s) from rfl] at h
    by_cases hhead : covAtB g s (r + o.1) (c + o.2) = true
    · obtain ⟨cl, hget, hclcov⟩ := covAtB_true_getB hhead
      rw [hget] at h
      dsimp only at h
      rw [if_pos hclcov] at h
      cases hres : left_clickB g fu (r + o.1) (c + o.2) s with
      | none => rw [hres] at h; cases h
      | some s1 =>
        rw [hres] at h
        dsimp only at h
        exact lt_of_le_of_lt
          (coveredCountB_mono (StepB_nbrsGoB g _
            (fun a b t t' hh => StepB_left_clickB g fu a b t t' hh) rest r c s1 s' h))
          (left_clickB_covered_strict g fu _ _ s s1 cl hget hclcov hres)
    · have hrest : ∃ o2 ∈ rest, covAtB g s (r + o2.1) (c + o2.2) = true := by
        rcases List.mem_cons.mp ho' with he | ht
        · subst he
          exact absurd hcov' hhead
        · exact ⟨o', ht, hcov'⟩
      cases hget : getB g s (r + o.1) (c + o.2) with
      | none =>
        rw [hget] at h
        dsimp only at h
        exact ih r c s s' hrest h
      | some cell =>
        rw [hget] at h
        dsimp only at h
        have h0 : ¬cell.state = CState.covered := by
          intro hc
          apply hhead
          unfold covAtB
          rw [hget]
          simp [hc]
        rw [if_neg h0] at h
        exact ih r c s s' hrest h

theorem StepB_flag_stepB (g : CfgB) (p : Nat × Nat) (s : StateB) :
    StepB s (flag_stepB g p s) := by
  unfold flag_stepB
  split
  · dsimp only
    exact StepB_trans (StepB_flag_fold g p.1 p.2 offsP s) (StepB_of_cells_eq rfl)
  · exact StepB_refl s

theorem flag_stepB_strict (g : CfgB) (p : Nat × Nat) (s : StateB)
    (hfire : nbombsB g s p.1 p.2 = nflagsB g s p.1 p.2 + nuncovB g s p.1 p.2)
    (hnu : 0 < nuncovB g s p.1 p.2) :
    coveredCountB (flag_stepB g p s) < coveredCountB s := by
  unfold flag_stepB
  rw [if_pos hfire]
  dsimp only
  refine lt_of_le_of_lt (le_of_eq (coveredCountB_cells_congr rfl)) ?_
  exact flag_fold_strict g p.1 p.2 offsP s ((nuncov_pos_iff g s p.1 p.2).1 hnu)

theorem flag_stepB_nocov (g : CfgB) (p : Nat × Nat) (s : StateB)
    (hnu : nuncovB g s p.1 p.2 = 0) :
    (flag_stepB g p s).cells = s.cells := by
  unfold flag_stepB
  split
  · dsimp only
    rw [flag_fold_nocov g p.1 p.2 offsP s (nuncov_zero_all g s p.1 p.2 hnu)]
    rfl
  · rfl

theorem StepB_click_stepB (g : CfgB) (cf : Nat) (p : Nat × Nat) (s s' : StateB)
    (h : click_stepB g cf p s = some s') : StepB s s' := by
  unfold click_stepB at h
  by_cases hfire : nflagsB g s p.1 p.2 = nbombsB g s p.1 p.2
  · rw [if_pos hfire] at h
    rw [Option.map_eq_some'] at h
    obtain ⟨s1, h1, h2⟩ := h
    subst h2
    exact StepB_trans (StepB_double_left_clickB g cf _ _ s s1 h1) (StepB_of_cells_eq rfl)
  · rw [if_neg hfire] at h
    cases h
    exact StepB_refl s

theorem click_stepB_strict (g : CfgB) (cf : Nat) (p : Nat × Nat) (s s' : StateB)
    (cl : CellB) (hget : getB g s p.1 p.2 = some cl) (hst : cl.state = CState.uncovered)
    (hfire : nflagsB g s p.1 p.2 = nbombsB g s p.1 p.2)
    (hnu : 0 < nuncovB g s p.1 p.2)
    (h : click_stepB g cf p s = some s') :
    coveredCountB s' < coveredCountB s := by
  unfold click_stepB at h
  rw [if_pos hfire] at h
  rw [Option.map_eq_some'] at h
  obtain ⟨s1, h1, h2⟩ := h
  subst h2
  refine lt_of_le_of_lt (le_of_eq (coveredCountB_cells_congr rfl)) ?_
  unfold double_left_clickB at h1
  rw [hget] at h1
  dsimp only at h1
  rw [if_pos ⟨hst, hfire⟩] at h1
  rw [Option.map_eq_some'] at h1
  obtain ⟨s0, h0, h0'⟩ := h1
  subst h0'
  have hw : StepB s0 (if s0.game_over = false then
      (if has_wonB g s0 then win_gameB g s0 else s0) else s0) := by
    split
    · exact StepB_has_won_wrap g s0
    · exact StepB_refl s0
  refine lt_of_le_of_lt (coveredCountB_mono hw) ?_
  cases cf with
  | zero =>
    rw [show uncover_neighborsB g 0 (p.1 : Int) (p.2 : Int) s = none from rfl] at h0
    cases h0
  | succ cfu =>
    rw [show uncover_neighborsB g (cfu + 1) (p.1 : Int) (p.2 : Int) s
        = (nbrsGoB g (left_clickB g cfu) offsAll p.1 p.2 s).map
            (fun s2 => insertGoB g offsAll p.1 p.2 s2) from rfl] at h0
    rw [Option.map_eq_some'] at h0
    obtain ⟨s00, h00, h00'⟩ := h0
    subst h00'
    refine lt_of_le_of_lt
      (le_of_eq (coveredCountB_cells_congr (insertGoB_cells g offsAll _ _ s00))) ?_
    obtain ⟨o, ho, hoc⟩ := (nuncov_pos_iff g s p.1 p.2).1 hnu
    exact nbrsGoB_strict g cfu offsAll p.1 p.2 s s00
      ⟨o, offsP_subset_offsAll o ho, hoc⟩ h00

/-- The measure named by the claim: covered cells Moore-adjacent to at least
one active frontier cell. -/
def specMeasureB (g : CfgB) (s : StateB) : Nat :=
  (gridCoords g).countP (fun p => covAtB g s p.1 p.2 &&
    (list_active_cellsB g s).any (fun q => are_adjacentB p q))

/-- The C8 counterexample board: 2×2, no bombs, everything uncovered, one
active frontier cell. -/
def c8state : StateB :=
  { cells := [⟨CState.uncovered, false⟩, ⟨CState.uncovered, false⟩,
              ⟨CState.uncovered, false⟩, ⟨CState.uncovered, false⟩],
    active := [true, false, false, false],
    generated_bombs := true, game_over := false,
    message := MsgB.num 0, bombs_left := 0, updated := false }

/-- C8 counterexample to "each successful rule application strictly reduces
the number of Covered, non-Flagged cells adjacent to some active cell": on
`c8state` the flag rule fires on the lone active cell (0 bombs = 0 flags +
0 covered neighbours), records progress (`updated = true`) and empties the
frontier — yet no cell changes and the claimed measure stays exactly where
it was. -/
theorem C8_counterexample :
    list_active_cellsB ⟨2, 2, 0⟩ c8state = [(0, 0)] ∧
    (flag_obviousB ⟨2, 2, 0⟩ c8state).updated = true ∧
    (flag_obviousB ⟨2, 2, 0⟩ c8state).cells = c8state.cells ∧
    list_active_cellsB ⟨2, 2, 0⟩ (flag_obviousB ⟨2, 2, 0⟩ c8state) = [] ∧
    specMeasureB ⟨2, 2, 0⟩ (flag_obviousB ⟨2, 2, 0⟩ c8state)
      = specMeasureB ⟨2, 2, 0⟩ c8state := by
  refine ⟨rfl, rfl, rfl, rfl, rfl⟩

/-! ### The solver game's initial state, win predicate and bomb sites -/

/-- The `Solver.__init__` board state: every cell covered and bomb-free, no
active cells, counter and label at `bombs`. -/
def initStateB (g : CfgB) : StateB :=
  { cells := List.replicate (g.rows * g.columns) ⟨CState.covered, false⟩,
    active := List.replicate (g.rows * g.columns) false,
    generated_bombs := false, game_over := false,
    message := MsgB.num (g.bombs : Int), bombs_left := (g.bombs : Int), updated := false }

/-- Does every non-bomb cell have a state other than `"covered"`?  (What
`minesweeper.py`'s `has_won` really tests: a *flagged* safe cell also
counts towards the win.) -/
def allNonBombNotCovered (s : StateB) : Bool :=
  s.cells.all (fun cl => cl.is_bomb || !decide (cl.state = CState.covered))

/-- Is every bomb flagged? -/
def allBombsFlaggedB (s : StateB) : Bool :=
  s.cells.all (fun cl => !cl.is_bomb || decide (cl.state = CState.flagged))

/-- The `is_bomb` bit at `(r, c)` (false when out of range). -/
def bombAtB (g : CfgB) (s : StateB) (r c : Int) : Bool :=
  ((getB g s r c).map (fun cl => cl.is_bomb)).getD false

/-- The ten bomb sites hard-coded in `Minesweeper.generate_bombs`. -/
def bombSites : List (Int × Int) :=
  [(2, 4), (3, 0), (4, 1), (5, 2), (5, 4), (5, 8), (6, 0), (7, 0), (7, 1), (7, 7)]

/-! ### What `minesweeper.py`'s `has_won` and `win_game` do (for C1) -/

/-- The descending total of `has_won` counts the cells that are bombs or not
covered. -/
theorem foldl_total_eqB (l : List CellB) : ∀ t : Int,
    l.foldl (fun t cl => if cl.is_bomb then t - 1
      else if ¬cl.state = CState.covered then t - 1 else t) t
      = t - (l.countP (fun cl => cl.is_bomb || !decide (cl.state = CState.covered)) : Int) := by
  induction l with
  | nil => intro t; simp
  | cons a l ih =>
    intro t
    rw [List.foldl_cons, ih, List.countP_cons]
    by_cases hb : a.is_bomb = true
    · by_cases hc : a.state = CState.covered <;>
        simp [hb, hc] <;> push_cast <;> ring
    · have hb2 : a.is_bomb = false := by
        cases hx : a.is_bomb
        · rfl
        · exact absurd hx hb
      by_cases hc : a.state = CState.covered <;>
        simp [hb2, hc] <;> push_cast <;> ring

/-- The `minesweeper.py` win test succeeds iff every non-bomb cell is *not
covered* — uncovered or flagged. -/
theorem has_wonB_iff (g : CfgB) (s : StateB) (hlen : s.cells.length = g.rows * g.columns) :
    has_wonB g s = true ↔ allNonBombNotCovered s = true := by
  unfold has_wonB
  rw [decide_eq_true_eq, foldl_total_eqB]
  unfold allNonBombNotCovered
  rw [List.all_eq_true]
  have hcle : s.cells.countP (fun cl => cl.is_bomb || !decide (cl.state = CState.covered))
      ≤ s.cells.length := List.countP_le_length _
  constructor
  · intro h0
    have hcount : s.cells.countP (fun cl => cl.is_bomb || !decide (cl.state = CState.covered))
        = s.cells.length := by omega
    exact fun a ha => List.countP_eq_length.1 hcount a ha
  · intro hall
    have hcount : s.cells.countP (fun cl => cl.is_bomb || !decide (cl.state = CState.covered))
        = s.cells.length := List.countP_eq_length.2 hall
    rw [hcount, hlen]
    omega

theorem inBB_of_flat {g : CfgB} (i : Nat) (hi : i < g.rows * g.columns) :
    inBB g ((i / g.columns : Nat) : Int) ((i % g.columns : Nat) : Int) = true := by
  have hH : 0 < g.columns := by
    rcases Nat.eq_zero_or_pos g.columns with h0 | h0
    · rw [h0, Nat.mul_zero] at hi; omega
    · exact h0
  have hdiv : i / g.columns < g.rows := Nat.div_lt_of_lt_mul (by rw [Nat.mul_comm]; exact hi)
  have hmod : i % g.columns < g.columns := Nat.mod_lt _ hH
  rw [inBB_iff]
  refine ⟨Int.ofNat_nonneg _, by exact_mod_cast hdiv, Int.ofNat_nonneg _, by exact_mod_cast hmod⟩

theorem getB_of_flat {g : CfgB} {s : StateB} (i : Nat)
    (hi : i < g.rows * g.columns) :
    getB g s ((i / g.columns : Nat) : Int) ((i % g.columns : Nat) : Int) = s.cells[i]? := by
  have hin := inBB_of_flat (g := g) i hi
  unfold getB idxB
  rw [hin]
  simp only [if_true, Int.toNat_ofNat]
  have hdm : i / g.columns * g.columns + i % g.columns = i := Nat.div_add_mod' i g.columns
  rw [hdm]

theorem cells_length_flagB (g : CfgB) (r c : Int) (s : StateB) :
    (flagB g r c s).cells.length = s.cells.length := by
  unfold flagB
  cases getB g s r c with
  | none => rfl
  | some cl =>
    dsimp only
    split
    · rw [alterB_cells]
      exact cells_length_modB g s r c _
    · rw [alterB_cells]
      exact cells_length_modB g s r c _

theorem cells_length_win_stepB (g : CfgB) (i : Nat) (s : StateB) :
    (win_stepB g i s).cells.length = s.cells.length := by
  unfold win_stepB
  split
  · split
    · exact cells_length_flagB g _ _ s
    · rfl
  · rfl

theorem cells_length_win_foldB (g : CfgB) : ∀ (L : List Nat) (s : StateB),
    (L.foldl (fun sa i => win_stepB g i sa) s).cells.length = s.cells.length := by
  intro L
  induction L with
  | nil => intro s; rfl
  | cons i t ih => intro s; rw [List.foldl_cons, ih, cells_length_win_stepB]

/-- The effect of `Cell.flag` on a not-yet-flagged cell, read at any
coordinate. -/
theorem getB_flagB (g : CfgB) (r c : Int) (s : StateB) (cl0 : CellB)
    (hget : getB g s r c = some cl0) (hnf : ¬cl0.state = CState.flagged) :
    ∀ (p q : Int), getB g (flagB g r c s) p q
      = if r = p ∧ c = q then
          (getB g s p q).map (fun cl => { cl with state := CState.flagged })
        else getB g s p q := by
  intro p q
  unfold flagB
  rw [hget]
  dsimp only
  rw [if_neg hnf]
  rw [getB_cells_congr g (alterB_cells (-1) (setStateB g s r c CState.flagged)) p q]
  unfold setStateB
  by_cases hpq : r = p ∧ c = q
  · rw [if_pos hpq]
    obtain ⟨h1, h2⟩ := hpq
    subst h1
    subst h2
    exact getB_modB_self g s r c _ (getB_some_inB hget)
  · rw [if_neg hpq]
    exact getB_modB_ne g s r c p q _ hpq

/-- The invariant established by the `win_game` flag loop at index `j`:
whenever the cell there is a bomb it is flagged. -/
def winQB (g : CfgB) (j : Nat) (s : StateB) : Prop :=
  s.cells.length = g.rows * g.columns →
  ∀ cl, s.cells[j]? = some cl → (cl.is_bomb = true → cl.state = CState.flagged)

theorem foldl_preserveB {Q : Nat → StateB → Prop} {step : Nat → StateB → StateB}
    (hpres : ∀ (i j : Nat) (s : StateB), Q j s → Q j (step i s)) :
    ∀ (L : List Nat) (s : StateB) (j : Nat), Q j s →
      Q j (L.foldl (fun sa i => step i sa) s) := by
  intro L
  induction L with
  | nil => intro s j h; exact h
  | cons i t ih => intro s j h; exact ih _ j (hpres i j s h)

theorem foldl_establishB {Q : Nat → StateB → Prop} {step : Nat → StateB → StateB}
    (hstep : ∀ (i : Nat) (s : StateB), Q i (step i s))
    (hpres : ∀ (i j : Nat) (s : StateB), Q j s → Q j (step i s)) :
    ∀ (L : List Nat) (s : StateB) (j : Nat), j ∈ L →
      Q j (L.foldl (fun sa i => step i sa) s) := by
  intro L
  induction L with
  | nil => intro s j hj; cases hj
  | cons i t ih =>
    intro s j hj
    rw [List.foldl_cons]
    rcases List.mem_cons.mp hj with he | ht
    · subst he
      exact foldl_preserveB hpres t (step j s) j (hstep j s)
    · exact ih _ j ht

theorem winQB_self (g : CfgB) (j : Nat) (s : StateB) : winQB g j (win_stepB g j s) := by
  intro hlen2 cl hget
  have hlen : s.cells.length = g.rows * g.columns := by
    rw [← cells_length_win_stepB g j s]
    exact hlen2
  have hj : j < g.rows * g.columns := by
    have := MainGame.lt_of_getElem?_some hget
    omega
  have hinj := inBB_of_flat (g := g) j hj
  rw [← getB_of_flat j hj] at hget
  unfold win_stepB at hget
  obtain ⟨cl0, hcl0⟩ := getB_isSome hinj hlen
  rw [hcl0] at hget
  dsimp only at hget
  by_cases hbf : cl0.is_bomb = true ∧ ¬cl0.state = CState.flagged
  · rw [if_pos hbf] at hget
    rw [getB_flagB g _ _ s cl0 hcl0 hbf.2] at hget
    rw [if_pos (And.intro rfl rfl)] at hget
    rw [hcl0] at hget
    simp only [Option.map_some'] at hget
    injection hget with hcl
    subst hcl
    intro _
    rfl
  · rw [if_neg hbf] at hget
    rw [hcl0] at hget
    injection hget with hcl
    subst hcl
    intro hb
    by_cases hfl : cl0.state = CState.flagged
    · exact hfl
    · exact absurd ⟨hb, hfl⟩ hbf

theorem winQB_pres (g : CfgB) (i j : Nat) (s : StateB) (hq : winQB g j s) :
    winQB g j (win_stepB g i s) := by
  intro hlen2 cl hget
  have hlen : s.cells.length = g.rows * g.columns := by
    rw [← cells_length_win_stepB g i s]
    exact hlen2
  have hj : j < g.rows * g.columns := by
    have := MainGame.lt_of_getElem?_some hget
    omega
  have hinj := inBB_of_flat (g := g) j hj
  obtain ⟨cl0, hcl0⟩ := getB_isSome hinj hlen
  have hq0 := hq hlen cl0 (by rw [← getB_of_flat j hj]; exact hcl0)
  rw [← getB_of_flat j hj] at hget
  unfold win_stepB at hget
  cases hci : getB g s ((i / g.columns : Nat) : Int) ((i % g.columns : Nat) : Int) with
  | none =>
    rw [hci] at hget
    dsimp only at hget
    rw [hcl0] at hget
    injection hget with hcl
    subst hcl
    exact hq0
  | some cx =>
    rw [hci] at hget
    dsimp only at hget
    by_cases hbf : cx.is_bomb = true ∧ ¬cx.state = CState.flagged
    · rw [if_pos hbf] at hget
      rw [getB_flagB g _ _ s cx hci hbf.2] at hget
      by_cases hco : ((i / g.columns : Nat) : Int) = ((j / g.columns : Nat) : Int)
          ∧ ((i % g.columns : Nat) : Int) = ((j % g.columns : Nat) : Int)
      · rw [if_pos hco] at hget
        rw [hcl0] at hget
        simp only [Option.map_some'] at hget
        injection hget with hcl
        subst hcl
        intro _
        rfl
      · rw [if_neg hco] at hget
        rw [hcl0] at hget
        injection hget with hcl
        subst hcl
        exact hq0
    · rw [if_neg hbf] at hget
      rw [hcl0] at hget
      injection hget with hcl
      subst hcl
      exact hq0

/-- `minesweeper.py`'s `win_game`: it flags every remaining bomb, sets
`game_over := true` and displays "You Win". -/
theorem win_gameB_flags (g : CfgB) (s : StateB)
    (hlen : s.cells.length = g.rows * g.columns) :
    allBombsFlaggedB (win_gameB g s) = true ∧
    (win_gameB g s).game_over = true ∧ (win_gameB g s).message = MsgB.winMsg := by
  refine ⟨?_, rfl, rfl⟩
  unfold win_gameB allBombsFlaggedB
  dsimp only
  rw [List.all_eq_true]
  intro a ha
  obtain ⟨j, hj⟩ := List.getElem?_of_mem ha
  have hlenf : ((List.range (g.rows * g.columns)).foldl
      (fun sa i => win_stepB g i sa) s).cells.length = g.rows * g.columns := by
    rw [cells_length_win_foldB]
    exact hlen
  have hjlt : j < g.rows * g.columns := by
    have := MainGame.lt_of_getElem?_some hj
    omega
  have hq := foldl_establishB (winQB_self g) (winQB_pres g)
    (List.range (g.rows * g.columns)) s j (List.mem_range.2 hjlt) hlenf a hj
  cases hb : a.is_bomb with
  | false => simp
  | true => simp [hq hb]

/-! ### What `minesweeper.py`'s `generate_bombs` does (for C3) -/

/-- Folding the bomb writes over a site list sets `is_bomb` exactly on the
listed coordinates (clipped). -/
theorem genfold_bomb (g : CfgB) :
    ∀ (L : List (Int × Int)) (s : StateB) (r c : Int),
      (getB g (L.foldl (fun s' q => modB g s' q.1 q.2
          (fun cl => { cl with is_bomb := true })) s) r c).map (fun cl => cl.is_bomb)
        = (getB g s r c).map (fun cl => cl.is_bomb || decide ((r, c) ∈ L)) := by
  intro L
  induction L with
  | nil =>
    intro s r c
    rw [List.foldl_nil]
    cases getB g s r c with
    | none => rfl
    | some a => simp
  | cons q rest ih =>
    intro s r c
    obtain ⟨q1, q2⟩ := q
    rw [List.foldl_cons, ih]
    by_cases hqe : q1 = r ∧ q2 = c
    · obtain ⟨h1, h2⟩ := hqe
      subst h1
      subst h2
      have hmem : ((q1, q2) ∈ (q1, q2) :: rest) := List.mem_cons_self _ _
      by_cases hin : inBB g q1 q2 = true
      · rw [getB_modB_self g s q1 q2 _ hin]
        cases getB g s q1 q2 <;> simp [hmem]
      · have hnone : ∀ t : StateB, getB g t q1 q2 = none := by
          intro t
          unfold getB
          rw [if_neg hin]
        rw [hnone, hnone]
        simp
    · rw [getB_modB_ne g s q1 q2 r c _ hqe]
      have hnm : ((r, c) ∈ (q1, q2) :: rest) ↔ ((r, c) ∈ rest) := by
        rw [List.mem_cons]
        constructor
        · rintro (he | ht)
          · exfalso
            apply hqe
            have h1 : q1 = r := (congrArg Prod.fst he).symm
            have h2 : q2 = c := (congrArg Prod.snd he).symm
            exact ⟨h1, h2⟩
          · exact ht
        · exact Or.inr
      cases getB g s r c <;> simp [hnm]

/-- What `generate_bombs` really does to the board: independently of any
seed, it sets `is_bomb` exactly on the (in-range) hard-coded `bombSites`,
leaving every other cell alone. -/
theorem generate_bombsB_bomb (g : CfgB) (s : StateB) (r c : Int) :
    (getB g (generate_bombsB g s) r c).map (fun cl => cl.is_bomb)
      = (getB g s r c).map (fun cl => cl.is_bomb || decide ((r, c) ∈ bombSites)) := by
  unfold generate_bombsB
  rw [genfold_bomb]
  rw [getB_cells_congr g
    (show ({ s with generated_bombs := true } : StateB).cells = s.cells from rfl)]
  rfl

/-! ### C8, continued: the `solve` loop terminates

The loop exits when a pass makes no progress (`updated` stays false) or the
game ends.  The termination measure is lexicographic: the covered count
first (every cell change strictly lowers it, and nothing ever re-covers a
cell), then the number of active cells with no covered neighbour (a rule
that fires without changing any cell always removes such a cell from the
frontier and can only insert cells *with* covered neighbours), then the
frontier size. -/

theorem countP_le_pred {α : Type} : ∀ (l : List α) (p q : α → Bool),
    (∀ a ∈ l, p a = true → q a = true) → l.countP p ≤ l.countP q := by
  intro l
  induction l with
  | nil => intro p q h; simp
  | cons a t ih =>
    intro p q h
    rw [List.countP_cons, List.countP_cons]
    have ht := ih p q (fun x hx hpx => h x (List.mem_cons_of_mem a hx) hpx)
    by_cases hp : p a = true
    · rw [if_pos hp, if_pos (h a (List.mem_cons_self a t) hp)]
      omega
    · rw [if_neg hp]
      split <;> omega

theorem countP_lt_pred {α : Type} : ∀ (l : List α) (p q : α → Bool),
    (∀ a ∈ l, p a = true → q a = true) →
    ∀ x ∈ l, q x = true → p x = false → l.countP p < l.countP q := by
  intro l
  induction l with
  | nil => intro p q _ x hx; cases hx
  | cons a t ih =>
    intro p q h x hx hqx hpx
    rw [List.countP_cons, List.countP_cons]
    have hmono := countP_le_pred t p q (fun y hy hpy => h y (List.mem_cons_of_mem a hy) hpy)
    rcases List.mem_cons.mp hx with he | ht
    · subst he
      rw [if_pos hqx, if_neg (by rw [hpx]; intro hh; cases hh)]
      omega
    · have hstr := ih p q (fun y hy hpy => h y (List.mem_cons_of_mem a hy) hpy) x ht hqx hpx
      by_cases hp : p a = true
      · rw [if_pos hp, if_pos (h a (List.mem_cons_self a t) hp)]
        omega
      · rw [if_neg hp]
        split <;> omega

theorem flatIdx_div (a b n : Nat) (hb : b < n) : (a * n + b) / n = a := by
  have hn : 0 < n := by omega
  rw [Nat.mul_comm, Nat.mul_add_div hn, Nat.div_eq_of_lt hb]
  omega

theorem flatIdx_mod (a b n : Nat) (hb : b < n) : (a * n + b) % n = b := by
  rw [Nat.mul_comm, Nat.mul_add_mod]
  exact Nat.mod_eq_of_lt hb

theorem nuncovB_cells_congr (g : CfgB) {s s' : StateB} (h : s'.cells = s.cells) (r c : Int) :
    nuncovB g s' r c = nuncovB g s r c := by
  unfold nuncovB
  have hfun : (fun (o : Int × Int) =>
      ((getB g s' (r + o.1) (c + o.2)).map
        (fun cl => decide (cl.state = CState.covered))).getD false)
      = (fun (o : Int × Int) =>
      ((getB g s (r + o.1) (c + o.2)).map
        (fun cl => decide (cl.state = CState.covered))).getD false) := by
    funext o
    rw [getB_cells_congr g h]
  rw [hfun]

/-! #### Which fields each primitive mutation leaves alone -/

theorem modB_fields (g : CfgB) (s : StateB) (r c : Int) (f : CellB → CellB) :
    (modB g s r c f).active = s.active ∧ (modB g s r c f).game_over = s.game_over ∧
    (modB g s r c f).updated = s.updated := by
  unfold modB
  split
  · exact ⟨rfl, rfl, rfl⟩
  · exact ⟨rfl, rfl, rfl⟩

theorem alterB_fields (inc : Int) (s : StateB) :
    (alter_counterB inc s).active = s.active ∧
    (alter_counterB inc s).game_over = s.game_over ∧
    (alter_counterB inc s).updated = s.updated := by
  unfold alter_counterB
  cases s.message <;> exact ⟨rfl, rfl, rfl⟩

theorem flagB_fields (g : CfgB) (r c : Int) (s : StateB) :
    (flagB g r c s).active = s.active ∧ (flagB g r c s).game_over = s.game_over ∧
    (flagB g r c s).updated = s.updated := by
  unfold flagB
  cases getB g s r c with
  | none => exact ⟨rfl, rfl, rfl⟩
  | some cl =>
    dsimp only
    split
    · obtain ⟨a1, a2, a3⟩ := alterB_fields 1 (setStateB g s r c CState.covered)
      obtain ⟨m1, m2, m3⟩ := modB_fields g s r c (fun cl => { cl with state := CState.covered })
      exact ⟨a1.trans m1, a2.trans m2, a3.trans m3⟩
    · obtain ⟨a1, a2, a3⟩ := alterB_fields (-1) (setStateB g s r c CState.flagged)
      obtain ⟨m1, m2, m3⟩ := modB_fields g s r c (fun cl => { cl with state := CState.flagged })
      exact ⟨a1.trans m1, a2.trans m2, a3.trans m3⟩

theorem right_clickB_fields (g : CfgB) (r c : Int) (s : StateB) :
    (right_clickB g r c s).active = s.active ∧
    (right_clickB g r c s).game_over = s.game_over ∧
    (right_clickB g r c s).updated = s.updated := by
  unfold right_clickB
  cases getB g s r c with
  | none => exact ⟨rfl, rfl, rfl⟩
  | some cl =>
    dsimp only
    split
    · exact flagB_fields g r c s
    · exact ⟨rfl, rfl, rfl⟩

theorem foldmod_fields (g : CfgB) :
    ∀ (L : List (Int × Int)) (t : StateB),
      ((L.foldl (fun s' p => modB g s' p.1 p.2
          (fun cl => { cl with is_bomb := true })) t).active = t.active) ∧
      ((L.foldl (fun s' p => modB g s' p.1 p.2
          (fun cl => { cl with is_bomb := true })) t).game_over = t.game_over) ∧
      ((L.foldl (fun s' p => modB g s' p.1 p.2
          (fun cl => { cl with is_bomb := true })) t).updated = t.updated) := by
  intro L
  induction L with
  | nil => intro t; exact ⟨rfl, rfl, rfl⟩
  | cons p rest ih =>
    intro t
    rw [List.foldl_cons]
    obtain ⟨i1, i2, i3⟩ := ih (modB g t p.1 p.2 (fun cl => { cl with is_bomb := true }))
    obtain ⟨m1, m2, m3⟩ := modB_fields g t p.1 p.2 (fun cl => { cl with is_bomb := true })
    exact ⟨i1.trans m1, i2.trans m2, i3.trans m3⟩

theorem generateB_fields (g : CfgB) (s : StateB) :
    (generate_bombsB g s).active = s.active ∧
    (generate_bombsB g s).game_over = s.game_over ∧
    (generate_bombsB g s).updated = s.updated := by
  unfold generate_bombsB
  exact foldmod_fields g _ ({ s with generated_bombs := true } : StateB)

theorem win_stepB_fields (g : CfgB) (i : Nat) (s : StateB) :
    (win_stepB g i s).active = s.active ∧ (win_stepB g i s).game_over = s.game_over ∧
    (win_stepB g i s).updated = s.updated := by
  unfold win_stepB
  split
  · split
    · exact flagB_fields g _ _ s
    · exact ⟨rfl, rfl, rfl⟩
  · exact ⟨rfl, rfl, rfl⟩

theorem win_foldB_fields (g : CfgB) : ∀ (L : List Nat) (t : StateB),
    ((L.foldl (fun sa i => win_stepB g i sa) t).active = t.active) ∧
    ((L.foldl (fun sa i => win_stepB g i sa) t).updated = t.updated) := by
  intro L
  induction L with
  | nil => intro t; exact ⟨rfl, rfl⟩
  | cons i t2 ih =>
    intro t
    rw [List.foldl_cons]
    obtain ⟨i1, i3⟩ := ih (win_stepB g i t)
    obtain ⟨m1, _, m3⟩ := win_stepB_fields g i t
    exact ⟨i1.trans m1, i3.trans m3⟩

theorem win_gameB_fields (g : CfgB) (s : StateB) :
    (win_gameB g s).active = s.active ∧ (win_gameB g s).game_over = true ∧
    (win_gameB g s).updated = s.updated := by
  unfold win_gameB
  obtain ⟨h1, h2⟩ := win_foldB_fields g (List.range (g.rows * g.columns)) s
  exact ⟨h1, rfl, h2⟩

theorem insertGoB_fields (g : CfgB) :
    ∀ (L : List (Int × Int)) (r c : Int) (s : StateB),
      (insertGoB g L r c s).game_over = s.game_over ∧
      (insertGoB g L r c s).updated = s.updated := by
  intro L
  induction L with
  | nil => intro r c s; exact ⟨rfl, rfl⟩
  | cons o rest ih =>
    intro r c s
    rw [show insertGoB g (o :: rest) r c s
        = insertGoB g rest r c
          (match getB g s (r + o.1) (c + o.2) with
          | some cell =>
            if cell.state = CState.uncovered ∧
                (nbombsB g s (r + o.1) (c + o.2) : Int)
                  - (nflagsB g s (r + o.1) (c + o.2) : Int) ≥ 0 ∧
                nuncovB g s (r + o.1) (c + o.2) > 0 ∧
                activeAt g s (r + o.1) (c + o.2) = false then
              insertActiveB g ((r + o.1).toNat, (c + o.2).toNat) s
            else s
          | none => s) from rfl]
    obtain ⟨i1, i2⟩ := ih r c (match getB g s (r + o.1) (c + o.2) with
      | some cell =>
        if cell.state = CState.uncovered ∧
            (nbombsB g s (r + o.1) (c + o.2) : Int)
              - (nflagsB g s (r + o.1) (c + o.2) : Int) ≥ 0 ∧
            nuncovB g s (r + o.1) (c + o.2) > 0 ∧
            activeAt g s (r + o.1) (c + o.2) = false then
          insertActiveB g ((r + o.1).toNat, (c + o.2).toNat) s
        else s
      | none => s)
    refine ⟨i1.trans ?_, i2.trans ?_⟩
    · cases getB g s (r + o.1) (c + o.2) with
      | none => rfl
      | some cell =>
        dsimp only
        split
        · rfl
        · rfl
    · cases getB g s (r + o.1) (c + o.2) with
      | none => rfl
      | some cell =>
        dsimp only
        split
        · rfl
        · rfl

/-! #### What every cascade mutation preserves: existing active bits, a
game already over, and the `updated` flag -/

/-- Bundle preserved by every `Cell`-level mutation the chord can reach. -/
def CascPres (s s' : StateB) : Prop :=
  (∀ i : Nat, (s.active[i]?).getD false = true → (s'.active[i]?).getD false = true) ∧
  (s.game_over = true → s'.game_over = true) ∧
  s'.updated = s.updated

theorem CascPres_refl (s : StateB) : CascPres s s :=
  ⟨fun _ h => h, fun h => h, rfl⟩

theorem CascPres_trans {s1 s2 s3 : StateB} (a : CascPres s1 s2) (b : CascPres s2 s3) :
    CascPres s1 s3 :=
  ⟨fun i h => b.1 i (a.1 i h), fun h => b.2.1 (a.2.1 h), b.2.2.trans a.2.2⟩

theorem CascPres_of_fields {s s' : StateB} (h1 : s'.active = s.active)
    (h2 : s'.game_over = s.game_over) (h3 : s'.updated = s.updated) : CascPres s s' :=
  ⟨fun i h => by rw [h1]; exact h, fun h => by rw [h2]; exact h, h3⟩

theorem CascPres_insertActive (g : CfgB) (p : Nat × Nat) (s : StateB) :
    CascPres s (insertActiveB g p s) := by
  refine ⟨?_, fun h => h, rfl⟩
  intro i h
  unfold insertActiveB
  dsimp only
  by_cases hi : p.1 * g.columns + p.2 = i
  · subst hi
    rw [getElem?_modNth_self]
    cases hx : s.active[p.1 * g.columns + p.2]? with
    | none =>
      rw [hx] at h
      exact absurd h (by simp)
    | some b => simp
  · rw [getElem?_modNth_ne _ _ _ _ hi]
    exact h

theorem CascPres_insertGo (g : CfgB) :
    ∀ (L : List (Int × Int)) (r c : Int) (s : StateB),
      CascPres s (insertGoB g L r c s) := by
  intro L
  induction L with
  | nil => intro r c s; exact CascPres_refl s
  | cons o rest ih =>
    intro r c s
    rw [show insertGoB g (o :: rest) r c s
        = insertGoB g rest r c
          (match getB g s (r + o.1) (c + o.2) with
          | some cell =>
            if cell.state = CState.uncovered ∧
                (nbombsB g s (r + o.1) (c + o.2) : Int)
                  - (nflagsB g s (r + o.1) (c + o.2) : Int) ≥ 0 ∧
                nuncovB g s (r + o.1) (c + o.2) > 0 ∧
                activeAt g s (r + o.1) (c + o.2) = false then
              insertActiveB g ((r + o.1).toNat, (c + o.2).toNat) s
            else s
          | none => s) from rfl]
    refine CascPres_trans ?_ (ih r c _)
    cases getB g s (r + o.1) (c + o.2) with
    | none => exact CascPres_refl s
    | some cell =>
      dsimp only
      split
      · exact CascPres_insertActive g _ s
      · exact CascPres_refl s

theorem CascPres_winwrap (g : CfgB) (s : StateB) :
    CascPres s (if has_wonB g s then win_gameB g s else s) := by
  split
  · obtain ⟨h1, h2, h3⟩ := win_gameB_fields g s
    exact ⟨fun i h => by rw [h1]; exact h, fun _ => h2, h3⟩
  · exact CascPres_refl s

theorem CascPres_lose (g : CfgB) (s : StateB) : CascPres s (lose_gameB g s) :=
  ⟨fun _ h => h, fun _ => rfl, rfl⟩

theorem CascPres_generate (g : CfgB) (s : StateB) : CascPres s (generate_bombsB g s) := by
  obtain ⟨h1, h2, h3⟩ := generateB_fields g s
  exact CascPres_of_fields h1 h2 h3

theorem CascPres_setState (g : CfgB) (s : StateB) (r c : Int) (st : CState) :
    CascPres s (setStateB g s r c st) := by
  obtain ⟨h1, h2, h3⟩ := modB_fields g s r c (fun cl => { cl with state := st })
  exact CascPres_of_fields h1 h2 h3

theorem CascPres_nbrsGoB (g : CfgB) (rec : Int → Int → StateB → Option StateB)
    (hrec : ∀ (r c : Int) (s s' : StateB), rec r c s = some s' → CascPres s s') :
    ∀ (offs : List (Int × Int)) (r c : Int) (s s' : StateB),
      nbrsGoB g rec offs r c s = some s' → CascPres s s' := by
  intro offs
  induction offs with
  | nil =>
    intro r c s s' h
    rw [show nbrsGoB g rec [] r c s = some s from rfl] at h
    cases h
    exact CascPres_refl s
  | cons o rest ih =>
    intro r c s s' h
    rw [show nbrsGoB g rec (o :: rest) r c s
        = (match getB g s (r + o.1) (c + o.2) with
          | some cell =>
            if cell.state = CState.covered then
              match rec (r + o.1) (c + o.2) s with
              | none => none
              | some s1 => nbrsGoB g rec rest r c s1
            else nbrsGoB g rec rest r c s
          | none => nbrsGoB g rec rest r c s) from rfl] at h
    cases hget : getB g s (r + o.1) (c + o.2) with
    | none =>
      rw [hget] at h
      dsimp only at h
      exact ih _ _ _ _ h
    | some cell =>
      rw [hget] at h
      dsimp only at h
      by_cases hcov : cell.state = CState.covered
      · rw [if_pos hcov] at h
        cases hres : rec (r + o.1) (c + o.2) s with
        | none => rw [hres] at h; cases h
        | some s1 =>
          rw [hres] at h
          dsimp only at h
          exact CascPres_trans (hrec _ _ _ _ hres) (ih _ _ _ _ h)
      · rw [if_neg hcov] at h
        exact ih _ _ _ _ h

theorem CascPres_uncoverWith (g : CfgB)
    (recFu : Option (Int → Int → StateB → Option StateB))
    (hrec : ∀ rec, recFu = some rec →
      ∀ (r c : Int) (s s' : StateB), rec r c s = some s' → CascPres s s')
    (r c : Int) (s s' : StateB) (h : uncoverWith g recFu r c s = some s') :
    CascPres s s' := by
  unfold uncoverWith at h
  dsimp only at h
  by_cases hnb : nbombsB g (setStateB g s r c CState.uncovered) r c = 0
  · rw [if_pos hnb] at h
    cases hrf : recFu with
    | none => rw [hrf] at h; cases h
    | some rec =>
      rw [hrf] at h
      dsimp only at h
      rw [Option.map_eq_some'] at h
      obtain ⟨s2, h2, h3⟩ := h
      subst h3
      exact CascPres_trans
        (CascPres_trans (CascPres_setState g s r c CState.uncovered)
          (CascPres_nbrsGoB g rec (hrec rec hrf) offsAll r c _ s2 h2))
        (CascPres_insertGo g offsAll r c s2)
  · rw [if_neg hnb] at h
    cases h
    exact CascPres_setState g s r c CState.uncovered

theorem CascPres_left_clickB (g : CfgB) :
    ∀ (fuel : Nat) (r c : Int) (s s' : StateB),
      left_clickB g fuel r c s = some s' → CascPres s s' := by
  intro fuel
  induction fuel with
  | zero =>
    intro r c s s' h
    rw [left_clickB] at h
    cases hget : getB g s r c with
    | none => rw [hget] at h; dsimp only at h; cases h; exact CascPres_refl s
    | some cell =>
      rw [hget] at h
      dsimp only at h
      by_cases hcov : cell.state = CState.covered
      · rw [if_pos hcov] at h
        by_cases hgen : s.generated_bombs = false
        · rw [if_pos hgen] at h
          exact CascPres_trans (CascPres_generate g s)
            (CascPres_uncoverWith g none (fun rec hrec => by cases hrec) r c _ s' h)
        · rw [if_neg hgen] at h
          by_cases hbm : cell.is_bomb = true
          · rw [if_pos hbm] at h
            cases h
            exact CascPres_lose g s
          · rw [if_neg hbm] at h
            rw [Option.map_eq_some'] at h
            obtain ⟨s2, h2, h3⟩ := h
            subst h3
            exact CascPres_trans
              (CascPres_uncoverWith g none (fun rec hrec => by cases hrec) r c s s2 h2)
              (CascPres_winwrap g s2)
      · rw [if_neg hcov] at h
        cases h
        exact CascPres_refl s
  | succ fu ih =>
    intro r c s s' h
    rw [left_clickB] at h
    cases hget : getB g s r c with
    | none => rw [hget] at h; dsimp only at h; cases h; exact CascPres_refl s
    | some cell =>
      rw [hget] at h
      dsimp only at h
      by_cases hcov : cell.state = CState.covered
      · rw [if_pos hcov] at h
        by_cases hgen : s.generated_bombs = false
        · rw [if_pos hgen] at h
          exact CascPres_trans (CascPres_generate g s)
            (CascPres_uncoverWith g (some (left_clickB g fu))
              (fun rec hrec => by cases hrec; exact ih) r c _ s' h)
        · rw [if_neg hgen] at h
          by_cases hbm : cell.is_bomb = true
          · rw [if_pos hbm] at h
            cases h
            exact CascPres_lose g s
          · rw [if_neg hbm] at h
            rw [Option.map_eq_some'] at h
            obtain ⟨s2, h2, h3⟩ := h
            subst h3
            exact CascPres_trans
              (CascPres_uncoverWith g (some (left_clickB g fu))
                (fun rec hrec => by cases hrec; exact ih) r c s s2 h2)
              (CascPres_winwrap g s2)
      · rw [if_neg hcov] at h
        cases h
        exact CascPres_refl s

theorem CascPres_uncover_neighborsB (g : CfgB) (fuel : Nat) (r c : Int) (s s' : StateB)
    (h : uncover_neighborsB g fuel r c s = some s') : CascPres s s' := by
  cases fuel with
  | zero => rw [show uncover_neighborsB g 0 r c s = none from rfl] at h; cases h
  | succ fu =>
    rw [show uncover_neighborsB g (fu + 1) r c s
        = (nbrsGoB g (left_clickB g fu) offsAll r c s).map
            (fun s2 => insertGoB g offsAll r c s2) from rfl] at h
    rw [Option.map_eq_some'] at h
    obtain ⟨s2, h2, h3⟩ := h
    subst h3
    exact CascPres_trans
      (CascPres_nbrsGoB g (left_clickB g fu)
        (fun a b t t' hh => CascPres_left_clickB g fu a b t t' hh) offsAll r c s s2 h2)
      (CascPres_insertGo g offsAll r c s2)

theorem CascPres_double_left_clickB (g : CfgB) (fuel : Nat) (r c : Int) (s s' : StateB)
    (h : double_left_clickB g fuel r c s = some s') : CascPres s s' := by
  unfold double_left_clickB at h
  cases hget : getB g s r c with
  | none =>
    rw [hget] at h
    dsimp only at h
    cases h
    exact CascPres_refl s
  | some cell =>
    rw [hget] at h
    dsimp only at h
    rw [Option.map_eq_some'] at h
    obtain ⟨t, ht, ht2⟩ := h
    have hstep1 : CascPres s t := by
      by_cases hcond : cell.state = CState.uncovered ∧ nflagsB g s r c = nbombsB g s r c
      · rw [if_pos hcond] at ht
        exact CascPres_uncover_neighborsB g fuel r c s t ht
      · rw [if_neg hcond] at ht
        injection ht with ht'
        subst ht'
        exact CascPres_refl s
    subst ht2
    refine CascPres_trans hstep1 ?_
    by_cases hgo : t.game_over = false
    · rw [if_pos hgo]
      exact CascPres_winwrap g t
    · rw [if_neg hgo]
      exact CascPres_refl t

/-! #### The termination measure -/

/-- The index-level active bit. -/
def actIdxB (s : StateB) (i : Nat) : Bool :=
  (s.active[i]?).getD false

/-- The frontier size. -/
def actCountB (g : CfgB) (s : StateB) : Nat :=
  (List.range (g.rows * g.columns)).countP (fun i => actIdxB s i)

/-- How many frontier cells have no covered neighbour — exactly the cells a
rule can fire on without changing any cell. -/
def act0CountB (g : CfgB) (s : StateB) : Nat :=
  (List.range (g.rows * g.columns)).countP (fun i => actIdxB s i &&
    decide (nuncovB g s ((i / g.columns : Nat) : Int) ((i % g.columns : Nat) : Int) = 0))

/-- The frontier part of the termination measure. -/
def frontMeasureB (g : CfgB) (s : StateB) : Nat :=
  act0CountB g s * (g.rows * g.columns + 1) + actCountB g s

/-- The lexicographic termination measure of the `solve` loop, encoded as
one natural number: covered count first, then the frontier part. -/
def solveMeasureB (g : CfgB) (s : StateB) : Nat :=
  coveredCountB s * ((g.rows * g.columns + 1) * (g.rows * g.columns + 1))
    + frontMeasureB g s

theorem actCountB_le (g : CfgB) (s : StateB) : actCountB g s ≤ g.rows * g.columns := by
  unfold actCountB
  calc (List.range (g.rows * g.columns)).countP (fun i => actIdxB s i)
      ≤ (List.range (g.rows * g.columns)).length := List.countP_le_length _
    _ = g.rows * g.columns := List.length_range _

theorem act0CountB_le (g : CfgB) (s : StateB) : act0CountB g s ≤ g.rows * g.columns := by
  unfold act0CountB
  calc (List.range (g.rows * g.columns)).countP _
      ≤ (List.range (g.rows * g.columns)).length := List.countP_le_length _
    _ = g.rows * g.columns := List.length_range _

theorem frontMeasureB_lt (g : CfgB) (s : StateB) :
    frontMeasureB g s < (g.rows * g.columns + 1) * (g.rows * g.columns + 1) := by
  unfold frontMeasureB
  have h1 := act0CountB_le g s
  have h2 := actCountB_le g s
  have h3 : act0CountB g s * (g.rows * g.columns + 1)
      ≤ g.rows * g.columns * (g.rows * g.columns + 1) :=
    Nat.mul_le_mul_right _ h1
  have h4 : g.rows * g.columns * (g.rows * g.columns + 1) + (g.rows * g.columns + 1)
      = (g.rows * g.columns + 1) * (g.rows * g.columns + 1) := by ring
  omega

theorem actIdxB_congr {s s' : StateB} (h : s'.active = s.active) (i : Nat) :
    actIdxB s' i = actIdxB s i := by
  unfold actIdxB
  rw [h]

theorem frontMeasureB_congr (g : CfgB) {s s' : StateB} (hc : s'.cells = s.cells)
    (ha : s'.active = s.active) : frontMeasureB g s' = frontMeasureB g s := by
  unfold frontMeasureB actCountB act0CountB
  have hfun1 : (fun i => actIdxB s' i) = (fun i => actIdxB s i) :=
    funext (actIdxB_congr ha)
  have hfun2 : (fun i => actIdxB s' i &&
        decide (nuncovB g s' ((i / g.columns : Nat) : Int) ((i % g.columns : Nat) : Int) = 0))
      = (fun i => actIdxB s i &&
        decide (nuncovB g s ((i / g.columns : Nat) : Int) ((i % g.columns : Nat) : Int) = 0)) := by
    funext i
    rw [actIdxB_congr ha, nuncovB_cells_congr g hc]
  rw [hfun1, hfun2]

theorem solveMeasureB_congr (g : CfgB) {s s' : StateB} (hc : s'.cells = s.cells)
    (ha : s'.active = s.active) : solveMeasureB g s' = solveMeasureB g s := by
  unfold solveMeasureB
  rw [coveredCountB_cells_congr hc, frontMeasureB_congr g hc ha]

theorem actIdx_remove_self (g : CfgB) (p : Nat × Nat) (s : StateB) :
    actIdxB (removeActiveB g p s) (p.1 * g.columns + p.2) = false := by
  unfold actIdxB removeActiveB
  dsimp only
  rw [getElem?_modNth_self]
  cases s.active[p.1 * g.columns + p.2]? <;> simp

theorem actIdx_remove_ne (g : CfgB) (p : Nat × Nat) (s : StateB) (i : Nat)
    (hi : i ≠ p.1 * g.columns + p.2) :
    actIdxB (removeActiveB g p s) i = actIdxB s i := by
  unfold actIdxB removeActiveB
  dsimp only
  rw [getElem?_modNth_ne _ _ _ _ (fun he => hi he.symm)]

/-- Every bit `insertGoB` turns on sits on a cell with a covered neighbour:
its guard demands `neighboring_uncovered > 0`. -/
theorem insertGoB_active_new (g : CfgB) :
    ∀ (L : List (Int × Int)) (r c : Int) (s : StateB) (i : Nat),
      actIdxB (insertGoB g L r c s) i = true →
      actIdxB s i = true ∨
        0 < nuncovB g s ((i / g.columns : Nat) : Int) ((i % g.columns : Nat) : Int) := by
  intro L
  induction L with
  | nil => intro r c s i h; exact Or.inl h
  | cons o rest ih =>
    intro r c s i h
    rw [show insertGoB g (o :: rest) r c s
        = insertGoB g rest r c
          (match getB g s (r + o.1) (c + o.2) with
          | some cell =>
            if cell.state = CState.uncovered ∧
                (nbombsB g s (r + o.1) (c + o.2) : Int)
                  - (nflagsB g s (r + o.1) (c + o.2) : Int) ≥ 0 ∧
                nuncovB g s (r + o.1) (c + o.2) > 0 ∧
                activeAt g s (r + o.1) (c + o.2) = false then
              insertActiveB g ((r + o.1).toNat, (c + o.2).toNat) s
            else s
          | none => s) from rfl] at h
    cases hget : getB g s (r + o.1) (c + o.2) with
    | none =>
      rw [hget] at h
      dsimp only at h
      exact ih r c s i h
    | some cell =>
      rw [hget] at h
      dsimp only at h
      by_cases hcond : cell.state = CState.uncovered ∧
          (nbombsB g s (r + o.1) (c + o.2) : Int)
            - (nflagsB g s (r + o.1) (c + o.2) : Int) ≥ 0 ∧
          nuncovB g s (r + o.1) (c + o.2) > 0 ∧
          activeAt g s (r + o.1) (c + o.2) = false
      · rw [if_pos hcond] at h
        rcases ih r c (insertActiveB g ((r + o.1).toNat, (c + o.2).toNat) s) i h with h1 | h2
        · by_cases hik : (r + o.1).toNat * g.columns + (c + o.2).toNat = i
          · right
            subst hik
            have hin := getB_some_inB hget
            rw [inBB_iff] at hin
            have hq : (c + o.2).toNat < g.columns := by omega
            have hdiv : ((r + o.1).toNat * g.columns + (c + o.2).toNat) / g.columns
                = (r + o.1).toNat := flatIdx_div _ _ _ hq
            have hmod : ((r + o.1).toNat * g.columns + (c + o.2).toNat) % g.columns
                = (c + o.2).toNat := flatIdx_mod _ _ _ hq
            rw [hdiv, hmod]
            have h1c : (((r + o.1).toNat : Nat) : Int) = r + o.1 :=
              Int.toNat_of_nonneg (by omega)
            have h2c : (((c + o.2).toNat : Nat) : Int) = c + o.2 :=
              Int.toNat_of_nonneg (by omega)
            rw [h1c, h2c]
            exact hcond.2.2.1
          · left
            unfold actIdxB insertActiveB at h1
            dsimp only at h1
            rw [getElem?_modNth_ne _ _ _ _ hik] at h1
            exact h1
        · right
          have hcells : (insertActiveB g ((r + o.1).toNat, (c + o.2).toNat) s).cells
              = s.cells := rfl
          rw [nuncovB_cells_congr g hcells] at h2
          exact h2
      · rw [if_neg hcond] at h
        exact ih r c s i h

/-! #### A cascade that changes no covered cell changes nothing at all -/

theorem nbrsGoB_stall (g : CfgB) (fu : Nat) :
    ∀ (offs : List (Int × Int)) (r c : Int) (s sN : StateB),
      nbrsGoB g (left_clickB g fu) offs r c s = some sN →
      coveredCountB sN = coveredCountB s →
      sN = s := by
  intro offs
  induction offs with
  | nil =>
    intro r c s sN h _
    rw [show nbrsGoB g (left_clickB g fu) [] r c s = some s from rfl] at h
    injection h with h1
    exact h1.symm
  | cons o rest ih =>
    intro r c s sN h hC
    rw [show nbrsGoB g (left_clickB g fu) (o :: rest) r c s
        = (match getB g s (r + o.1) (c + o.2) with
          | some cell =>
            if cell.state = CState.covered then
              match left_clickB g fu (r + o.1) (c + o.2) s with
              | none => none
              | some s1 => nbrsGoB g (left_clickB g fu) rest r c s1
            else nbrsGoB g (left_clickB g fu) rest r c s
          | none => nbrsGoB g (left_clickB g fu) rest r c s) from rfl] at h
    cases hget : getB g s (r + o.1) (c + o.2) with
    | none =>
      rw [hget] at h
      dsimp only at h
      exact ih r c s sN h hC
    | some cell =>
      rw [hget] at h
      dsimp only at h
      by_cases hcov : cell.state = CState.covered
      · rw [if_pos hcov] at h
        cases hres : left_clickB g fu (r + o.1) (c + o.2) s with
        | none => rw [hres] at h; cases h
        | some s1 =>
          rw [hres] at h
          dsimp only at h
          exfalso
          have hstrict := left_clickB_covered_strict g fu _ _ s s1 cell hget hcov hres
          have hmono := coveredCountB_mono (StepB_nbrsGoB g (left_clickB g fu)
            (fun a b t t' hh => StepB_left_clickB g fu a b t t' hh) rest r c s1 sN h)
          omega
      · rw [if_neg hcov] at h
        exact ih r c s sN h hC

/-! #### What one rule application does to the measure -/

theorem flag_stepB_actpres (g : CfgB) (p : Nat × Nat) (s : StateB) (i : Nat)
    (hi : i ≠ p.1 * g.columns + p.2) (h : actIdxB s i = true) :
    actIdxB (flag_stepB g p s) i = true := by
  unfold flag_stepB
  split
  · dsimp only
    rw [show actIdxB ({ removeActiveB g p (offsP.foldl
        (fun s' o =>
          match getB g s' (↑p.1 + o.1) (↑p.2 + o.2) with
          | some cell =>
            if cell.state = CState.covered then right_clickB g (↑p.1 + o.1) (↑p.2 + o.2) s'
            else s'
          | none => s') s) with updated := true } : StateB) i
        = actIdxB (removeActiveB g p (offsP.foldl
        (fun s' o =>
          match getB g s' (↑p.1 + o.1) (↑p.2 + o.2) with
          | some cell =>
            if cell.state = CState.covered then right_clickB g (↑p.1 + o.1) (↑p.2 + o.2) s'
            else s'
          | none => s') s)) i from rfl]
    rw [actIdx_remove_ne g p _ i hi]
    have hfold : ∀ (offs : List (Int × Int)) (t : StateB),
        (offs.foldl
          (fun s' o =>
            match getB g s' (↑p.1 + o.1) (↑p.2 + o.2) with
            | some cell =>
              if cell.state = CState.covered then right_clickB g (↑p.1 + o.1) (↑p.2 + o.2) s'
              else s'
            | none => s') t).active = t.active := by
      intro offs
      induction offs with
      | nil => intro t; rfl
      | cons o rest ihf =>
        intro t
        rw [List.foldl_cons, ihf]
        cases getB g t (↑p.1 + o.1) (↑p.2 + o.2) with
        | none => rfl
        | some cell =>
          dsimp only
          split
          · exact (right_clickB_fields g _ _ t).1
          · rfl
    unfold actIdxB
    rw [hfold offsP s]
    exact h
  · exact h

theorem flag_stepB_go (g : CfgB) (p : Nat × Nat) (s : StateB) :
    (flag_stepB g p s).game_over = s.game_over := by
  unfold flag_stepB
  split
  · dsimp only
    have hfold : ∀ (offs : List (Int × Int)) (t : StateB),
        (offs.foldl
          (fun s' o =>
            match getB g s' (↑p.1 + o.1) (↑p.2 + o.2) with
            | some cell =>
              if cell.state = CState.covered then right_clickB g (↑p.1 + o.1) (↑p.2 + o.2) s'
              else s'
            | none => s') t).game_over = t.game_over := by
      intro offs
      induction offs with
      | nil => intro t; rfl
      | cons o rest ihf =>
        intro t
        rw [List.foldl_cons, ihf]
        cases getB g t (↑p.1 + o.1) (↑p.2 + o.2) with
        | none => rfl
        | some cell =>
          dsimp only
          split
          · exact (right_clickB_fields g _ _ t).2.1
          · rfl
    exact hfold offsP s
  · rfl

theorem removal_A0_le (g : CfgB) (p : Nat × Nat) (s s' : StateB)
    (hc : s'.cells = s.cells)
    (hself : actIdxB s' (p.1 * g.columns + p.2) = false)
    (hne : ∀ i, i ≠ p.1 * g.columns + p.2 → actIdxB s' i = true →
      actIdxB s i = true) :
    act0CountB g s' ≤ act0CountB g s := by
  unfold act0CountB
  apply countP_le_pred
  intro i _ hp
  rw [Bool.and_eq_true] at hp
  obtain ⟨ha, hn⟩ := hp
  rw [nuncovB_cells_congr g hc] at hn
  by_cases hik : i = p.1 * g.columns + p.2
  · subst hik
    rw [hself] at ha
    cases ha
  · rw [Bool.and_eq_true]
    exact ⟨hne i hik ha, hn⟩

theorem removal_Act_le (g : CfgB) (p : Nat × Nat) (s s' : StateB)
    (hself : actIdxB s' (p.1 * g.columns + p.2) = false)
    (hne : ∀ i, i ≠ p.1 * g.columns + p.2 → actIdxB s' i = true →
      actIdxB s i = true) :
    actCountB g s' ≤ actCountB g s := by
  unfold actCountB
  apply countP_le_pred
  intro i _ hp
  by_cases hik : i = p.1 * g.columns + p.2
  · subst hik
    rw [hself] at hp
    cases hp
  · exact hne i hik hp

theorem pairIdx_lt (g : CfgB) (p : Nat × Nat) (hp1 : p.1 < g.rows) (hp2 : p.2 < g.columns) :
    p.1 * g.columns + p.2 < g.rows * g.columns := by
  calc p.1 * g.columns + p.2 < p.1 * g.columns + g.columns := by omega
    _ = (p.1 + 1) * g.columns := by ring
    _ ≤ g.rows * g.columns := Nat.mul_le_mul_right _ (by omega)

/-- Dropping an active cell from the frontier, inserting nothing, strictly
lowers the frontier measure. -/
theorem removal_measure_lt (g : CfgB) (p : Nat × Nat) (s s' : StateB)
    (hc : s'.cells = s.cells)
    (hself : actIdxB s' (p.1 * g.columns + p.2) = false)
    (hne : ∀ i, i ≠ p.1 * g.columns + p.2 → actIdxB s' i = true →
      actIdxB s i = true)
    (hact : actIdxB s (p.1 * g.columns + p.2) = true)
    (hp1 : p.1 < g.rows) (hp2 : p.2 < g.columns) :
    frontMeasureB g s' < frontMeasureB g s := by
  have hk := pairIdx_lt g p hp1 hp2
  have hA0le := removal_A0_le g p s s' hc hself hne
  have hActlt : actCountB g s' < actCountB g s := by
    unfold actCountB
    apply countP_lt_pred (List.range (g.rows * g.columns)) _ _
      ?mono2 (p.1 * g.columns + p.2) (List.mem_range.2 hk) hact hself
    case mono2 =>
      intro i _ hp
      by_cases hik : i = p.1 * g.columns + p.2
      · subst hik
        rw [hself] at hp
        cases hp
      · exact hne i hik hp
  unfold frontMeasureB
  have h3 : act0CountB g s' * (g.rows * g.columns + 1)
      ≤ act0CountB g s * (g.rows * g.columns + 1) :=
    Nat.mul_le_mul_right _ hA0le
  omega

/-- Dropping an active *no-covered-neighbour* cell from the frontier
strictly lowers the frontier measure even when covered-neighbour cells get
inserted alongside. -/
theorem removal_insert_measure_lt (g : CfgB) (p : Nat × Nat) (s s' : StateB)
    (hc : s'.cells = s.cells)
    (hself : actIdxB s' (p.1 * g.columns + p.2) = false)
    (hne0 : ∀ i, i ≠ p.1 * g.columns + p.2 → actIdxB s' i = true →
      actIdxB s i = true ∨
        0 < nuncovB g s ((i / g.columns : Nat) : Int) ((i % g.columns : Nat) : Int))
    (hact : actIdxB s (p.1 * g.columns + p.2) = true)
    (hnu : nuncovB g s (↑p.1) (↑p.2) = 0)
    (hp1 : p.1 < g.rows) (hp2 : p.2 < g.columns) :
    frontMeasureB g s' < frontMeasureB g s := by
  have hk := pairIdx_lt g p hp1 hp2
  have hkdiv : (p.1 * g.columns + p.2) / g.columns = p.1 := flatIdx_div _ _ _ hp2
  have hkmod : (p.1 * g.columns + p.2) % g.columns = p.2 := flatIdx_mod _ _ _ hp2
  have hA0lt : act0CountB g s' < act0CountB g s := by
    unfold act0CountB
    apply countP_lt_pred (List.range (g.rows * g.columns)) _ _
      ?mono (p.1 * g.columns + p.2) (List.mem_range.2 hk) ?qx ?px
    case mono =>
      intro i _ hp
      rw [Bool.and_eq_true] at hp
      obtain ⟨ha, hn⟩ := hp
      rw [nuncovB_cells_congr g hc] at hn
      by_cases hik : i = p.1 * g.columns + p.2
      · subst hik
        rw [hself] at ha
        cases ha
      · rcases hne0 i hik ha with h1 | h2
        · rw [Bool.and_eq_true]
          exact ⟨h1, hn⟩
        · rw [decide_eq_true_eq] at hn
          exfalso
          omega
    case qx =>
      rw [Bool.and_eq_true]
      refine ⟨hact, ?_⟩
      rw [hkdiv, hkmod, decide_eq_true_eq]
      exact hnu
    case px =>
      rw [hself]
      rfl
  have hActbound := actCountB_le g s'
  unfold frontMeasureB
  have h3 : (act0CountB g s' + 1) * (g.rows * g.columns + 1)
      ≤ act0CountB g s * (g.rows * g.columns + 1) :=
    Nat.mul_le_mul_right _ (by omega)
  have h4 : (act0CountB g s' + 1) * (g.rows * g.columns + 1)
      = act0CountB g s' * (g.rows * g.columns + 1) + (g.rows * g.columns + 1) := by ring
  omega

/-- The `has_won` wrapper cannot have fired `win_game` when the result is
not game over. -/
theorem winwrap_noover (g : CfgB) (t s1 : StateB)
    (h : (if t.game_over = false then (if has_wonB g t then win_gameB g t else t) else t) = s1)
    (hgo : s1.game_over = false) : s1 = t := by
  by_cases htgo : t.game_over = false
  · rw [if_pos htgo] at h
    by_cases hw : has_wonB g t = true
    · rw [if_pos hw] at h
      exfalso
      rw [← h] at hgo
      rw [(win_gameB_fields g t).2.1] at hgo
      cases hgo
    · rw [if_neg hw] at h
      exact h.symm
  · rw [if_neg htgo] at h
    exact h.symm

/-- A firing flag rule whose covered count does not move changes no cell:
it only drops its cell from the frontier, and that strictly shrinks the
frontier measure. -/
theorem flag_stepB_measure (g : CfgB) (p : Nat × Nat) (s : StateB)
    (hC : coveredCountB (flag_stepB g p s) = coveredCountB s)
    (hact : actIdxB s (p.1 * g.columns + p.2) = true)
    (hp1 : p.1 < g.rows) (hp2 : p.2 < g.columns) :
    (flag_stepB g p s).cells = s.cells ∧
    frontMeasureB g (flag_stepB g p s) ≤ frontMeasureB g s ∧
    ((flag_stepB g p s).updated = true → s.updated = true ∨
      frontMeasureB g (flag_stepB g p s) < frontMeasureB g s) := by
  by_cases hfire : nbombsB g s p.1 p.2 = nflagsB g s p.1 p.2 + nuncovB g s p.1 p.2
  · have hnu : nuncovB g s p.1 p.2 = 0 := by
      by_contra hne
      have hpos : 0 < nuncovB g s p.1 p.2 := Nat.pos_of_ne_zero hne
      have := flag_stepB_strict g p s hfire hpos
      omega
    have hfold : (offsP.foldl
        (fun s' o =>
          match getB g s' (↑p.1 + o.1) (↑p.2 + o.2) with
          | some cell =>
            if cell.state = CState.covered then right_clickB g (↑p.1 + o.1) (↑p.2 + o.2) s'
            else s'
          | none => s') s) = s :=
      flag_fold_nocov g (↑p.1) (↑p.2) offsP s (nuncov_zero_all g s (↑p.1) (↑p.2) hnu)
    have hs : flag_stepB g p s = { removeActiveB g p s with updated := true } := by
      unfold flag_stepB
      rw [if_pos hfire]
      dsimp only
      rw [hfold]
    rw [hs]
    have hstrict : frontMeasureB g ({ removeActiveB g p s with updated := true } : StateB)
        < frontMeasureB g s :=
      removal_measure_lt g p s ({ removeActiveB g p s with updated := true } : StateB) rfl
        (actIdx_remove_self g p s)
        (fun i hi hh => by rw [← actIdx_remove_ne g p s i hi]; exact hh)
        hact hp1 hp2
    exact ⟨rfl, le_of_lt hstrict, fun _ => Or.inr hstrict⟩
  · have hs : flag_stepB g p s = s := by
      unfold flag_stepB
      rw [if_neg hfire]
    rw [hs]
    exact ⟨rfl, le_refl _, fun h => Or.inl h⟩

theorem click_stepB_facts (g : CfgB) (cf : Nat) (p : Nat × Nat) (s s' : StateB)
    (h : click_stepB g cf p s = some s') :
    (s.game_over = true → s'.game_over = true) ∧
    (∀ i, i ≠ p.1 * g.columns + p.2 → actIdxB s i = true → actIdxB s' i = true) := by
  unfold click_stepB at h
  by_cases hfire : nflagsB g s p.1 p.2 = nbombsB g s p.1 p.2
  · rw [if_pos hfire] at h
    rw [Option.map_eq_some'] at h
    obtain ⟨s1, h1, h2⟩ := h
    subst h2
    have hp := CascPres_double_left_clickB g cf (↑p.1) (↑p.2) s s1 h1
    constructor
    · intro hgo
      exact hp.2.1 hgo
    · intro i hi hact
      have h3 : actIdxB (removeActiveB g p s1) i = true := by
        rw [actIdx_remove_ne g p s1 i hi]
        exact hp.1 i hact
      exact h3
  · rw [if_neg hfire] at h
    injection h with h2
    subst h2
    exact ⟨fun hh => hh, fun i _ hh => hh⟩

/-- A firing click rule whose result is not game over and whose covered
count does not move removed its frontier cell (which then had no covered
neighbour, or was not an uncovered cell) and inserted only
covered-neighbour cells: the frontier measure strictly shrinks. -/
theorem click_stepB_measure (g : CfgB) (cf : Nat) (p : Nat × Nat) (s s' : StateB)
    (h : click_stepB g cf p s = some s')
    (hgo : s'.game_over = false)
    (hC : coveredCountB s' = coveredCountB s)
    (hact : actIdxB s (p.1 * g.columns + p.2) = true)
    (hp1 : p.1 < g.rows) (hp2 : p.2 < g.columns) :
    s'.cells = s.cells ∧
    frontMeasureB g s' ≤ frontMeasureB g s ∧
    (s'.updated = true → s.updated = true ∨ frontMeasureB g s' < frontMeasureB g s) := by
  unfold click_stepB at h
  by_cases hfire : nflagsB g s p.1 p.2 = nbombsB g s p.1 p.2
  case neg =>
    rw [if_neg hfire] at h
    injection h with h2
    subst h2
    exact ⟨rfl, le_refl _, fun hu => Or.inl hu⟩
  case pos =>
    rw [if_pos hfire] at h
    rw [Option.map_eq_some'] at h
    obtain ⟨s1, h1, h2⟩ := h
    subst h2
    have hgo1 : s1.game_over = false := hgo
    have hC1 : coveredCountB s1 = coveredCountB s := by
      have hC0 : coveredCountB ({ removeActiveB g p s1 with updated := true } : StateB)
          = coveredCountB s1 := coveredCountB_cells_congr rfl
      omega
    unfold double_left_clickB at h1
    cases hget : getB g s (↑p.1) (↑p.2) with
    | none =>
      rw [hget] at h1
      dsimp only at h1
      injection h1 with h1'
      subst h1'
      have hstrict : frontMeasureB g
          ({ removeActiveB g p s with updated := true } : StateB) < frontMeasureB g s :=
        removal_measure_lt g p s ({ removeActiveB g p s with updated := true } : StateB) rfl
          (actIdx_remove_self g p s)
          (fun i hi hh => by rw [← actIdx_remove_ne g p s i hi]; exact hh)
          hact hp1 hp2
      exact ⟨rfl, le_of_lt hstrict, fun _ => Or.inr hstrict⟩
    | some cell =>
      rw [hget] at h1
      dsimp only at h1
      rw [Option.map_eq_some'] at h1
      obtain ⟨t, ht, ht2⟩ := h1
      by_cases hcond : cell.state = CState.uncovered ∧
          nflagsB g s (↑p.1) (↑p.2) = nbombsB g s (↑p.1) (↑p.2)
      case neg =>
        rw [if_neg hcond] at ht
        injection ht with ht'
        subst ht'
        have hs1 : s = s1 := (winwrap_noover g s s1 ht2 hgo1).symm
        subst hs1
        have hstrict : frontMeasureB g
            ({ removeActiveB g p s with updated := true } : StateB) < frontMeasureB g s :=
          removal_measure_lt g p s ({ removeActiveB g p s with updated := true } : StateB) rfl
            (actIdx_remove_self g p s)
            (fun i hi hh => by rw [← actIdx_remove_ne g p s i hi]; exact hh)
            hact hp1 hp2
        exact ⟨rfl, le_of_lt hstrict, fun _ => Or.inr hstrict⟩
      case pos =>
        rw [if_pos hcond] at ht
        have hs1 : s1 = t := winwrap_noover g t s1 ht2 hgo1
        subst hs1
        cases cf with
        | zero =>
          rw [show uncover_neighborsB g 0 (↑p.1) (↑p.2) s = none from rfl] at ht
          cases ht
        | succ cfu =>
          rw [show uncover_neighborsB g (cfu + 1) (↑p.1) (↑p.2) s
              = (nbrsGoB g (left_clickB g cfu) offsAll (↑p.1) (↑p.2) s).map
                  (fun s2 => insertGoB g offsAll (↑p.1) (↑p.2) s2) from rfl] at ht
          rw [Option.map_eq_some'] at ht
          obtain ⟨sN, hN, hN2⟩ := ht
          have hCN : coveredCountB sN = coveredCountB s := by
            have h5 : coveredCountB s1 = coveredCountB sN := by
              rw [← hN2]
              exact coveredCountB_cells_congr (insertGoB_cells g offsAll _ _ sN)
            omega
          have hnu : nuncovB g s (↑p.1) (↑p.2) = 0 := by
            by_contra hne
            obtain ⟨o, ho, hoc⟩ :=
              (nuncov_pos_iff g s (↑p.1) (↑p.2)).1 (Nat.pos_of_ne_zero hne)
            have := nbrsGoB_strict g cfu offsAll (↑p.1) (↑p.2) s sN
              ⟨o, offsP_subset_offsAll o ho, hoc⟩ hN
            omega
          have hstall : s = sN :=
            (nbrsGoB_stall g cfu offsAll (↑p.1) (↑p.2) s sN hN hCN).symm
          subst hstall
          subst hN2
          have hcells : ({ removeActiveB g p (insertGoB g offsAll (↑p.1) (↑p.2) s)
              with updated := true } : StateB).cells = s.cells :=
            insertGoB_cells g offsAll _ _ s
          have hstrict : frontMeasureB g
              ({ removeActiveB g p (insertGoB g offsAll (↑p.1) (↑p.2) s)
                with updated := true } : StateB) < frontMeasureB g s :=
            removal_insert_measure_lt g p s
              ({ removeActiveB g p (insertGoB g offsAll (↑p.1) (↑p.2) s)
                with updated := true } : StateB) hcells
              (actIdx_remove_self g p (insertGoB g offsAll (↑p.1) (↑p.2) s))
              (fun i hi hh => insertGoB_active_new g offsAll (↑p.1) (↑p.2) s i
                (by
                  rw [← actIdx_remove_ne g p (insertGoB g offsAll (↑p.1) (↑p.2) s) i hi]
                  exact hh))
              hact hnu hp1 hp2
          exact ⟨hcells, le_of_lt hstrict, fun _ => Or.inr hstrict⟩

/-! #### The two rule passes -/

theorem StepB_flagPass (g : CfgB) :
    ∀ (L : List (Nat × Nat)) (s : StateB),
      StepB s (L.foldl (fun s' p => flag_stepB g p s') s) := by
  intro L
  induction L with
  | nil => intro s; exact StepB_refl s
  | cons p rest ih =>
    intro s
    rw [List.foldl_cons]
    exact StepB_trans (StepB_flag_stepB g p s) (ih _)

theorem StepB_flag_obviousB (g : CfgB) (s : StateB) : StepB s (flag_obviousB g s) := by
  unfold flag_obviousB
  split
  · exact StepB_refl s
  · exact StepB_flagPass g _ s

theorem StepB_clickPass (g : CfgB) (cf : Nat) :
    ∀ (L : List (Nat × Nat)) (s sT : StateB),
      clickPassGoB g cf L s = some sT → StepB s sT := by
  intro L
  induction L with
  | nil =>
    intro s sT h
    rw [show clickPassGoB g cf [] s = some s from rfl] at h
    cases h
    exact StepB_refl s
  | cons p rest ih =>
    intro s sT h
    rw [show clickPassGoB g cf (p :: rest) s
        = (match click_stepB g cf p s with
           | none => none
           | some s1 => clickPassGoB g cf rest s1) from rfl] at h
    cases hx : click_stepB g cf p s with
    | none => rw [hx] at h; cases h
    | some s1 =>
      rw [hx] at h
      dsimp only at h
      exact StepB_trans (StepB_click_stepB g cf p s s1 hx) (ih s1 sT h)

theorem go_clickPass_mono (g : CfgB) (cf : Nat) :
    ∀ (L : List (Nat × Nat)) (s sT : StateB),
      clickPassGoB g cf L s = some sT → s.game_over = true → sT.game_over = true := by
  intro L
  induction L with
  | nil =>
    intro s sT h hgo
    rw [show clickPassGoB g cf [] s = some s from rfl] at h
    cases h
    exact hgo
  | cons p rest ih =>
    intro s sT h hgo
    rw [show clickPassGoB g cf (p :: rest) s
        = (match click_stepB g cf p s with
           | none => none
           | some s1 => clickPassGoB g cf rest s1) from rfl] at h
    cases hx : click_stepB g cf p s with
    | none => rw [hx] at h; cases h
    | some s1 =>
      rw [hx] at h
      dsimp only at h
      exact ih s1 sT h ((click_stepB_facts g cf p s s1 hx).1 hgo)

theorem snapshot_ne_idx (g : CfgB) {p q : Nat × Nat} (hq2 : q.2 < g.columns)
    (hp2 : p.2 < g.columns) (hne : q ≠ p) :
    q.1 * g.columns + q.2 ≠ p.1 * g.columns + p.2 := by
  intro he
  obtain ⟨e1, e2⟩ := MainGame.rowcol_inj hq2 hp2 he
  apply hne
  obtain ⟨qa, qb⟩ := q
  obtain ⟨pa, pb⟩ := p
  dsimp only at e1 e2
  rw [e1, e2]

/-- A flag pass over a pairwise-distinct list of active coordinates that
leaves the covered count alone changes no cell and weakly shrinks the
frontier measure — strictly, if it fired at all. -/
theorem flagPass_measure (g : CfgB) :
    ∀ (L : List (Nat × Nat)) (s : StateB),
      (∀ q ∈ L, actIdxB s (q.1 * g.columns + q.2) = true) →
      (∀ q ∈ L, q.1 < g.rows ∧ q.2 < g.columns) →
      L.Nodup →
      coveredCountB (L.foldl (fun s' p => flag_stepB g p s') s) = coveredCountB s →
      (L.foldl (fun s' p => flag_stepB g p s') s).cells = s.cells ∧
      frontMeasureB g (L.foldl (fun s' p => flag_stepB g p s') s) ≤ frontMeasureB g s ∧
      ((L.foldl (fun s' p => flag_stepB g p s') s).updated = true →
        s.updated = true ∨
        frontMeasureB g (L.foldl (fun s' p => flag_stepB g p s') s) < frontMeasureB g s) := by
  intro L
  induction L with
  | nil =>
    intro s _ _ _ _
    exact ⟨rfl, le_refl _, fun h => Or.inl h⟩
  | cons p rest ih =>
    intro s hactL hbL hnd hC
    rw [List.foldl_cons] at hC ⊢
    have hC1 : coveredCountB (flag_stepB g p s) = coveredCountB s := by
      have ha := coveredCountB_mono (StepB_flag_stepB g p s)
      have hb := coveredCountB_mono (StepB_flagPass g rest (flag_stepB g p s))
      omega
    have hCrest : coveredCountB (rest.foldl (fun s' p => flag_stepB g p s') (flag_stepB g p s))
        = coveredCountB (flag_stepB g p s) := by omega
    have hstep := flag_stepB_measure g p s hC1 (hactL p (List.mem_cons_self p rest))
      (hbL p (List.mem_cons_self p rest)).1 (hbL p (List.mem_cons_self p rest)).2
    rw [List.nodup_cons] at hnd
    have hactrest : ∀ q ∈ rest, actIdxB (flag_stepB g p s) (q.1 * g.columns + q.2) = true := by
      intro q hq
      apply flag_stepB_actpres g p s _ ?_ (hactL q (List.mem_cons_of_mem p hq))
      exact snapshot_ne_idx g (hbL q (List.mem_cons_of_mem p hq)).2
        (hbL p (List.mem_cons_self p rest)).2
        (fun he => hnd.1 (he ▸ hq))
    have hih := ih (flag_stepB g p s) hactrest
      (fun q hq => hbL q (List.mem_cons_of_mem p hq)) hnd.2 hCrest
    refine ⟨hih.1.trans hstep.1, le_trans hih.2.1 hstep.2.1, ?_⟩
    intro hu
    rcases hih.2.2 hu with h1 | h2
    · rcases hstep.2.2 h1 with h3 | h4
      · exact Or.inl h3
      · exact Or.inr (lt_of_le_of_lt hih.2.1 h4)
    · exact Or.inr (lt_of_lt_of_le h2 hstep.2.1)

/-- Same for the click pass. -/
theorem clickPass_measure (g : CfgB) (cf : Nat) :
    ∀ (L : List (Nat × Nat)) (s sT : StateB),
      clickPassGoB g cf L s = some sT →
      sT.game_over = false →
      coveredCountB sT = coveredCountB s →
      (∀ q ∈ L, actIdxB s (q.1 * g.columns + q.2) = true) →
      (∀ q ∈ L, q.1 < g.rows ∧ q.2 < g.columns) →
      L.Nodup →
      sT.cells = s.cells ∧ frontMeasureB g sT ≤ frontMeasureB g s ∧
      (sT.updated = true → s.updated = true ∨ frontMeasureB g sT < frontMeasureB g s) := by
  intro L
  induction L with
  | nil =>
    intro s sT h _ _ _ _ _
    rw [show clickPassGoB g cf [] s = some s from rfl] at h
    cases h
    exact ⟨rfl, le_refl _, fun hu => Or.inl hu⟩
  | cons p rest ih =>
    intro s sT h hgo hC hactL hbL hnd
    rw [show clickPassGoB g cf (p :: rest) s
        = (match click_stepB g cf p s with
           | none => none
           | some s1 => clickPassGoB g cf rest s1) from rfl] at h
    cases hres : click_stepB g cf p s with
    | none => rw [hres] at h; cases h
    | some s1 =>
      rw [hres] at h
      dsimp only at h
      have hgo1 : s1.game_over = false := by
        cases hx : s1.game_over
        · rfl
        · exfalso
          have := go_clickPass_mono g cf rest s1 sT h hx
          rw [hgo] at this
          cases this
      have hC1 : coveredCountB s1 = coveredCountB s := by
        have ha := coveredCountB_mono (StepB_click_stepB g cf p s s1 hres)
        have hb := coveredCountB_mono (StepB_clickPass g cf rest s1 sT h)
        omega
      have hCrest : coveredCountB sT = coveredCountB s1 := by omega
      have hstep := click_stepB_measure g cf p s s1 hres hgo1 hC1
        (hactL p (List.mem_cons_self p rest))
        (hbL p (List.mem_cons_self p rest)).1 (hbL p (List.mem_cons_self p rest)).2
      rw [List.nodup_cons] at hnd
      have hactrest : ∀ q ∈ rest, actIdxB s1 (q.1 * g.columns + q.2) = true := by
        intro q hq
        apply (click_stepB_facts g cf p s s1 hres).2 _ ?_
          (hactL q (List.mem_cons_of_mem p hq))
        exact snapshot_ne_idx g (hbL q (List.mem_cons_of_mem p hq)).2
          (hbL p (List.mem_cons_self p rest)).2
          (fun he => hnd.1 (he ▸ hq))
      have hih := ih s1 sT h hgo hCrest hactrest
        (fun q hq => hbL q (List.mem_cons_of_mem p hq)) hnd.2
      refine ⟨hih.1.trans hstep.1, le_trans hih.2.1 hstep.2.1, ?_⟩
      intro hu
      rcases hih.2.2 hu with h1 | h2
      · rcases hstep.2.2 h1 with h3 | h4
        · exact Or.inl h3
        · exact Or.inr (lt_of_le_of_lt hih.2.1 h4)
      · exact Or.inr (lt_of_lt_of_le h2 hstep.2.1)

/-! #### The active snapshot -/

theorem mem_gridCoords (g : CfgB) (q : Nat × Nat) (hq : q ∈ gridCoords g) :
    q.1 < g.rows ∧ q.2 < g.columns := by
  unfold gridCoords at hq
  rw [List.mem_map] at hq
  obtain ⟨i, hi, hqi⟩ := hq
  rw [List.mem_range] at hi
  have hc : 0 < g.columns := by
    rcases Nat.eq_zero_or_pos g.columns with h0 | h0
    · rw [h0, Nat.mul_zero] at hi; omega
    · exact h0
  subst hqi
  exact ⟨Nat.div_lt_of_lt_mul (by rw [Nat.mul_comm]; exact hi), Nat.mod_lt _ hc⟩

theorem mem_list_active (g : CfgB) (s : StateB) (q : Nat × Nat)
    (hq : q ∈ list_active_cellsB g s) :
    actIdxB s (q.1 * g.columns + q.2) = true ∧ q.1 < g.rows ∧ q.2 < g.columns := by
  unfold list_active_cellsB at hq
  rw [List.mem_filter] at hq
  obtain ⟨hg, hact⟩ := hq
  obtain ⟨h1, h2⟩ := mem_gridCoords g q hg
  refine ⟨?_, h1, h2⟩
  unfold activeAt at hact
  have hin : inBB g (↑q.1) (↑q.2) = true := by
    rw [inBB_iff]
    refine ⟨Int.ofNat_nonneg _, by exact_mod_cast h1, Int.ofNat_nonneg _, by exact_mod_cast h2⟩
  rw [if_pos hin] at hact
  have hidx : idxB g (↑q.1) (↑q.2) = q.1 * g.columns + q.2 := by
    unfold idxB
    simp [Int.toNat_ofNat]
  rw [hidx] at hact
  exact hact

theorem nodup_list_active (g : CfgB) (s : StateB) : (list_active_cellsB g s).Nodup := by
  unfold list_active_cellsB
  apply List.Nodup.filter
  unfold gridCoords
  apply List.Nodup.map_on ?_ (List.nodup_range _)
  intro i hi j hj he
  rw [List.mem_range] at hi hj
  have h1 : i / g.columns = j / g.columns := congrArg Prod.fst he
  have h2 : i % g.columns = j % g.columns := congrArg Prod.snd he
  have d1 := Nat.div_add_mod i g.columns
  have d2 := Nat.div_add_mod j g.columns
  rw [h1, h2] at d1
  omega

/-! #### A continuing pass strictly shrinks the measure -/

theorem pass_measure_core (g : CfgB) (cf : Nat) (s0 sF s2 : StateB)
    (hF : (list_active_cellsB g s0).foldl (fun s' p => flag_stepB g p s') s0 = sF)
    (hclick : clickPassGoB g cf (list_active_cellsB g sF) sF = some s2)
    (hupd0 : s0.updated = false)
    (hgo2 : s2.game_over = false)
    (hupd : s2.updated = true) :
    solveMeasureB g s2 < solveMeasureB g s0 := by
  have hstepF : StepB s0 sF := by
    rw [← hF]
    exact StepB_flagPass g _ s0
  have hstepC : StepB sF s2 := StepB_clickPass g cf _ sF s2 hclick
  have hCF := coveredCountB_mono hstepF
  have hC2 := coveredCountB_mono hstepC
  by_cases hCeq : coveredCountB s2 = coveredCountB s0
  case neg =>
    have hlt : coveredCountB s2 < coveredCountB s0 := by omega
    unfold solveMeasureB
    have hfm := frontMeasureB_lt g s2
    have h3 : (coveredCountB s2 + 1)
          * ((g.rows * g.columns + 1) * (g.rows * g.columns + 1))
        ≤ coveredCountB s0 * ((g.rows * g.columns + 1) * (g.rows * g.columns + 1)) :=
      Nat.mul_le_mul_right _ (by omega)
    have h4 : (coveredCountB s2 + 1)
          * ((g.rows * g.columns + 1) * (g.rows * g.columns + 1))
        = coveredCountB s2 * ((g.rows * g.columns + 1) * (g.rows * g.columns + 1))
          + (g.rows * g.columns + 1) * (g.rows * g.columns + 1) := by ring
    omega
  case pos =>
    have hCF2 : coveredCountB sF = coveredCountB s0 := by omega
    have hC22 : coveredCountB s2 = coveredCountB sF := by omega
    have hflagm := flagPass_measure g (list_active_cellsB g s0) s0
      (fun q hq => (mem_list_active g s0 q hq).1)
      (fun q hq => (mem_list_active g s0 q hq).2)
      (nodup_list_active g s0) (by rw [hF]; exact hCF2)
    rw [hF] at hflagm
    have hclickm := clickPass_measure g cf (list_active_cellsB g sF) sF s2 hclick hgo2 hC22
      (fun q hq => (mem_list_active g sF q hq).1)
      (fun q hq => (mem_list_active g sF q hq).2)
      (nodup_list_active g sF)
    have hfm2 : frontMeasureB g s2 < frontMeasureB g s0 := by
      rcases hclickm.2.2 hupd with h1 | h2
      · rcases hflagm.2.2 h1 with h3 | h4
        · rw [hupd0] at h3
          cases h3
        · exact lt_of_le_of_lt hclickm.2.1 h4
      · exact lt_of_lt_of_le h2 hflagm.2.1
    unfold solveMeasureB
    rw [hCeq]
    omega

/-- One iteration of the `solve` loop body: a covered-monotone step, and if
it records progress without ending the game it strictly shrinks the
measure. -/
theorem solve_pass_measure (g : CfgB) (cf : Nat) (s s2 : StateB)
    (hgo : s.game_over = false)
    (h : solve_passB g cf s = some s2) :
    StepB s s2 ∧
    (s2.updated = true → s2.game_over = false →
      solveMeasureB g s2 < solveMeasureB g s) := by
  unfold solve_passB double_left_click_obviousB at h
  have hflag : flag_obviousB g ({ s with updated := false } : StateB)
      = (list_active_cellsB g ({ s with updated := false } : StateB)).foldl
          (fun s' p => flag_stepB g p s') ({ s with updated := false } : StateB) := by
    unfold flag_obviousB
    rw [if_neg (by simp [hgo])]
  rw [hflag] at h
  constructor
  · exact StepB_trans (StepB_of_cells_eq rfl)
      (StepB_trans (StepB_flagPass g _ ({ s with updated := false } : StateB))
        (StepB_clickPass g cf _ _ s2 h))
  · intro hupd hgo2
    have hcore := pass_measure_core g cf ({ s with updated := false } : StateB) _ s2
      rfl h rfl hgo2 hupd
    have hms : solveMeasureB g ({ s with updated := false } : StateB) = solveMeasureB g s :=
      solveMeasureB_congr g rfl rfl
    omega

/-! #### Enough cascade fuel makes every pass total -/

theorem nbrsGoB_total (g : CfgB) (rec : Int → Int → StateB → Option StateB) (n : Nat)
    (hrecStep : ∀ (r c : Int) (s s' : StateB), rec r c s = some s' → StepB s s')
    (hrec : ∀ (r c : Int) (s : StateB) (cl : CellB), getB g s r c = some cl →
      cl.state = CState.covered → coveredCountB s ≤ n → (rec r c s).isSome = true) :
    ∀ (offs : List (Int × Int)) (r c : Int) (s : StateB), coveredCountB s ≤ n →
      (nbrsGoB g rec offs r c s).isSome = true := by
  intro offs
  induction offs with
  | nil => intro r c s _; rfl
  | cons o rest ih =>
    intro r c s hcnt
    rw [show nbrsGoB g rec (o :: rest) r c s
        = (match getB g s (r + o.1) (c + o.2) with
          | some cell =>
            if cell.state = CState.covered then
              match rec (r + o.1) (c + o.2) s with
              | none => none
              | some s1 => nbrsGoB g rec rest r c s1
            else nbrsGoB g rec rest r c s
          | none => nbrsGoB g rec rest r c s) from rfl]
    cases hget : getB g s (r + o.1) (c + o.2) with
    | none =>
      dsimp only
      exact ih r c s hcnt
    | some cell =>
      dsimp only
      by_cases hcov : cell.state = CState.covered
      · rw [if_pos hcov]
        have hu := hrec _ _ s cell hget hcov hcnt
        cases hres : rec (r + o.1) (c + o.2) s with
        | none => rw [hres] at hu; cases hu
        | some s1 =>
          dsimp only
          have hmono := coveredCountB_mono (hrecStep _ _ _ _ hres)
          exact ih r c s1 (by omega)
      · rw [if_neg hcov]
        exact ih r c s hcnt

theorem uncoverWith_total (g : CfgB) (fu : Nat) (r c : Int) (s : StateB) (cl : CellB)
    (hget : getB g s r c = some cl) (hcov : cl.state = CState.covered)
    (hcnt : coveredCountB s ≤ fu + 1)
    (ih : ∀ (a b : Int) (t : StateB) (cl' : CellB), getB g t a b = some cl' →
      cl'.state = CState.covered → coveredCountB t ≤ fu →
      (left_clickB g fu a b t).isSome = true) :
    (uncoverWith g (some (left_clickB g fu)) r c s).isSome = true := by
  unfold uncoverWith
  dsimp only
  have hlt : coveredCountB (setStateB g s r c CState.uncovered) < coveredCountB s :=
    coveredCountB_set_lt g s r c cl CState.uncovered hget hcov (by intro hh; cases hh)
  split
  · have htot := nbrsGoB_total g (left_clickB g fu) fu
      (fun a b t t' hh => StepB_left_clickB g fu a b t t' hh)
      (fun a b t cl' h1 h2 h3 => ih a b t cl' h1 h2 h3)
      offsAll r c (setStateB g s r c CState.uncovered) (by omega)
    cases hx : nbrsGoB g (left_clickB g fu) offsAll r c (setStateB g s r c CState.uncovered) with
    | none => rw [hx] at htot; cases htot
    | some t => rfl
  · rfl

theorem left_clickB_total (g : CfgB) :
    ∀ (fuel : Nat) (r c : Int) (s : StateB) (cl : CellB),
      getB g s r c = some cl → cl.state = CState.covered → coveredCountB s ≤ fuel →
      (left_clickB g fuel r c s).isSome = true := by
  intro fuel
  induction fuel with
  | zero =>
    intro r c s cl hget hcov hcnt
    exfalso
    have := coveredCountB_pos hget hcov
    omega
  | succ fu ih =>
    intro r c s cl hget hcov hcnt
    rw [left_clickB, hget]
    dsimp only
    rw [if_pos hcov]
    by_cases hgen : s.generated_bombs = false
    · rw [if_pos hgen]
      have hg2 : ∃ cl2, getB g (generate_bombsB g s) r c = some cl2 ∧
          cl2.state = CState.covered := by
        have hst := state_generate g s r c
        rw [hget] at hst
        cases hx : getB g (generate_bombsB g s) r c with
        | none => rw [hx] at hst; cases hst
        | some cl2 =>
          rw [hx] at hst
          simp at hst
          exact ⟨cl2, rfl, by rw [hst, hcov]⟩
      obtain ⟨cl2, hget2, hcov2⟩ := hg2
      have hcnt2 : coveredCountB (generate_bombsB g s) ≤ fu + 1 := by
        rw [coveredCountB_generate g s]
        exact hcnt
      exact uncoverWith_total g fu r c (generate_bombsB g s) cl2 hget2 hcov2 hcnt2
        (fun a b t cl' h1 h2 h3 => ih a b t cl' h1 h2 h3)
    · rw [if_neg hgen]
      by_cases hbm : cl.is_bomb = true
      · rw [if_pos hbm]
        rfl
      · rw [if_neg hbm]
        have htot := uncoverWith_total g fu r c s cl hget hcov hcnt
          (fun a b t cl' h1 h2 h3 => ih a b t cl' h1 h2 h3)
        cases hx : uncoverWith g (some (left_clickB g fu)) r c s with
        | none => rw [hx] at htot; cases htot
        | some t => rfl

theorem uncover_neighborsB_total (g : CfgB) (cf : Nat) (r c : Int) (s : StateB)
    (hcnt : coveredCountB s < cf) : (uncover_neighborsB g cf r c s).isSome = true := by
  cases cf with
  | zero => exact absurd hcnt (Nat.not_lt_zero _)
  | succ cfu =>
    rw [show uncover_neighborsB g (cfu + 1) r c s
        = (nbrsGoB g (left_clickB g cfu) offsAll r c s).map
            (fun s2 => insertGoB g offsAll r c s2) from rfl]
    have htot := nbrsGoB_total g (left_clickB g cfu) cfu
      (fun a b t t' hh => StepB_left_clickB g cfu a b t t' hh)
      (fun a b t cl h1 h2 h3 => left_clickB_total g cfu a b t cl h1 h2 h3)
      offsAll r c s (by omega)
    cases hx : nbrsGoB g (left_clickB g cfu) offsAll r c s with
    | none => rw [hx] at htot; cases htot
    | some t => rfl

theorem double_left_clickB_total (g : CfgB) (cf : Nat) (r c : Int) (s : StateB)
    (hcnt : coveredCountB s < cf) : (double_left_clickB g cf r c s).isSome = true := by
  unfold double_left_clickB
  cases hget : getB g s r c with
  | none => rfl
  | some cell =>
    dsimp only
    by_cases hcond : cell.state = CState.uncovered ∧ nflagsB g s r c = nbombsB g s r c
    · rw [if_pos hcond]
      have htot := uncover_neighborsB_total g cf r c s hcnt
      cases hx : uncover_neighborsB g cf r c s with
      | none => rw [hx] at htot; cases htot
      | some t => rfl
    · rw [if_neg hcond]
      rfl

theorem click_stepB_total (g : CfgB) (cf : Nat) (p : Nat × Nat) (s : StateB)
    (hcnt : coveredCountB s < cf) : (click_stepB g cf p s).isSome = true := by
  unfold click_stepB
  split
  · have htot := double_left_clickB_total g cf (↑p.1) (↑p.2) s hcnt
    cases hx : double_left_clickB g cf (↑p.1) (↑p.2) s with
    | none => rw [hx] at htot; cases htot
    | some t => rfl
  · rfl

theorem clickPass_total (g : CfgB) (cf : Nat) :
    ∀ (L : List (Nat × Nat)) (s : StateB), coveredCountB s < cf →
      (clickPassGoB g cf L s).isSome = true := by
  intro L
  induction L with
  | nil => intro s _; rfl
  | cons p rest ih =>
    intro s hcnt
    rw [show clickPassGoB g cf (p :: rest) s
        = (match click_stepB g cf p s with
           | none => none
           | some s1 => clickPassGoB g cf rest s1) from rfl]
    have htot := click_stepB_total g cf p s hcnt
    cases hx : click_stepB g cf p s with
    | none => rw [hx] at htot; cases htot
    | some s1 =>
      dsimp only
      have := coveredCountB_mono (StepB_click_stepB g cf p s s1 hx)
      exact ih s1 (by omega)

theorem solve_passB_total (g : CfgB) (cf : Nat) (s : StateB)
    (hcnt : coveredCountB s < cf) : (solve_passB g cf s).isSome = true := by
  unfold solve_passB double_left_click_obviousB
  apply clickPass_total
  have h1 := coveredCountB_mono (StepB_flag_obviousB g ({ s with updated := false } : StateB))
  have h0 : coveredCountB ({ s with updated := false } : StateB) = coveredCountB s :=
    coveredCountB_cells_congr rfl
  omega

/-! #### The loop -/

theorem solveLoopB_fix (g : CfgB) (cf : Nat) :
    ∀ (lf : Nat) (s sT : StateB), solveLoopB g lf cf s = some sT →
      (sT.updated = false ∨ sT.game_over = true) ∧ StepB s sT := by
  intro lf
  induction lf with
  | zero =>
    intro s sT h
    rw [solveLoopB] at h
    by_cases hcond : s.updated = true ∧ s.game_over = false
    · rw [if_pos hcond] at h
      cases h
    · rw [if_neg hcond] at h
      injection h with h1
      subst h1
      refine ⟨?_, StepB_refl s⟩
      by_cases hu : s.updated = true
      · right
        cases hx : s.game_over
        · exact absurd ⟨hu, hx⟩ hcond
        · rfl
      · left
        cases hx : s.updated
        · rfl
        · exact absurd hx hu
  | succ lf ih =>
    intro s sT h
    rw [solveLoopB] at h
    by_cases hcond : s.updated = true ∧ s.game_over = false
    · rw [if_pos hcond] at h
      cases hp : solve_passB g cf s with
      | none =>
        rw [hp] at h
        cases h
      | some s2 =>
        rw [hp] at h
        have h2 : solveLoopB g lf cf s2 = some sT := h
        obtain ⟨hfix, hstep⟩ := ih s2 sT h2
        exact ⟨hfix, StepB_trans (solve_pass_measure g cf s s2 hcond.2 hp).1 hstep⟩
    · rw [if_neg hcond] at h
      injection h with h1
      subst h1
      refine ⟨?_, StepB_refl s⟩
      by_cases hu : s.updated = true
      · right
        cases hx : s.game_over
        · exact absurd ⟨hu, hx⟩ hcond
        · rfl
      · left
        cases hx : s.updated
        · rfl
        · exact absurd hx hu

theorem solveLoopB_total (g : CfgB) (cf : Nat) :
    ∀ (lf : Nat) (s : StateB), solveMeasureB g s < lf → coveredCountB s < cf →
      (solveLoopB g lf cf s).isSome = true := by
  intro lf
  induction lf with
  | zero => intro s hm _; exact absurd hm (Nat.not_lt_zero _)
  | succ lf ih =>
    intro s hm hc
    rw [solveLoopB]
    by_cases hcond : s.updated = true ∧ s.game_over = false
    · rw [if_pos hcond]
      have hps := solve_passB_total g cf s hc
      cases hp : solve_passB g cf s with
      | none =>
        rw [hp] at hps
        cases hps
      | some s2 =>
        show (solveLoopB g lf cf s2).isSome = true
        have hpm := solve_pass_measure g cf s s2 hcond.2 hp
        have hCm : coveredCountB s2 ≤ coveredCountB s := coveredCountB_mono hpm.1
        by_cases hcont : s2.updated = true ∧ s2.game_over = false
        · have hlt : solveMeasureB g s2 < solveMeasureB g s := hpm.2 hcont.1 hcont.2
          exact ih s2 (by omega) (by omega)
        · cases lf with
          | zero => rw [solveLoopB, if_neg hcont]; rfl
          | succ lf2 => rw [solveLoopB, if_neg hcont]; rfl
    · rw [if_neg hcond]
      rfl

/-- C8 (corrected): `solve` terminates on every board state — the claim's
headline conclusion holds, but not for the claim's stated reason.  With
loop fuel above the lexicographic measure `solveMeasureB` (the covered
count, then the number of frontier cells with no covered neighbour, then
the frontier size) and cascade fuel above the covered count, the `solve`
loop always returns a state; it stops only at a pass fixpoint
(`updated = false`) or with the game over, and it never re-covers a cell
(`StepB`).  The claim's own quantity — covered cells adjacent to an active
cell — need not decrease at a successful rule application: see the
counterexample, where a flag-rule firing changes no cell at all. -/
theorem C8_solve_terminates (g : CfgB) (lf cf : Nat) (s : StateB)
    (hlf : solveMeasureB g s < lf) (hcf : coveredCountB s < cf) :
    (solveB g lf cf s).isSome = true ∧
    ∀ (sT : StateB) (r : SolveOutcome), solveB g lf cf s = some (sT, r) →
      (sT.updated = false ∨ sT.game_over = true) ∧ StepB s sT := by
  unfold solveB
  have hm : solveMeasureB g ({ s with updated := true } : StateB) = solveMeasureB g s :=
    solveMeasureB_congr g rfl rfl
  have hc2 : coveredCountB ({ s with updated := true } : StateB) = coveredCountB s :=
    coveredCountB_cells_congr rfl
  have htot := solveLoopB_total g cf lf ({ s with updated := true } : StateB)
    (by omega) (by omega)
  constructor
  · cases hx : solveLoopB g lf cf ({ s with updated := true } : StateB) with
    | none => rw [hx] at htot; cases htot
    | some s1 => rfl
  · intro sT r h
    rw [Option.map_eq_some'] at h
    obtain ⟨s1, h1, h2⟩ := h
    have hfix := solveLoopB_fix g cf lf ({ s with updated := true } : StateB) s1 h1
    have hs : s1 = sT := congrArg Prod.fst h2
    subst hs
    exact ⟨hfix.1, StepB_trans (StepB_of_cells_eq rfl) hfix.2⟩

/-- Witness for C8 at a concrete input: the fresh 1×1 zero-bomb solver
board satisfies both fuel bounds, and `solve` returns on it. -/
theorem C8_witness :
    (solveMeasureB ⟨1, 1, 0⟩ (initStateB ⟨1, 1, 0⟩) < 9 ∧
      coveredCountB (initStateB ⟨1, 1, 0⟩) < 4) ∧
    (solveB ⟨1, 1, 0⟩ 9 4 (initStateB ⟨1, 1, 0⟩)).isSome = true :=
  ⟨⟨by decide, by decide⟩,
   (C8_solve_terminates ⟨1, 1, 0⟩ 9 4 (initStateB ⟨1, 1, 0⟩) (by decide) (by decide)).1⟩

end SolverGame

/-! ## The cross-implementation claims C1 and C3

Both claims cite `main.py` *and* `minesweeper.py`, so their theorems pair a
Model A statement with a Model B statement. -/

/-- C1 (corrected): what the win check really does in each implementation.
In `main.py`, `has_won`'s running total hits 0 iff every non-bomb cell is
uncovered; on a win it flags the remaining bombs, disables every cell and
shows "You Win" — but it never assigns `game_over`.  In `minesweeper.py`,
`has_won` is a pure test that decrements its total for every cell that is
a bomb *or merely not covered* — a flagged safe cell also counts towards
the win, so the claimed "every non-bomb cell is Uncovered" equivalence
fails there — while the win path `win_game` flags the remaining bombs,
*does* set `game_over = True`, and shows "You Win". -/
theorem C1_has_won :
    (∀ (g : MainGame.Cfg) (s : MainGame.StateA),
      s.cells.length = g.WIDTH * g.HEIGHT →
      (MainGame.has_won_total g s = 0 ↔ MainGame.allNonBombUncovered s = true) ∧
      (MainGame.has_won_total g s = 0 →
        MainGame.allBombsFlagged (MainGame.has_won g s) = true ∧
        (MainGame.has_won g s).cells.all (fun cl => cl.disabled) = true ∧
        (MainGame.has_won g s).bombs_left = MainGame.MsgA.winMsg ∧
        (MainGame.has_won g s).game_over = s.game_over)) ∧
    (∀ (g : SolverGame.CfgB) (s : SolverGame.StateB),
      s.cells.length = g.rows * g.columns →
      (SolverGame.has_wonB g s = true ↔ SolverGame.allNonBombNotCovered s = true)) ∧
    (∀ (g : SolverGame.CfgB) (s : SolverGame.StateB),
      s.cells.length = g.rows * g.columns →
      SolverGame.allBombsFlaggedB (SolverGame.win_gameB g s) = true ∧
      (SolverGame.win_gameB g s).game_over = true ∧
      (SolverGame.win_gameB g s).message = SolverGame.MsgB.winMsg) :=
  ⟨fun g s hlen => MainGame.has_won_main_spec g s hlen,
   fun g s hlen => SolverGame.has_wonB_iff g s hlen,
   fun g s hlen => SolverGame.win_gameB_flags g s hlen⟩

/-- A Model B board refuting the claimed iff for `minesweeper.py`: one
flagged safe cell, one uncovered safe cell, no bombs. -/
def c1bstate : SolverGame.StateB :=
  { cells := [⟨SolverGame.CState.flagged, false⟩, ⟨SolverGame.CState.uncovered, false⟩],
    active := [false, false], generated_bombs := true, game_over := false,
    message := SolverGame.MsgB.num 0, bombs_left := 0, updated := false }

/-- C1 counterexample: (a) a complete 9×9 `main.py` game ends in a win with
`game_over` still false — `has_won` assigns it nowhere; (b) on a 1×2
`minesweeper.py` board with one Flagged and one Uncovered safe cell,
`has_won` returns true although not every non-bomb cell is Uncovered. -/
theorem C1_counterexample :
    ((((MainGame.left_cell_press ⟨9, 9, 10⟩ 100 MainGame.picks9 0 0
          (MainGame.initState ⟨9, 9, 10⟩)).bind
        (MainGame.double_left_cell_press ⟨9, 9, 10⟩ 100 0 0)).map
      (fun sf => (MainGame.allNonBombUncovered sf, MainGame.allBombsFlagged sf,
        sf.bombs_left, sf.game_over)))
      = some (true, true, MainGame.MsgA.winMsg, false)) ∧
    SolverGame.has_wonB ⟨1, 2, 0⟩ c1bstate = true ∧
    c1bstate.cells.all
      (fun cl => cl.is_bomb || decide (cl.state = SolverGame.CState.uncovered)) = false :=
  ⟨MainGame.mainA_win_trace, by decide, by decide⟩

/-- Witness for C1 at concrete inputs: the fresh 1×1 board of each
implementation. -/
theorem C1_witness :
    ((MainGame.initState ⟨1, 1, 0⟩).cells.length = 1 * 1 ∧
      (MainGame.has_won_total ⟨1, 1, 0⟩ (MainGame.initState ⟨1, 1, 0⟩) = 0 ↔
        MainGame.allNonBombUncovered (MainGame.initState ⟨1, 1, 0⟩) = true)) ∧
    ((SolverGame.initStateB ⟨1, 1, 0⟩).cells.length = 1 * 1 ∧
      (SolverGame.has_wonB ⟨1, 1, 0⟩ (SolverGame.initStateB ⟨1, 1, 0⟩) = true ↔
        SolverGame.allNonBombNotCovered (SolverGame.initStateB ⟨1, 1, 0⟩) = true)) :=
  ⟨⟨rfl, (C1_has_won.1 ⟨1, 1, 0⟩ (MainGame.initState ⟨1, 1, 0⟩) rfl).1⟩,
   ⟨rfl, C1_has_won.2.1 ⟨1, 1, 0⟩ (SolverGame.initStateB ⟨1, 1, 0⟩) rfl⟩⟩

/-- C3 (corrected): bomb placement per implementation.  `main.py`'s
`generate_board`, whenever its placement loop completes, leaves exactly
`BOMBS` bombs and keeps the seed cell and its whole Moore neighbourhood
(squared distance ≤ 2) clean.  `minesweeper.py`'s `generate_bombs` ignores
both the seed and the configured bomb count: its random loop is commented
out, and it unconditionally marks the ten hard-coded `bombSites` as bombs,
leaving every other cell alone. -/
theorem C3_generate_board_bomb_placement :
    (∀ (g : MainGame.Cfg) (picks : List (Fin g.WIDTH × Fin g.HEIGHT)) (r c : Int)
      (s0 : MainGame.StateA),
      s0.cells.length = g.WIDTH * g.HEIGHT →
      (∀ cl ∈ s0.cells, cl.bomb = false) →
      (MainGame.generate_board g picks r c s0).2 = 0 →
      MainGame.bombTotal (MainGame.generate_board g picks r c s0).1 = g.BOMBS ∧
      (∀ (p q : Int), MainGame.inB g p q = true →
        (p - r) * (p - r) + (q - c) * (q - c) ≤ 2 →
        MainGame.bombAt g (MainGame.generate_board g picks r c s0).1 p q = false)) ∧
    (∀ (g : SolverGame.CfgB) (s : SolverGame.StateB) (r c : Int),
      (SolverGame.getB g (SolverGame.generate_bombsB g s) r c).map (fun cl => cl.is_bomb)
        = (SolverGame.getB g s r c).map
            (fun cl => cl.is_bomb || decide ((r, c) ∈ SolverGame.bombSites))) :=
  ⟨fun g picks r c s0 hlen hfresh hdone =>
    MainGame.generate_board_spec g picks r c s0 hlen hfresh hdone,
   fun g s r c => SolverGame.generate_bombsB_bomb g s r c⟩

set_option maxRecDepth 10000 in
/-- C3 counterexample: on the default 9×9 board a first click at `(2, 4)`
generates a bomb *on the clicked seed cell itself*, and after the
`resize(16, 16, 40)` board change generation still places only 10 bombs
instead of the configured 40. -/
theorem C3_counterexample :
    SolverGame.bombAtB ⟨9, 9, 10⟩
      (SolverGame.generate_bombsB ⟨9, 9, 10⟩ (SolverGame.initStateB ⟨9, 9, 10⟩)) 2 4 = true ∧
    (SolverGame.generate_bombsB ⟨16, 16, 40⟩
      (SolverGame.initStateB ⟨16, 16, 40⟩)).cells.countP (fun cl => cl.is_bomb) = 10 ∧
    (10 : Nat) ≠ 40 :=
  ⟨by decide, by decide, by decide⟩

/-- Witness for C3 at concrete inputs: a 4×4 `main.py` run that completes
with its one bomb placed, and the Model B generation equation read off at
the seed site `(2, 4)` of the fresh default board. -/
theorem C3_witness :
    (((MainGame.initState ⟨4, 4, 1⟩).cells.length = 16 ∧
      (∀ cl ∈ (MainGame.initState ⟨4, 4, 1⟩).cells, cl.bomb = false) ∧
      (MainGame.generate_board ⟨4, 4, 1⟩ [((3 : Fin 4), (3 : Fin 4))] 0 0
        (MainGame.initState ⟨4, 4, 1⟩)).2 = 0) ∧
     MainGame.bombTotal (MainGame.generate_board ⟨4, 4, 1⟩ [((3 : Fin 4), (3 : Fin 4))] 0 0
       (MainGame.initState ⟨4, 4, 1⟩)).1 = 1) ∧
    ((SolverGame.getB ⟨9, 9, 10⟩ (SolverGame.generate_bombsB ⟨9, 9, 10⟩
        (SolverGame.initStateB ⟨9, 9, 10⟩)) 2 4).map (fun cl => cl.is_bomb)
      = (SolverGame.getB ⟨9, 9, 10⟩ (SolverGame.initStateB ⟨9, 9, 10⟩) 2 4).map
          (fun cl => cl.is_bomb || decide (((2 : Int), (4 : Int)) ∈ SolverGame.bombSites))) :=
  ⟨⟨⟨by rfl, by decide, by rfl⟩,
    (C3_generate_board_bomb_placement.1 ⟨4, 4, 1⟩ [((3 : Fin 4), (3 : Fin 4))] 0 0
      (MainGame.initState ⟨4, 4, 1⟩) (by rfl) (by decide) (by rfl)).1⟩,
   C3_generate_board_bomb_placement.2 ⟨9, 9, 10⟩ (SolverGame.initStateB ⟨9, 9, 10⟩) 2 4⟩

